import Mathlib

/-!
# vpMatrix: dense row-major matrices, resize and the SVD pseudo-inverse

A shallow embedding of `src/math/matrix/vpMatrix.cpp`.

* A `double` is modelled by a rational number. The functions named as in the source use
  exact arithmetic; those whose name ends in `Fl` take the rounding `fl` of each
  operation as a parameter, with `roundDouble` the rounding of IEEE 754 binary64
  (section "Arithmetic of `double`").
* An `int` size or index is a natural number: every claim is about sizes `≥ 0`, and
  products of sizes are taken without wrap-around. The sums `r + nrows` and `c + ncols`
  of the submatrix constructor are `int` sums that wrap around (`wrapInt`).
* The heap is explicit. `realloc` keeps the old cells it can and leaves the
  new cells with indeterminate contents, given by an `Uninit` oracle. A run in which
  `realloc` fails (the memory-allocation exception) is outside the model.
* A row pointer `data + k` is stored as the offset `k` into the buffer.
-/

namespace Visp

/-! ## Loops and raw memory -/

/-- The loop `for (i = 0; i < n; i++) s = body(i, s)`. -/
def forLoop {σ : Type} (n : Nat) (body : Nat → σ → σ) (s : σ) : σ :=
  (List.range n).foldl (fun acc i => body i acc) s

/-- Contents of memory that was allocated but never written: one value per cell index,
for buffers of doubles and for tables of row pointers. -/
structure Uninit where
  cell : Nat → ℚ
  ptr : Nat → Nat

/-- The C `realloc`: the result has `n` cells, the first `min n old.length` keep
their contents and the others hold whatever the allocator left there. -/
def realloc {α : Type} (fresh : Nat → α) (old : List α) (n : Nat) : List α :=
  (List.range n).map (fun i => (old[i]?).getD (fresh i))

/-- The call `memset(data, 0, n * sizeof(double))`. -/
def memset0 (data : List ℚ) (n : Nat) : List ℚ :=
  List.replicate n 0 ++ data.drop n

/-- The call `memcpy(dst, src, n * sizeof(double))`. -/
def memcpy (dst src : List ℚ) (n : Nat) : List ℚ :=
  src.take n ++ dst.drop n

/-! ## The matrix object -/

/-- The data members of `vpMatrix`. -/
structure vpMatrix where
  rowNum : Nat
  colNum : Nat
  data : List ℚ
  rowPtrs : List Nat
  dsize : Nat
  trsize : Nat

namespace vpMatrix

/-- The method `vpMatrix::init()`, which is also the default constructor. -/
def init : vpMatrix :=
  { rowNum := 0, colNum := 0, data := [], rowPtrs := [], dsize := 0, trsize := 0 }

/-- The accessor `getRows()`. -/
def getRows (M : vpMatrix) : Nat := M.rowNum

/-- The accessor `getCols()`. -/
def getCols (M : vpMatrix) : Nat := M.colNum

/-- Modelled from the spec: `operator[]` is declared in the header, which is not among
the sources. The row-index table entry `i` points to the start of row `i`, so `M[i][j]`
is the buffer cell at `rowPtrs[i] + j`. This is the bounds-checked read: `none` when
the table or the buffer has no such cell. -/
def elem? (M : vpMatrix) (i j : Nat) : Option ℚ :=
  (M.rowPtrs[i]?).bind (fun p => M.data[p + j]?)

/-- Modelled from the spec: the read `M[i][j]` as a value (an out-of-range read yields
`0` in the model). -/
def elem (M : vpMatrix) (i j : Nat) : ℚ := (M.elem? i j).getD 0

/-- Modelled from the spec: the write `M[i][j] = x`, through the row-index table (see
`elem?` for `operator[]`). -/
def setElem (M : vpMatrix) (i j : Nat) (x : ℚ) : vpMatrix :=
  match M.rowPtrs[i]? with
  | some p => { M with data := M.data.set (p + j) x }
  | none => M

/-- The loop `for (int i = 0; i < dsize; i += ncols) { *t++ = data + i; }` of `resize`:
`i` is the running offset, `k` the position of `t` in the table. The fuel is the number
of iterations still allowed; `dsize` of them always suffice. -/
def rowPtrLoop : Nat → Nat → Nat → Nat → Nat → List Nat → List Nat
  | 0, _, _, _, _, t => t
  | fuel + 1, i, k, dsize, ncols, t =>
    if i < dsize then rowPtrLoop fuel (i + ncols) (k + 1) dsize ncols (t.set k i) else t

/-- The reallocation part of `resize`: the buffer and the row-pointer table are
reallocated to the new sizes, the table is rebuilt by the row-pointer loop and the new
shape is recorded. -/
def reallocate (u : Uninit) (M : vpMatrix) (nrows ncols : Nat) : vpMatrix :=
  let dsize := nrows * ncols
  let data := realloc u.cell M.data dsize
  let trsize := nrows
  let rowPtrs := realloc u.ptr M.rowPtrs trsize
  let rowPtrs := rowPtrLoop dsize 0 0 dsize ncols rowPtrs
  { rowNum := nrows, colNum := ncols, data := data, rowPtrs := rowPtrs,
    dsize := dsize, trsize := trsize }

/-- The method `vpMatrix::resize(nrows, ncols, flagNullify)`. -/
def resize (u : Uninit) (M : vpMatrix) (nrows ncols : Nat) (flagNullify : Bool) : vpMatrix :=
  if nrows = M.rowNum ∧ ncols = M.colNum then
    if flagNullify then { M with data := memset0 M.data M.dsize } else M
  else
    let recopyNeeded : Bool := decide (ncols ≠ M.colNum)
    let copyTmp : List ℚ := if recopyNeeded then memcpy [] M.data M.dsize else []
    let rowTmp : Nat := if recopyNeeded then M.rowNum else 0
    let colTmp : Nat := if recopyNeeded then M.colNum else 0
    let M1 := reallocate u M nrows ncols
    if flagNullify then { M1 with data := memset0 M1.data M1.dsize }
    else if recopyNeeded then
      let minRow := if M1.rowNum < rowTmp then M1.rowNum else rowTmp
      let minCol := if M1.colNum < colTmp then M1.colNum else colTmp
      forLoop M1.rowNum (fun i M2 =>
        forLoop M1.colNum (fun j M3 =>
          if minRow > i ∧ minCol > j then M3.setElem i j (copyTmp.getD (i * colTmp + j) 0)
          else M3.setElem i j 0) M2) M1
    else M1

/-- The constructor `vpMatrix(int r, int c)`. -/
def mk2 (u : Uninit) (r c : Nat) : vpMatrix := resize u init r c true

end vpMatrix

/-! ## Copy, transpose and product -/

/-- The error codes of `vpMatrixException` that the member functions throw. -/
inductive vpMatrixException where
  | incorrectMatrixSizeError
  | subMatrixError
  | matrixError
  deriving DecidableEq, Repr

namespace vpMatrix

/-- The copy operator `vpMatrix::operator=(const vpMatrix &B)`. -/
def operatorAssign (u : Uninit) (self B : vpMatrix) : vpMatrix :=
  let M := resize u self B.rowNum B.colNum true
  { M with data := memcpy M.data B.data M.dsize }

/-- The method `vpMatrix::t()`. -/
def t (u : Uninit) (self : vpMatrix) : vpMatrix :=
  let At := resize u init self.colNum self.rowNum true
  forLoop self.rowNum (fun i At2 =>
    forLoop self.colNum (fun j At3 => At3.setElem j i (self.elem i j)) At2) At

/-- The product `vpMatrix::operator*(const vpMatrix &B)`. -/
def operatorMul (u : Uninit) (self B : vpMatrix) : Except vpMatrixException vpMatrix :=
  let p := resize u init self.rowNum B.colNum true
  if self.colNum ≠ B.rowNum then Except.error vpMatrixException.incorrectMatrixSizeError
  else
    let BcolNum := B.colNum
    let BrowNum := B.rowNum
    Except.ok (forLoop self.rowNum (fun i p2 =>
      forLoop BcolNum (fun j p3 =>
        let s := forLoop BrowNum (fun k s => s + self.elem i k * B.elem k j) 0
        p3.setElem i j s) p2) p)

/-! ## Column vectors -/

/-- Modelled from the spec: `vpColVector` is declared outside these sources. It is a
matrix with one column, and `resize(n)` gives it `n` rows (zeroed, as the flag of the
matrix `resize` defaults to true). -/
def colResize (u : Uninit) (w : vpMatrix) (n : Nat) : vpMatrix := resize u w n 1 true

/-- Modelled from the spec: the read `w[i]` of a `vpColVector`, the buffer cell `i`
(bounds-checked). -/
def colElem? (w : vpMatrix) (i : Nat) : Option ℚ := w.data[i]?

/-- Modelled from the spec: the read `w[i]` of a `vpColVector` as a value (an
out-of-range read yields `0` in the model). -/
def colElem (w : vpMatrix) (i : Nat) : ℚ := (w.colElem? i).getD 0

/-- Modelled from the spec: the write `w[i] = x` of a `vpColVector`. -/
def colSet (w : vpMatrix) (i : Nat) (x : ℚ) : vpMatrix := { w with data := w.data.set i x }

end vpMatrix

/-! ## The singular value decomposition -/

/-- What the external SVD routine computes: the entries of `U`, the singular values and
the entries of `V`. -/
structure SvdOutput where
  u : Nat → Nat → ℚ
  w : Nat → ℚ
  v : Nat → Nat → ℚ

/-- The external SVD routine (`svdNr` or `svdGsl`), a function of the shape and the
row-major buffer of the matrix it is called on. -/
abbrev SvdPrimitive := Nat → Nat → List ℚ → SvdOutput

namespace vpMatrix

/-- Modelled from the spec: the SVD primitive `svdNr(w, v)` is not among the sources. It
works in place: the matrix is overwritten with `U`, the singular values go to `w` and
the right singular vectors to `v`; no shape is changed. -/
def svdNr (prim : SvdPrimitive) (self w v : vpMatrix) : vpMatrix × vpMatrix × vpMatrix :=
  let out := prim self.rowNum self.colNum self.data
  (forLoop self.rowNum (fun i M2 =>
      forLoop self.colNum (fun j M3 => M3.setElem i j (out.u i j)) M2) self,
   forLoop self.colNum (fun k w2 => w2.colSet k (out.w k)) w,
   forLoop self.colNum (fun i M2 =>
      forLoop self.colNum (fun j M3 => M3.setElem i j (out.v i j)) M2) v)

/-- The method `vpMatrix::svd(w, v)`, compiled with `DEBUG_LEVEL1 == 0` (the other branch
does the same and then prints a diagnostic). Returns the matrix itself, `w` and `v`. -/
def svd (u : Uninit) (prim : SvdPrimitive) (self w v : vpMatrix) :
    vpMatrix × vpMatrix × vpMatrix :=
  let w := colResize u w self.getCols
  let v := resize u v self.getCols self.getCols true
  svdNr prim self w v

/-! ## The pseudo-inverse -/

/-- The local `nrows` of `pseudoInverse`. -/
def pinvRows (self : vpMatrix) : Nat :=
  if self.getRows ≥ self.getCols then self.getRows else self.getCols

/-- The local `ncols` of `pseudoInverse`. -/
def pinvCols (self : vpMatrix) : Nat :=
  if self.getRows ≥ self.getCols then self.getCols else self.getRows

/-- The local matrix `a` of `pseudoInverse` before the SVD call: a copy of the matrix
when it has at least as many rows as columns, of its transpose otherwise. -/
def pinvWork (u : Uninit) (self : vpMatrix) : vpMatrix :=
  let a := mk2 u (pinvRows self) (pinvCols self)
  if self.getRows ≥ self.getCols then operatorAssign u a self
  else operatorAssign u a (t u self)

/-- The call `a.svd(sv, v)` of `pseudoInverse`: the locals `a`, `sv` and `v` after it. -/
def pinvSvd (u : Uninit) (prim : SvdPrimitive) (self sv : vpMatrix) :
    vpMatrix × vpMatrix × vpMatrix :=
  let v := mk2 u (pinvCols self) (pinvCols self)
  let sv := colResize u sv (pinvCols self)
  svd u prim (pinvWork u self) sv v

/-- The loop of `pseudoInverse` that computes the highest singular value. -/
def pinvMaxsv (sv : vpMatrix) (ncols : Nat) : ℚ :=
  forLoop ncols (fun i maxsv => if |sv.colElem i| > maxsv then |sv.colElem i| else maxsv) 0

/-- The loop of `pseudoInverse` that computes the rank. -/
def pinvRank (sv : vpMatrix) (ncols : Nat) (maxsv seuilvp : ℚ) : Nat :=
  forLoop ncols (fun i rank => if |sv.colElem i| > maxsv * seuilvp then rank + 1 else rank) 0

/-- The triple loop of `pseudoInverse` that fills `a1`. -/
def pinvA1 (a1 a sv v : vpMatrix) (nrows ncols : Nat) (maxsv seuilvp : ℚ) : vpMatrix :=
  forLoop ncols (fun i M2 =>
    forLoop nrows (fun j M3 =>
      forLoop ncols (fun k M4 =>
        if |sv.colElem k| > maxsv * seuilvp then
          M4.setElem i j (M4.elem i j + v.elem i k * a.elem j k / sv.colElem k)
        else M4) (M3.setElem i j 0)) M2) a1

/-- The loops `dst[i][j] = src[i][j]` for `i < n`, `j < rank` that extract an image
basis in `pseudoInverse`. -/
def pinvImage (dst src : vpMatrix) (n rank : Nat) : vpMatrix :=
  forLoop n (fun i M2 => forLoop rank (fun j M3 => M3.setElem i j (src.elem i j)) M2) dst

/-- What `pseudoInverse` hands back: the returned rank and the output parameters. -/
structure PseudoInverseResult where
  rank : Nat
  Ap : vpMatrix
  sv : vpMatrix
  imA : vpMatrix
  imAt : vpMatrix

/-- The method `vpMatrix::pseudoInverse(Ap, sv, seuilvp, imA, imAt)`, compiled with
`DEBUG_LEVEL1 == 0` (the self-check at its end only prints). -/
def pseudoInverse (u : Uninit) (prim : SvdPrimitive) (self Ap sv : vpMatrix) (seuilvp : ℚ)
    (imA imAt : vpMatrix) : PseudoInverseResult :=
  let nrows_orig := self.getRows
  let ncols_orig := self.getCols
  let Ap := resize u Ap ncols_orig nrows_orig true
  let nrows := pinvRows self
  let ncols := pinvCols self
  let a1 := mk2 u ncols nrows
  let s := pinvSvd u prim self sv
  let a := s.1
  let sv := s.2.1
  let v := s.2.2
  let maxsv := pinvMaxsv sv ncols
  let rank := pinvRank sv ncols maxsv seuilvp
  let a1 := pinvA1 a1 a sv v nrows ncols maxsv seuilvp
  let Ap := if nrows_orig ≥ ncols_orig then operatorAssign u Ap a1
    else operatorAssign u Ap (t u a1)
  if nrows_orig ≥ ncols_orig then
    let imAt := resize u imAt ncols_orig rank true
    let imAt := pinvImage imAt v ncols_orig rank
    let imA := resize u imA nrows_orig rank true
    let imA := pinvImage imA a nrows_orig rank
    { rank := rank, Ap := Ap, sv := sv, imA := imA, imAt := imAt }
  else
    let imAt := resize u imAt ncols_orig rank true
    let imAt := pinvImage imAt a ncols_orig rank
    let imA := resize u imA nrows_orig rank true
    let imA := pinvImage imA v nrows_orig rank
    { rank := rank, Ap := Ap, sv := sv, imA := imA, imAt := imAt }

/-- The guard `fabs(sv[k]) > maxsv*seuilvp` of `pseudoInverse`, evaluated on the singular
values that the SVD call left in `sv`. -/
def pinvPasses (u : Uninit) (prim : SvdPrimitive) (self sv : vpMatrix) (seuilvp : ℚ)
    (k : Nat) : Prop :=
  |(pinvSvd u prim self sv).2.1.colElem k| >
    pinvMaxsv (pinvSvd u prim self sv).2.1 (pinvCols self) * seuilvp

instance (u : Uninit) (prim : SvdPrimitive) (self sv : vpMatrix) (seuilvp : ℚ) :
    DecidablePred (pinvPasses u prim self sv seuilvp) :=
  fun _ => by unfold pinvPasses; infer_instance

end vpMatrix

/-! ## Sum, difference, identity, `AtA` and the solver -/

namespace vpMatrix

/-- The sum `vpMatrix::operator+(const vpMatrix &B)`. -/
def operatorAdd (u : Uninit) (self B : vpMatrix) : Except vpMatrixException vpMatrix :=
  let v := resize u init self.rowNum self.colNum true
  if self.colNum ≠ B.getCols ∨ self.rowNum ≠ B.getRows then
    Except.error vpMatrixException.incorrectMatrixSizeError
  else
    Except.ok { v with data := forLoop self.dsize (fun i d =>
      d.set i ((B.data[i]?).getD 0 + (self.data[i]?).getD 0)) v.data }

/-- The difference `vpMatrix::operator-(const vpMatrix &B)`. -/
def operatorSub (u : Uninit) (self B : vpMatrix) : Except vpMatrixException vpMatrix :=
  let v := resize u init self.rowNum self.colNum true
  if self.colNum ≠ B.getCols ∨ self.rowNum ≠ B.getRows then
    Except.error vpMatrixException.incorrectMatrixSizeError
  else
    Except.ok { v with data := forLoop self.dsize (fun i d =>
      d.set i ((self.data[i]?).getD 0 - (B.data[i]?).getD 0)) v.data }

/-- The loops of `setIdentity` and `eye` that write `1` on the diagonal and `0` elsewhere. -/
def identityLoops (self : vpMatrix) : vpMatrix :=
  forLoop self.rowNum (fun i M2 =>
    forLoop self.colNum (fun j M3 =>
      if i = j then M3.setElem i j 1 else M3.setElem i j 0) M2) self

/-- The method `vpMatrix::setIdentity()`. -/
def setIdentity (self : vpMatrix) : Except vpMatrixException vpMatrix :=
  if self.rowNum ≠ self.colNum then Except.error vpMatrixException.matrixError
  else Except.ok (identityLoops self)

/-- The method `vpMatrix::setIdentity()` with the state of the object after the call made
explicit: the matrix as the call leaves it, and the exception if one is thrown. -/
def setIdentityRun (self : vpMatrix) : vpMatrix × Option vpMatrixException :=
  if self.rowNum ≠ self.colNum then (self, some vpMatrixException.matrixError)
  else (identityLoops self, none)

/-- The method `vpMatrix::eye(int m, int n)`. -/
def eye2 (u : Uninit) (self : vpMatrix) (m n : Nat) : vpMatrix :=
  identityLoops (resize u self m n true)

/-- The method `vpMatrix::eye(int n)`. -/
def eye (u : Uninit) (self : vpMatrix) (n : Nat) : vpMatrix := eye2 u self n n

/-- The assignment `vpMatrix::operator=(double x)`. -/
def operatorAssignScalar (self : vpMatrix) (x : ℚ) : vpMatrix :=
  { self with data := forLoop self.dsize (fun i d => d.set i x) self.data }

/-- The product `vpMatrix::operator*(const vpColVector &b)`. Modelled from the spec for
the parts of `vpColVector` it uses: the constructor `vpColVector c(n)` is the empty vector
resized to `n` entries, and `c = 0.0` sets every entry. -/
def operatorMulVec (u : Uninit) (self b : vpMatrix) : Except vpMatrixException vpMatrix :=
  let c := colResize u init self.rowNum
  if self.colNum ≠ b.getRows then Except.error vpMatrixException.incorrectMatrixSizeError
  else
    let c := operatorAssignScalar c 0
    Except.ok (forLoop self.colNum (fun j c2 =>
      let bj := b.colElem j
      forLoop self.rowNum (fun i c3 =>
        c3.colSet i (c3.colElem i + self.elem i j * bj)) c2) c)

/-- The overload `vpMatrix::pseudoInverse(Ap, sv, seuilvp)`: `imA` and `imAt` are fresh
locals. -/
def pseudoInverse3 (u : Uninit) (prim : SvdPrimitive) (self Ap sv : vpMatrix)
    (seuilvp : ℚ) : PseudoInverseResult :=
  pseudoInverse u prim self Ap sv seuilvp init init

/-- The overload `vpMatrix::pseudoInverse(double svThreshold)`: `Ap` and `sv` are fresh
locals and `Ap` is returned. -/
def pseudoInverse1 (u : Uninit) (prim : SvdPrimitive) (self : vpMatrix)
    (svThreshold : ℚ) : vpMatrix :=
  (pseudoInverse3 u prim self init init svThreshold).Ap

/-- The method `vpMatrix::solveBySVD(b, x)`: returns the new `x`. Modelled from the spec
for the copy `x = ...` of `vpColVector`, which is the copy operator of the matrix. -/
def solveBySVD (u : Uninit) (prim : SvdPrimitive) (self b x : vpMatrix) :
    Except vpMatrixException vpMatrix :=
  match operatorMulVec u (pseudoInverse1 u prim self (1 / 1000000)) b with
  | Except.ok c => Except.ok (operatorAssign u x c)
  | Except.error e => Except.error e

/-- The method `vpMatrix::SVDsolve(B)`. -/
def SVDsolve (u : Uninit) (prim : SvdPrimitive) (self B : vpMatrix) :
    Except vpMatrixException vpMatrix :=
  let X := colResize u init self.colNum
  solveBySVD u prim self B X

end vpMatrix

/-! ## Norms, stacking, submatrix, determinant and printing -/

namespace vpMatrix

/-- The method `vpMatrix::sumSquare()`: the pointer `d` walks over the `dsize` cells of
the buffer, here as the index of the cell. -/
def sumSquare (self : vpMatrix) : ℚ :=
  forLoop self.dsize (fun i sum =>
    let x := (self.data[i]?).getD 0
    sum + x * x) 0

/-- The method `vpMatrix::euclidianNorm()`. -/
def euclidianNorm (self : vpMatrix) : ℚ :=
  forLoop self.dsize (fun i norm =>
    let x := (self.data[i]?).getD 0
    norm + x * x) 0

/-- The method `vpMatrix::stackMatrices(A, B, C)`: returns the new `C`. The nested test
`if (nra != 0) if (A.getCols() != B.getCols())` is written as a conjunction. -/
def stackMatrices3 (u : Uninit) (A B C : vpMatrix) : Except vpMatrixException vpMatrix :=
  let nra := A.getRows
  let nrb := B.getRows
  if nra ≠ 0 ∧ A.getCols ≠ B.getCols then
    Except.error vpMatrixException.incorrectMatrixSizeError
  else
    let C1 := resize u C (nra + nrb) B.getCols true
    let C2 := forLoop nra (fun i M2 =>
      forLoop A.getCols (fun j M3 => M3.setElem i j (A.elem i j)) M2) C1
    Except.ok (forLoop nrb (fun i M2 =>
      forLoop B.getCols (fun j M3 => M3.setElem (i + nra) j (B.elem i j)) M2) C2)

/-- The method `vpMatrix::stackMatrices(A, B)`. -/
def stackMatrices (u : Uninit) (A B : vpMatrix) : Except vpMatrixException vpMatrix :=
  stackMatrices3 u A B init

/-- The method `vpMatrix::juxtaposeMatrices(A, B, C)`: returns the new `C`. The nested
test `if (nca != 0) if (A.getRows() != B.getRows())` is written as a conjunction. -/
def juxtaposeMatrices3 (u : Uninit) (A B C : vpMatrix) : Except vpMatrixException vpMatrix :=
  let nca := A.getCols
  let ncb := B.getCols
  if nca ≠ 0 ∧ A.getRows ≠ B.getRows then
    Except.error vpMatrixException.incorrectMatrixSizeError
  else
    let C1 := resize u C B.getRows (nca + ncb) true
    let C2 := forLoop C1.getRows (fun i M2 =>
      forLoop nca (fun j M3 => M3.setElem i j (A.elem i j)) M2) C1
    Except.ok (forLoop C2.getRows (fun i M2 =>
      forLoop ncb (fun j M3 => M3.setElem i (nca + j) (B.elem i j)) M2) C2)

/-- The method `vpMatrix::juxtaposeMatrices(A, B)`. -/
def juxtaposeMatrices (u : Uninit) (A B : vpMatrix) : Except vpMatrixException vpMatrix :=
  juxtaposeMatrices3 u A B init

/-- The value of an `int` sum once it is stored in 32 bits, two's complement: the sum
wraps around, as the compiled code does (the C++ standard leaves signed overflow
undefined). -/
def wrapInt (x : Int) : Int := (x + 2147483648) % 4294967296 - 2147483648

/-- The method `vpMatrix::init(m, r, c, nrows, ncols)`, for `r, c ≥ 0`: the loops run
`i` from `r` while `i < rnrows` and `j` from `c` while `j < cncols`, where
`rnrows = r + nrows` and `cncols = c + ncols` are `int` sums; here the loops are counted
from `0` by `i - r` and `j - c`. -/
def initSub (u : Uninit) (self m : vpMatrix) (r c nrows ncols : Nat) : vpMatrix :=
  let M := resize u self nrows ncols true
  let rnrows := wrapInt ((r : Int) + (nrows : Int))
  let cncols := wrapInt ((c : Int) + (ncols : Int))
  forLoop (rnrows - (r : Int)).toNat (fun k M2 =>
    forLoop (cncols - (c : Int)).toNat (fun l M3 =>
      M3.setElem k l (m.elem (r + k) (c + l))) M2) M

/-- The submatrix constructor `vpMatrix(m, r, c, nrows, ncols)`, with `r` and `c` signed
and `nrows, ncols ≥ 0`; the sums `r + nrows` and `c + ncols` of the bound test are `int`
sums and wrap around. -/
def subMatrix (u : Uninit) (m : vpMatrix) (r c : Int) (nrows ncols : Nat) :
    Except vpMatrixException vpMatrix :=
  if r < 0 ∨ c < 0 then Except.error vpMatrixException.subMatrixError
  else if wrapInt (r + (nrows : Int)) > (m.rowNum : Int) ∨
      wrapInt (c + (ncols : Int)) > (m.colNum : Int) then
    Except.error vpMatrixException.subMatrixError
  else Except.ok (initSub u init m r.toNat c.toNat nrows ncols)

/-- The function `vpMatrix::det33(M)`; the literal `0.5` is the rational `1/2`, and the
dead store `detint = 0.0` before the first term is left out. -/
def det33 (M : vpMatrix) : Except vpMatrixException ℚ :=
  if M.getCols ≠ 3 ∨ M.getRows ≠ 3 then
    Except.error vpMatrixException.incorrectMatrixSizeError
  else
    let detint : ℚ := M.elem 0 0 * M.elem 1 1 * M.elem 2 2 * (1 / 2)
    let detint := detint + M.elem 2 0 * M.elem 0 1 * M.elem 1 2 * (1 / 2)
    let detint := detint + M.elem 0 2 * M.elem 2 1 * M.elem 1 0 * (1 / 2)
    let detint := detint - M.elem 0 2 * M.elem 1 1 * M.elem 2 0 * (1 / 2)
    let detint := detint - M.elem 0 0 * M.elem 2 1 * M.elem 1 2 * (1 / 2)
    let detint := detint - M.elem 2 2 * M.elem 1 0 * M.elem 0 1 * (1 / 2)
    Except.ok detint

/-- The method `vpMatrix::cppPrint(os, matrixName, octet)`: returns the text appended to
the stream. A null `matrixName` is `none`. How a `double` is printed is the parameter
`fmt`; the text of the byte-per-byte branch for one element (bytes of the memory layout
of a `double`) is the parameter `octetText`. -/
def cppPrint (fmt : ℚ → String) (octetText : ℚ → Nat → Nat → String) (self : vpMatrix)
    (matrixName : Option String) (octet : Bool) : String :=
  let defaultName : String := "A"
  let matrixName : String := match matrixName with
    | none => defaultName
    | some name => name
  let os : String := "vpMatrix " ++ defaultName ++ " (" ++ toString self.getRows ++ ", " ++
    toString self.getCols ++ "); " ++ "\n"
  forLoop self.getRows (fun i os2 =>
    (forLoop self.getCols (fun j os3 =>
      if ! octet then
        os3 ++ defaultName ++ "[" ++ toString i ++ "][" ++ toString j ++ "] = " ++
          fmt (self.elem i j) ++ "; " ++ "\n"
      else os3 ++ octetText (self.elem i j) i j) os2) ++ "\n") os

end vpMatrix

/-! ## Arithmetic of `double`

The type `double` is IEEE 754 binary64: a sum, difference, product or quotient is the
exact result rounded to 53 significant bits, to nearest, ties to even. The definitions
below make that rounding a parameter `fl` of the arithmetic of the code: `fl = id` is
exact arithmetic (the definitions above), `fl = roundDouble` is `double` arithmetic with
an unbounded exponent range (no overflow and no subnormal numbers). Comparisons, `fabs`
and copies are exact in both. -/

/-- Number of binary digits of `n`, by at most `fuel` halvings (`fuel = n` is enough). -/
def bitLength : Nat → Nat → Nat
  | 0, _ => 0
  | fuel + 1, n => if n = 0 then 0 else bitLength fuel (n / 2) + 1

/-- The power of two `2 ^ e`, for a signed exponent `e`. -/
def pow2 (e : Int) : ℚ :=
  if 0 ≤ e then ((2 ^ e.toNat : Nat) : ℚ) else 1 / ((2 ^ (-e).toNat : Nat) : ℚ)

/-- The binary exponent of `x ≠ 0`: the `e` with `2 ^ e ≤ |x| < 2 ^ (e + 1)`. The
difference of the bit lengths of numerator and denominator is `e` or `e + 1`. -/
def exponent (x : ℚ) : Int :=
  let k : Int := (bitLength x.num.natAbs x.num.natAbs : Int) - (bitLength x.den x.den : Int)
  if pow2 k ≤ |x| then k else k - 1

/-- Rounding of a rational to an integer: to nearest, ties to even. -/
def roundHalfEven (x : ℚ) : Int :=
  let f := ⌊x⌋
  if x - f < 1 / 2 then f
  else if x - f > 1 / 2 then f + 1
  else if f % 2 = 0 then f else f + 1

/-- Rounding to `double`: `x` is scaled to have its leading bit at `2 ^ 52`, rounded to
an integer (to nearest, ties to even) and scaled back. -/
def roundDouble (x : ℚ) : ℚ :=
  if x = 0 then 0
  else
    let e := exponent x - 52
    (roundHalfEven (x / pow2 e) : ℚ) * pow2 e

namespace vpMatrix

/-- The sum `vpMatrix::operator+(const vpMatrix &B)`, each addition rounded by `fl`. -/
def operatorAddFl (fl : ℚ → ℚ) (u : Uninit) (self B : vpMatrix) :
    Except vpMatrixException vpMatrix :=
  let v := resize u init self.rowNum self.colNum true
  if self.colNum ≠ B.getCols ∨ self.rowNum ≠ B.getRows then
    Except.error vpMatrixException.incorrectMatrixSizeError
  else
    Except.ok { v with data := forLoop self.dsize (fun i d =>
      d.set i (fl ((B.data[i]?).getD 0 + (self.data[i]?).getD 0))) v.data }

/-- The difference `vpMatrix::operator-(const vpMatrix &B)`, each subtraction rounded by
`fl`. -/
def operatorSubFl (fl : ℚ → ℚ) (u : Uninit) (self B : vpMatrix) :
    Except vpMatrixException vpMatrix :=
  let v := resize u init self.rowNum self.colNum true
  if self.colNum ≠ B.getCols ∨ self.rowNum ≠ B.getRows then
    Except.error vpMatrixException.incorrectMatrixSizeError
  else
    Except.ok { v with data := forLoop self.dsize (fun i d =>
      d.set i (fl ((self.data[i]?).getD 0 - (B.data[i]?).getD 0))) v.data }

end vpMatrix

/-- The storage invariant of an `r × c` matrix: the sizes recorded in the object, a
buffer of `r * c` cells and a table of `r` row pointers. -/
structure Sized (M : vpMatrix) (r c : Nat) : Prop where
  rows : M.rowNum = r
  cols : M.colNum = c
  dsz : M.dsize = r * c
  dlen : M.data.length = r * c
  trsz : M.trsize = r
  tlen : M.rowPtrs.length = r

/-- An `r × c` matrix whose row `i` starts at offset `i * c` (when it has columns). -/
structure Shaped (M : vpMatrix) (r c : Nat) extends Sized M r c : Prop where
  ptrs : 0 < c → ∀ i, i < r → M.rowPtrs[i]? = some (i * c)

/-- A matrix in a state that the member functions can leave it in. -/
def WF (M : vpMatrix) : Prop := Shaped M M.rowNum M.colNum

/-- The statement `body` stores `x` in the cell `(i, j)` of an `r × c` matrix and
changes no other cell. -/
structure WritesCell (r c i j : Nat) (x : ℚ) (body : vpMatrix → vpMatrix) : Prop where
  shaped : ∀ M, Shaped M r c → Shaped (body M) r c
  same : ∀ M, Shaped M r c → (body M).elem i j = x
  other : ∀ M, Shaped M r c → ∀ k l, k < r → l < c → ¬ (k = i ∧ l = j) →
    (body M).elem k l = M.elem k l

/-! ## Concrete matrices used as examples -/

/-- The matrix `[[1,2,3],[4,5,6],[7,8,9]]`. -/
def m33 : vpMatrix :=
  { rowNum := 3, colNum := 3, data := [1, 2, 3, 4, 5, 6, 7, 8, 9], rowPtrs := [0, 3, 6],
    dsize := 9, trsize := 3 }

/-- The `1 × 1` matrix `[[5]]`. -/
def m11 : vpMatrix :=
  { rowNum := 1, colNum := 1, data := [5], rowPtrs := [0], dsize := 1, trsize := 1 }

/-- The matrix `[[0,0],[0,1]]`. -/
def diag01 : vpMatrix :=
  { rowNum := 2, colNum := 2, data := [0, 0, 0, 1], rowPtrs := [0, 2], dsize := 4, trsize := 2 }

/-- The `3 × 2` matrix `[[1,0],[0,2],[0,0]]`. -/
def tall32 : vpMatrix :=
  { rowNum := 3, colNum := 2, data := [1, 0, 0, 2, 0, 0], rowPtrs := [0, 2, 4],
    dsize := 6, trsize := 3 }

/-- The `2 × 3` matrix `[[1,0,0],[0,2,0]]`, the transpose of `tall32`. -/
def wide23 : vpMatrix :=
  { rowNum := 2, colNum := 3, data := [1, 0, 0, 0, 2, 0], rowPtrs := [0, 3],
    dsize := 6, trsize := 2 }

/-- The `2 × 3` matrix `[[1,2,3],[4,5,6]]`. -/
def m23 : vpMatrix :=
  { rowNum := 2, colNum := 3, data := [1, 2, 3, 4, 5, 6], rowPtrs := [0, 3],
    dsize := 6, trsize := 2 }

/-- The `2 × 2` matrix `[[1,2],[3,4]]`. -/
def m22 : vpMatrix :=
  { rowNum := 2, colNum := 2, data := [1, 2, 3, 4], rowPtrs := [0, 2], dsize := 4, trsize := 2 }

/-- The column vector `(1, 2, 3)`. -/
def col3 : vpMatrix :=
  { rowNum := 3, colNum := 1, data := [1, 2, 3], rowPtrs := [0, 1, 2], dsize := 3, trsize := 3 }

/-- The `1 × 2` matrix `[[3,4]]`. -/
def row34 : vpMatrix :=
  { rowNum := 1, colNum := 2, data := [3, 4], rowPtrs := [0], dsize := 2, trsize := 1 }

/-- A way to print a number: the text of the rational. -/
def plainFmt (q : ℚ) : String := toString q

/-- A byte-per-byte printer that prints nothing. -/
def noOctets (_ : ℚ) (_ _ : Nat) : String := ""

/-- The `1 × 1` matrix `[[1]]`. -/
def one11 : vpMatrix :=
  { rowNum := 1, colNum := 1, data := [1], rowPtrs := [0], dsize := 1, trsize := 1 }

/-- The `1 × 1` matrix `[[1e17]]`. -/
def e17 : vpMatrix :=
  { rowNum := 1, colNum := 1, data := [100000000000000000], rowPtrs := [0], dsize := 1,
    trsize := 1 }

/-- An SVD routine that answers `U = V = identity` (the leading columns of the identity
for `U`) with the singular values `w`. It is a correct decomposition of a matrix
`diag(w)`, in the order of the diagonal, which need not be sorted. -/
def svdEye (w : Nat → ℚ) : SvdPrimitive := fun _ _ _ =>
  { u := fun i j => if i = j then 1 else 0, w := w, v := fun i j => if i = j then 1 else 0 }

/-- An allocator whose fresh memory holds the value `7` in every cell. -/
def sevens : Uninit := { cell := fun _ => 7, ptr := fun _ => 7 }

/-! # Theorems -/

/-! ## Loop and memory lemmas -/

open vpMatrix

theorem forLoop_zero {σ : Type} (body : Nat → σ → σ) (s : σ) : forLoop 0 body s = s := by
  simp [forLoop]

theorem forLoop_succ {σ : Type} (n : Nat) (body : Nat → σ → σ) (s : σ) :
    forLoop (n + 1) body s = body n (forLoop n body s) := by
  simp [forLoop, List.range_succ, List.foldl_append]

/-- Loop invariant rule: an invariant that holds before the loop and is carried by each
iteration holds after it. -/
theorem forLoop_inv {σ : Type} (I : Nat → σ → Prop) (n : Nat) (body : Nat → σ → σ) (s : σ)
    (h0 : I 0 s) (hs : ∀ k, k < n → ∀ t, I k t → I (k + 1) (body k t)) :
    I n (forLoop n body s) := by
  have key : ∀ m, m ≤ n → I m (forLoop m body s) := by
    intro m
    induction m with
    | zero => intro _; rw [forLoop_zero]; exact h0
    | succ m ih =>
      intro hm
      rw [forLoop_succ]
      exact hs m (by omega) _ (ih (by omega))
  exact key n (le_refl n)

theorem realloc_length {α : Type} (fresh : Nat → α) (old : List α) (n : Nat) :
    (realloc fresh old n).length = n := by
  simp [realloc]

theorem realloc_getElem? {α : Type} (fresh : Nat → α) (old : List α) (n i : Nat)
    (h : i < n) : (realloc fresh old n)[i]? = some ((old[i]?).getD (fresh i)) := by
  simp [realloc, List.getElem?_map, List.getElem?_range h]

theorem memset0_of_length (data : List ℚ) (n : Nat) (h : data.length = n) :
    memset0 data n = List.replicate n 0 := by
  simp [memset0, ← h]

theorem index_lt {r c i j : Nat} (hi : i < r) (hj : j < c) : i * c + j < r * c := by
  have h1 : (i + 1) * c ≤ r * c := Nat.mul_le_mul_right c hi
  have h2 : (i + 1) * c = i * c + c := by ring
  omega

theorem index_inj {c i j k l : Nat} (hj : j < c) (hl : l < c)
    (h : i * c + j = k * c + l) : i = k ∧ j = l := by
  have hik : i = k := by
    rcases Nat.lt_trichotomy i k with h1 | h1 | h1
    · have h2 : (i + 1) * c ≤ k * c := Nat.mul_le_mul_right c h1
      have h3 : (i + 1) * c = i * c + c := by ring
      omega
    · exact h1
    · have h2 : (k + 1) * c ≤ i * c := Nat.mul_le_mul_right c h1
      have h3 : (k + 1) * c = k * c + c := by ring
      omega
  subst hik
  exact ⟨rfl, by omega⟩

/-- The row-pointer loop, started at row `k`, sets the entries `k .. nrows - 1` of the
table to the offsets of their rows and leaves the earlier entries alone. -/
theorem rowPtrLoop_spec (nrows ncols : Nat) (hc : 0 < ncols) :
    ∀ (fuel k : Nat) (t : List Nat), k ≤ nrows → nrows - k ≤ fuel → t.length = nrows →
      (rowPtrLoop fuel (k * ncols) k (nrows * ncols) ncols t).length = nrows ∧
      ∀ i, i < nrows →
        (rowPtrLoop fuel (k * ncols) k (nrows * ncols) ncols t)[i]? =
          if k ≤ i then some (i * ncols) else t[i]? := by
  intro fuel
  induction fuel with
  | zero =>
    intro k t hk hf hlen
    have hkn : k = nrows := by omega
    refine ⟨by simpa [rowPtrLoop] using hlen, ?_⟩
    intro i hi
    have : ¬ k ≤ i := by omega
    simp [rowPtrLoop, this]
  | succ fuel ih =>
    intro k t hk hf hlen
    by_cases hlt : k < nrows
    · have hcond : k * ncols < nrows * ncols := Nat.mul_lt_mul_of_pos_right hlt hc
      have hstep : k * ncols + ncols = (k + 1) * ncols := by ring
      have h := ih (k + 1) (t.set k (k * ncols)) (by omega) (by omega) (by simpa using hlen)
      simp only [rowPtrLoop, hcond, if_true, hstep]
      refine ⟨h.1, ?_⟩
      intro i hi
      rw [h.2 i hi]
      by_cases h1 : k + 1 ≤ i
      · have h2 : k ≤ i := by omega
        simp [h1, h2]
      · by_cases h2 : k = i
        · subst h2
          simp [List.getElem?_set, hlen, hlt]
        · have h3 : ¬ k ≤ i := by omega
          simp [h1, h3, List.getElem?_set, h2]
    · have hkn : k = nrows := by omega
      have hcond : ¬ k * ncols < nrows * ncols := by rw [hkn]; exact lt_irrefl _
      simp only [rowPtrLoop, hcond, if_false]
      refine ⟨hlen, ?_⟩
      intro i hi
      have : ¬ k ≤ i := by omega
      simp [this]

/-- With no columns the buffer is empty and the row-pointer loop does not run. -/
theorem rowPtrLoop_zero (fuel i k ncols : Nat) (t : List Nat) :
    rowPtrLoop fuel i k 0 ncols t = t := by
  cases fuel <;> simp [rowPtrLoop]

/-! ## Reading and writing cells of a well-formed matrix -/

theorem Shaped.elem?_eq {M : vpMatrix} {r c i j : Nat} (h : Shaped M r c)
    (hi : i < r) (hj : j < c) : M.elem? i j = M.data[i * c + j]? := by
  have hc : 0 < c := by omega
  simp [elem?, h.ptrs hc i hi]

theorem Shaped.elem?_eq_some {M : vpMatrix} {r c i j : Nat} (h : Shaped M r c)
    (hi : i < r) (hj : j < c) : M.elem? i j = some (M.elem i j) := by
  have hlt : i * c + j < M.data.length := by rw [h.dlen]; exact index_lt hi hj
  rw [elem, h.elem?_eq hi hj, List.getElem?_eq_getElem hlt]
  rfl

theorem Shaped.setElem_shaped {M : vpMatrix} {r c : Nat} (h : Shaped M r c) (i j : Nat) (x : ℚ) :
    Shaped (M.setElem i j x) r c := by
  unfold vpMatrix.setElem
  cases hp : M.rowPtrs[i]? with
  | none => exact h
  | some p =>
    exact { rows := h.rows, cols := h.cols, dsz := h.dsz,
            dlen := by simpa using h.dlen, trsz := h.trsz, tlen := h.tlen, ptrs := h.ptrs }

theorem Shaped.elem_setElem_same {M : vpMatrix} {r c i j : Nat} (h : Shaped M r c)
    (hi : i < r) (hj : j < c) (x : ℚ) : (M.setElem i j x).elem i j = x := by
  have hc : 0 < c := by omega
  have hlt : i * c + j < M.data.length := by rw [h.dlen]; exact index_lt hi hj
  have e := (h.setElem_shaped i j x).elem?_eq hi hj
  rw [elem, e]
  simp [vpMatrix.setElem, h.ptrs hc i hi, List.getElem?_set, hlt]

theorem Shaped.elem_setElem_ne {M : vpMatrix} {r c i j k l : Nat} (h : Shaped M r c)
    (hi : i < r) (hj : j < c) (hk : k < r) (hl : l < c) (hne : ¬ (k = i ∧ l = j)) (x : ℚ) :
    (M.setElem i j x).elem k l = M.elem k l := by
  have hc : 0 < c := by omega
  have e := (h.setElem_shaped i j x).elem?_eq hk hl
  have hidx : ¬ (i * c + j = k * c + l) := by
    intro heq
    have := index_inj hj hl heq
    exact hne ⟨this.1.symm, this.2.symm⟩
  rw [elem, elem, e, h.elem?_eq hk hl]
  simp [vpMatrix.setElem, h.ptrs hc i hi, List.getElem?_set, hidx]

theorem writesCell_setElem {r c i j : Nat} (hi : i < r) (hj : j < c) (x : ℚ) :
    WritesCell r c i j x (fun M => M.setElem i j x) where
  shaped := fun _ h => h.setElem_shaped i j x
  same := fun _ h => h.elem_setElem_same hi hj x
  other := fun _ h _ _ hk hl hne => h.elem_setElem_ne hi hj hk hl hne x

theorem writesCell_ite {r c i j : Nat} (hi : i < r) (hj : j < c) (p : Prop) [Decidable p]
    (a b : ℚ) :
    WritesCell r c i j (if p then a else b)
      (fun M => if p then M.setElem i j a else M.setElem i j b) := by
  by_cases hp : p
  · simp only [hp, if_true]; exact writesCell_setElem hi hj a
  · simp only [hp, if_false]; exact writesCell_setElem hi hj b

/-- A double loop over the rows and columns of an `r × c` matrix whose body writes
the cell `(i, j)` with `F i j` leaves the matrix with the cells `F`. -/
theorem fill_spec (r c : Nat) (F : Nat → Nat → ℚ) (body : Nat → Nat → vpMatrix → vpMatrix)
    (hb : ∀ i j, i < r → j < c → WritesCell r c i j (F i j) (body i j))
    (M : vpMatrix) (hM : Shaped M r c) :
    Shaped (forLoop r (fun i M2 => forLoop c (fun j M3 => body i j M3) M2) M) r c ∧
    ∀ i j, i < r → j < c →
      (forLoop r (fun i M2 => forLoop c (fun j M3 => body i j M3) M2) M).elem i j = F i j := by
  have outer := forLoop_inv
    (fun i N => Shaped N r c ∧ ∀ k l, k < i → k < r → l < c → N.elem k l = F k l)
    r (fun i M2 => forLoop c (fun j M3 => body i j M3) M2) M
    ⟨hM, fun k l hk => absurd hk (Nat.not_lt_zero k)⟩
    (by
      intro i hi N hN
      have inner := forLoop_inv
        (fun j P => Shaped P r c ∧ (∀ k l, k < i → k < r → l < c → P.elem k l = F k l) ∧
          ∀ l, l < j → l < c → P.elem i l = F i l)
        c (fun j M3 => body i j M3) N
        ⟨hN.1, hN.2, fun l hl => absurd hl (Nat.not_lt_zero l)⟩
        (by
          intro j hj P hP
          have w := hb i j hi hj
          refine ⟨w.shaped P hP.1, ?_, ?_⟩
          · intro k l hk hkr hl
            rw [w.other P hP.1 k l hkr hl (by omega)]
            exact hP.2.1 k l hk hkr hl
          · intro l hl hlc
            by_cases h : l = j
            · subst h; exact w.same P hP.1
            · rw [w.other P hP.1 i l hi hlc (by omega)]
              exact hP.2.2 l (by omega) hlc)
      refine ⟨inner.1, ?_⟩
      intro k l hk hkr hl
      by_cases h : k = i
      · subst h; exact inner.2.2 l hl hl
      · exact inner.2.1 k l (by omega) hkr hl)
  exact ⟨outer.1, fun i j hi hj => outer.2 i j hi hi hj⟩

/-! ## What `resize` does in each of its branches -/

theorem reallocate_shaped (u : Uninit) (M : vpMatrix) (r c : Nat) :
    Shaped (reallocate u M r c) r c := by
  rcases Nat.eq_zero_or_pos c with hc | hc
  · subst hc
    refine { rows := rfl, cols := rfl, dsz := rfl, dlen := ?_, trsz := rfl, tlen := ?_,
             ptrs := fun h => absurd h (Nat.lt_irrefl 0) }
    · simp [reallocate, realloc_length]
    · simp [reallocate, rowPtrLoop_zero, realloc_length]
  · have hfuel : r - 0 ≤ r * c := by
      have : r * 1 ≤ r * c := Nat.mul_le_mul_left r hc
      omega
    have key := rowPtrLoop_spec r c hc (r * c) 0 (realloc u.ptr M.rowPtrs r)
      (Nat.zero_le r) hfuel (realloc_length _ _ _)
    rw [Nat.zero_mul] at key
    refine { rows := rfl, cols := rfl, dsz := rfl, dlen := ?_, trsz := rfl, tlen := key.1,
             ptrs := ?_ }
    · simp [reallocate, realloc_length]
    · intro _ i hi
      have := key.2 i hi
      simpa [reallocate] using this

theorem reallocate_data (u : Uninit) (M : vpMatrix) (r c : Nat) :
    (reallocate u M r c).data = realloc u.cell M.data (r * c) := rfl

theorem resize_same_true (u : Uninit) (M : vpMatrix) (r c : Nat)
    (h : r = M.rowNum ∧ c = M.colNum) :
    resize u M r c true = { M with data := memset0 M.data M.dsize } := by
  simp [resize, h]

theorem resize_same_false (u : Uninit) (M : vpMatrix) (r c : Nat)
    (h : r = M.rowNum ∧ c = M.colNum) : resize u M r c false = M := by
  simp [resize, h]

theorem resize_changed_true (u : Uninit) (M : vpMatrix) (r c : Nat)
    (h : ¬ (r = M.rowNum ∧ c = M.colNum)) :
    resize u M r c true =
      { reallocate u M r c with
        data := memset0 (reallocate u M r c).data (reallocate u M r c).dsize } := by
  simp only [resize, h, if_false, if_true]

theorem resize_keep (u : Uninit) (M : vpMatrix) (r c : Nat)
    (hr : r ≠ M.rowNum) (hc : c = M.colNum) :
    resize u M r c false = reallocate u M r c := by
  subst hc
  simp [resize, hr]

theorem resize_recopy (u : Uninit) (M : vpMatrix) (r c : Nat) (hc : c ≠ M.colNum) :
    resize u M r c false =
      forLoop r (fun i M2 =>
        forLoop c (fun j M3 =>
          if (if r < M.rowNum then r else M.rowNum) > i ∧
              (if c < M.colNum then c else M.colNum) > j
          then M3.setElem i j ((memcpy [] M.data M.dsize).getD (i * M.colNum + j) 0)
          else M3.setElem i j 0) M2) (reallocate u M r c) := by
  have h : ¬ (r = M.rowNum ∧ c = M.colNum) := fun h => hc h.2
  simp [resize, h, hc, reallocate]

/-- Every `resize` of a well-formed matrix leaves a well-formed matrix of the new shape. -/
theorem resize_shaped (u : Uninit) (M : vpMatrix) (r c : Nat) (flag : Bool) (hM : WF M) :
    Shaped (resize u M r c flag) r c := by
  by_cases h : r = M.rowNum ∧ c = M.colNum
  · have hM2 : Shaped M r c := by rw [h.1, h.2]; exact hM
    cases flag
    · rw [resize_same_false u M r c h]; exact hM2
    · rw [resize_same_true u M r c h]
      have hlen : M.data.length = M.dsize := by rw [hM2.dlen, hM2.dsz]
      exact { rows := hM2.rows, cols := hM2.cols, dsz := hM2.dsz,
              dlen := by rw [memset0_of_length _ _ hlen, List.length_replicate, hM2.dsz],
              trsz := hM2.trsz, tlen := hM2.tlen, ptrs := hM2.ptrs }
  · have hA := reallocate_shaped u M r c
    cases flag
    · by_cases hc : c = M.colNum
      · have hr : r ≠ M.rowNum := fun e => h ⟨e, hc⟩
        rw [resize_keep u M r c hr hc]; exact hA
      · rw [resize_recopy u M r c hc]
        refine (fill_spec r c
          (fun i j => if (if r < M.rowNum then r else M.rowNum) > i ∧
              (if c < M.colNum then c else M.colNum) > j
            then (memcpy [] M.data M.dsize).getD (i * M.colNum + j) 0 else 0)
          (fun i j M3 => if (if r < M.rowNum then r else M.rowNum) > i ∧
              (if c < M.colNum then c else M.colNum) > j
            then M3.setElem i j ((memcpy [] M.data M.dsize).getD (i * M.colNum + j) 0)
            else M3.setElem i j 0) ?_ _ hA).1
        intro i j hi hj
        exact writesCell_ite hi hj _ _ _
    · rw [resize_changed_true u M r c h]
      have hlen : (reallocate u M r c).data.length = (reallocate u M r c).dsize := by
        rw [hA.dlen, hA.dsz]
      exact { rows := hA.rows, cols := hA.cols, dsz := hA.dsz,
              dlen := by rw [memset0_of_length _ _ hlen, List.length_replicate, hA.dsz],
              trsz := hA.trsz, tlen := hA.tlen, ptrs := hA.ptrs }

/-! ## Claims on `resize` -/

theorem init_wf : WF init :=
  { rows := rfl, cols := rfl, dsz := rfl, dlen := rfl, trsz := rfl, tlen := rfl,
    ptrs := fun h => absurd h (Nat.lt_irrefl 0) }

theorem m33_wf : WF m33 :=
  { rows := rfl, cols := rfl, dsz := rfl, dlen := rfl, trsz := rfl, tlen := rfl,
    ptrs := by
      intro _ i hi
      have hi3 : i < 3 := hi
      interval_cases i <;> rfl }

theorem m11_wf : WF m11 :=
  { rows := rfl, cols := rfl, dsz := rfl, dlen := rfl, trsz := rfl, tlen := rfl,
    ptrs := by
      intro _ i hi
      have hi1 : i < 1 := hi
      interval_cases i
      rfl }

/-- C5. Growing the `1 × 1` matrix `[[5]]` to `2 × 1` without nullifying keeps the
retained row, but the cell of the newly exposed row holds whatever `realloc` left there
(the value `u.cell 1` of the allocator), which need not be zero: with an allocator
that leaves `7` in fresh memory the new cell reads `7`. -/
theorem resize_rows_grown_not_zeroed :
    WF m11 ∧
    (∀ u : Uninit, (resize u m11 2 1 false).rowNum = 2 ∧
      (resize u m11 2 1 false).colNum = 1 ∧
      (resize u m11 2 1 false).elem? 0 0 = some 5 ∧
      (resize u m11 2 1 false).elem? 1 0 = some (u.cell 1)) ∧
    (resize sevens m11 2 1 false).elem? 1 0 = some 7 ∧
    (resize sevens m11 2 1 false).elem? 1 0 ≠ some 0 := by
  refine ⟨m11_wf, fun u => ⟨rfl, rfl, rfl, rfl⟩, rfl, ?_⟩
  have h : (resize sevens m11 2 1 false).elem? 1 0 = some 7 := rfl
  rw [h]
  norm_num

/-- C7. Resizing the fresh `0 × 0` matrix to `1 × 0` records the shape, `dsize = 0` and a
table of one row pointer, but the row-pointer loop runs `0` times (its bound is
`dsize = 0`), so the entry stays as `realloc` left it (the value `u.ptr 0` of the
allocator) and need not be the offset `0 * 0` of row `0`. -/
theorem resize_zero_cols_row_pointer_unset :
    (∀ u : Uninit, (resize u init 1 0 true).rowNum = 1 ∧
      (resize u init 1 0 true).colNum = 0 ∧
      (resize u init 1 0 true).dsize = 0 ∧
      (resize u init 1 0 true).trsize = 1 ∧
      (resize u init 1 0 true).rowPtrs = [u.ptr 0]) ∧
    (resize sevens init 1 0 true).rowPtrs = [7] ∧
    (resize sevens init 1 0 true).rowPtrs[0]? ≠ some (0 * 0) := by
  refine ⟨fun u => ⟨rfl, rfl, rfl, rfl, rfl⟩, rfl, ?_⟩
  have h : (resize sevens init 1 0 true).rowPtrs = [7] := rfl
  rw [h]
  decide

/-! ## Copy and transpose -/

/-- A double loop whose iteration `(a, b)` writes the cell `(pi a b, pj a b)` of an
`r × c` matrix with `F a b`, distinct iterations writing distinct cells, leaves each of
these cells with its value. -/
theorem fill_gen (r c n m : Nat) (pi pj : Nat → Nat → Nat) (F : Nat → Nat → ℚ)
    (body : Nat → Nat → vpMatrix → vpMatrix)
    (hpos : ∀ a b, a < n → b < m → pi a b < r ∧ pj a b < c)
    (hinj : ∀ a b a2 b2, a < n → b < m → a2 < n → b2 < m →
      pi a b = pi a2 b2 → pj a b = pj a2 b2 → a = a2 ∧ b = b2)
    (hb : ∀ a b, a < n → b < m → WritesCell r c (pi a b) (pj a b) (F a b) (body a b))
    (M : vpMatrix) (hM : Shaped M r c) :
    Shaped (forLoop n (fun a M2 => forLoop m (fun b M3 => body a b M3) M2) M) r c ∧
    ∀ a b, a < n → b < m →
      (forLoop n (fun a M2 => forLoop m (fun b M3 => body a b M3) M2) M).elem
        (pi a b) (pj a b) = F a b := by
  have outer := forLoop_inv
    (fun i N => Shaped N r c ∧ ∀ k l, k < i → k < n → l < m →
      N.elem (pi k l) (pj k l) = F k l)
    n (fun a M2 => forLoop m (fun b M3 => body a b M3) M2) M
    ⟨hM, fun k l hk => absurd hk (Nat.not_lt_zero k)⟩
    (by
      intro i hi N hN
      have inner := forLoop_inv
        (fun j P => Shaped P r c ∧
          (∀ k l, k < i → k < n → l < m → P.elem (pi k l) (pj k l) = F k l) ∧
          ∀ l, l < j → l < m → P.elem (pi i l) (pj i l) = F i l)
        m (fun b M3 => body i b M3) N
        ⟨hN.1, hN.2, fun l hl => absurd hl (Nat.not_lt_zero l)⟩
        (by
          intro j hj P hP
          have w := hb i j hi hj
          refine ⟨w.shaped P hP.1, ?_, ?_⟩
          · intro k l hk hkn hl
            have hp := hpos k l hkn hl
            rw [w.other P hP.1 _ _ hp.1 hp.2
              (fun e => by have := hinj k l i j hkn hl hi hj e.1 e.2; omega)]
            exact hP.2.1 k l hk hkn hl
          · intro l hl hlm
            by_cases h : l = j
            · subst h; exact w.same P hP.1
            · have hp := hpos i l hi hlm
              rw [w.other P hP.1 _ _ hp.1 hp.2
                (fun e => by have := hinj i l i j hi hlm hi hj e.1 e.2; omega)]
              exact hP.2.2 l (by omega) hlm)
      refine ⟨inner.1, ?_⟩
      intro k l hk hkn hl
      by_cases h : k = i
      · subst h; exact inner.2.2 l hl hl
      · exact inner.2.1 k l (by omega) hkn hl)
  exact ⟨outer.1, fun a b ha hb2 => outer.2 a b ha ha hb2⟩

theorem mk2_shaped (u : Uninit) (r c : Nat) : Shaped (mk2 u r c) r c :=
  resize_shaped u init r c true init_wf

theorem Shaped.wf {M : vpMatrix} {r c : Nat} (h : Shaped M r c) : WF M := by
  unfold WF
  rw [h.rows, h.cols]
  exact h

theorem mk2_wf (u : Uninit) (r c : Nat) : WF (mk2 u r c) := (mk2_shaped u r c).wf

/-- The transpose has the swapped shape and the mirrored cells. -/
theorem t_spec (u : Uninit) (M : vpMatrix) :
    Shaped (t u M) M.colNum M.rowNum ∧
    ∀ i j, i < M.rowNum → j < M.colNum → (t u M).elem j i = M.elem i j := by
  have hA : Shaped (resize u init M.colNum M.rowNum true) M.colNum M.rowNum :=
    resize_shaped u init _ _ true init_wf
  exact fill_gen M.colNum M.rowNum M.rowNum M.colNum (fun _ b => b) (fun a _ => a)
    (fun a b => M.elem a b) (fun a b M3 => M3.setElem b a (M.elem a b))
    (fun a b ha hb => ⟨hb, ha⟩)
    (fun a b a2 b2 _ _ _ _ e1 e2 => ⟨e2, e1⟩)
    (fun a b ha hb => writesCell_setElem hb ha _) _ hA

/-- The copy operator gives the target the shape and the buffer of the source. -/
theorem operatorAssign_spec (u : Uninit) (M B : vpMatrix) (r c : Nat) (hM : WF M)
    (hB : Shaped B r c) :
    Shaped (operatorAssign u M B) r c ∧ (operatorAssign u M B).data = B.data ∧
    ∀ i j, i < r → j < c → (operatorAssign u M B).elem i j = B.elem i j := by
  have hR : Shaped (resize u M B.rowNum B.colNum true) r c := by
    have h := resize_shaped u M B.rowNum B.colNum true hM
    have e1 := hB.rows
    have e2 := hB.cols
    rw [← e1, ← e2]
    exact h
  have hdata : (operatorAssign u M B).data = B.data := by
    have h1 : (resize u M B.rowNum B.colNum true).dsize = B.data.length := by
      rw [hR.dsz, hB.dlen]
    have h2 : (resize u M B.rowNum B.colNum true).data.length = B.data.length := by
      rw [hR.dlen, hB.dlen]
    simp [operatorAssign, memcpy, h1, ← h2]
  have hS : Shaped (operatorAssign u M B) r c :=
    { rows := hR.rows, cols := hR.cols, dsz := hR.dsz,
      dlen := by rw [hdata]; exact hB.dlen, trsz := hR.trsz, tlen := hR.tlen,
      ptrs := hR.ptrs }
  refine ⟨hS, hdata, ?_⟩
  intro i j hi hj
  rw [vpMatrix.elem, vpMatrix.elem, hS.elem?_eq hi hj, hB.elem?_eq hi hj, hdata]

/-! ## The SVD call of `pseudoInverse` -/

theorem pinvCols_eq_min (A : vpMatrix) : pinvCols A = min A.rowNum A.colNum := by
  simp only [pinvCols, getRows, getCols, Nat.min_def]
  split_ifs <;> omega

theorem pinvRows_eq_max (A : vpMatrix) : pinvRows A = max A.rowNum A.colNum := by
  simp only [pinvRows, getRows, getCols, Nat.max_def]
  split_ifs <;> omega

/-- The matrix handed to the SVD: a copy of `A` when `A` has at least as many rows as
columns, of its transpose otherwise. -/
theorem pinvWork_spec (u : Uninit) (A : vpMatrix) (hA : WF A) :
    Shaped (pinvWork u A) (pinvRows A) (pinvCols A) ∧
    (A.rowNum ≥ A.colNum → ∀ i j, i < A.rowNum → j < A.colNum →
      (pinvWork u A).elem i j = A.elem i j) ∧
    (¬ A.rowNum ≥ A.colNum → ∀ i j, i < A.colNum → j < A.rowNum →
      (pinvWork u A).elem i j = A.elem j i) := by
  by_cases h : A.rowNum ≥ A.colNum
  · have hr : pinvRows A = A.rowNum := by simp [pinvRows, getRows, getCols, h]
    have hc : pinvCols A = A.colNum := by simp [pinvCols, getRows, getCols, h]
    have hw : pinvWork u A = operatorAssign u (mk2 u (pinvRows A) (pinvCols A)) A := by
      simp [pinvWork, getRows, getCols, h]
    have hB : Shaped A (pinvRows A) (pinvCols A) := by rw [hr, hc]; exact hA
    have key := operatorAssign_spec u (mk2 u (pinvRows A) (pinvCols A)) A _ _
      (mk2_wf u _ _) hB
    rw [hw]
    refine ⟨key.1, ?_, fun h2 => absurd h h2⟩
    intro _ i j hi hj
    exact key.2.2 i j (by rw [hr]; exact hi) (by rw [hc]; exact hj)
  · have hr : pinvRows A = A.colNum := by simp [pinvRows, getRows, getCols, h]
    have hc : pinvCols A = A.rowNum := by simp [pinvCols, getRows, getCols, h]
    have hw : pinvWork u A = operatorAssign u (mk2 u (pinvRows A) (pinvCols A)) (t u A) := by
      simp [pinvWork, getRows, getCols, h]
    have ht := t_spec u A
    have hB : Shaped (t u A) (pinvRows A) (pinvCols A) := by rw [hr, hc]; exact ht.1
    have key := operatorAssign_spec u (mk2 u (pinvRows A) (pinvCols A)) (t u A) _ _
      (mk2_wf u _ _) hB
    rw [hw]
    refine ⟨key.1, fun h2 => absurd h2 h, ?_⟩
    intro _ i j hi hj
    rw [key.2.2 i j (by rw [hr]; exact hi) (by rw [hc]; exact hj)]
    exact ht.2 j i hj hi

/-- The loop `w[k] = f k` over a column vector of `n` entries. -/
theorem colFill_spec (n : Nat) (f : Nat → ℚ) (w : vpMatrix) (hw : Shaped w n 1) :
    Shaped (forLoop n (fun k w2 => w2.colSet k (f k)) w) n 1 ∧
    ∀ k, k < n → (forLoop n (fun k w2 => w2.colSet k (f k)) w).colElem? k = some (f k) := by
  have inv := forLoop_inv
    (fun k P => Shaped P n 1 ∧ ∀ l, l < k → l < n → P.colElem? l = some (f l))
    n (fun k w2 => w2.colSet k (f k)) w
    ⟨hw, fun l hl => absurd hl (Nat.not_lt_zero l)⟩
    (by
      intro k hk P hP
      have hlen : P.data.length = n := by rw [hP.1.dlen, Nat.mul_one]
      refine ⟨{ rows := hP.1.rows, cols := hP.1.cols, dsz := hP.1.dsz,
                dlen := by simpa [colSet] using hP.1.dlen, trsz := hP.1.trsz,
                tlen := hP.1.tlen, ptrs := hP.1.ptrs }, ?_⟩
      intro l hl hln
      by_cases h : l = k
      · subst h
        simp [colSet, colElem?, List.getElem?_set, hlen, hln]
      · have := hP.2 l (by omega) hln
        simp only [colElem?] at this
        simp [colSet, colElem?, List.getElem?_set, Ne.symm h, this])
  exact ⟨inv.1, fun k hk => inv.2 k hk hk⟩

/-- The SVD call leaves the three objects with their shapes and with the entries that
the primitive computed from the buffer of the matrix. -/
theorem svd_spec (u : Uninit) (prim : SvdPrimitive) (a w v : vpMatrix) (r c : Nat)
    (ha : Shaped a r c) (hw : WF w) (hv : WF v) :
    Shaped (svd u prim a w v).1 r c ∧
    (∀ i j, i < r → j < c → (svd u prim a w v).1.elem i j = (prim r c a.data).u i j) ∧
    Shaped (svd u prim a w v).2.1 c 1 ∧
    (∀ k, k < c → (svd u prim a w v).2.1.colElem? k = some ((prim r c a.data).w k)) ∧
    Shaped (svd u prim a w v).2.2 c c ∧
    (∀ i j, i < c → j < c → (svd u prim a w v).2.2.elem i j = (prim r c a.data).v i j) := by
  have e1 := ha.rows
  have e2 := ha.cols
  subst e1
  subst e2
  have hw2 : Shaped (colResize u w a.colNum) a.colNum 1 := resize_shaped u w _ _ true hw
  have hv2 : Shaped (resize u v a.colNum a.colNum true) a.colNum a.colNum :=
    resize_shaped u v _ _ true hv
  have k1 := fill_spec a.rowNum a.colNum (prim a.rowNum a.colNum a.data).u
    (fun i j M3 => M3.setElem i j ((prim a.rowNum a.colNum a.data).u i j))
    (fun i j hi hj => writesCell_setElem hi hj _) a ha
  have k2 := colFill_spec a.colNum (prim a.rowNum a.colNum a.data).w _ hw2
  have k3 := fill_spec a.colNum a.colNum (prim a.rowNum a.colNum a.data).v
    (fun i j M3 => M3.setElem i j ((prim a.rowNum a.colNum a.data).v i j))
    (fun i j hi hj => writesCell_setElem hi hj _) _ hv2
  exact ⟨k1.1, k1.2, k2.1, k2.2, k3.1, k3.2⟩

/-- The locals `a`, `sv` and `v` of `pseudoInverse` after the SVD call. -/
theorem pinvSvd_spec (u : Uninit) (prim : SvdPrimitive) (A sv : vpMatrix)
    (hA : WF A) (hsv : WF sv) :
    Shaped (pinvSvd u prim A sv).1 (pinvRows A) (pinvCols A) ∧
    (∀ i j, i < pinvRows A → j < pinvCols A → (pinvSvd u prim A sv).1.elem i j =
      (prim (pinvRows A) (pinvCols A) (pinvWork u A).data).u i j) ∧
    Shaped (pinvSvd u prim A sv).2.1 (pinvCols A) 1 ∧
    (∀ k, k < pinvCols A → (pinvSvd u prim A sv).2.1.colElem? k =
      some ((prim (pinvRows A) (pinvCols A) (pinvWork u A).data).w k)) ∧
    Shaped (pinvSvd u prim A sv).2.2 (pinvCols A) (pinvCols A) ∧
    (∀ i j, i < pinvCols A → j < pinvCols A → (pinvSvd u prim A sv).2.2.elem i j =
      (prim (pinvRows A) (pinvCols A) (pinvWork u A).data).v i j) :=
  svd_spec u prim (pinvWork u A) (colResize u sv (pinvCols A))
    (mk2 u (pinvCols A) (pinvCols A)) (pinvRows A) (pinvCols A)
    (pinvWork_spec u A hA).1 (resize_shaped u sv _ _ true hsv).wf (mk2_wf u _ _)

/-! ## The loops of `pseudoInverse` -/

/-- The first loop of `pseudoInverse` computes the largest absolute singular value
(and `0` when there is none). -/
theorem pinvMaxsv_spec (sv : vpMatrix) (n : Nat) :
    0 ≤ pinvMaxsv sv n ∧ (∀ i, i < n → |sv.colElem i| ≤ pinvMaxsv sv n) ∧
    (0 < n → ∃ i, i < n ∧ |sv.colElem i| = pinvMaxsv sv n) ∧
    (n = 0 → pinvMaxsv sv n = 0) := by
  have inv := forLoop_inv
    (fun k (m : ℚ) => 0 ≤ m ∧ (∀ i, i < k → |sv.colElem i| ≤ m) ∧
      (m = 0 ∨ ∃ i, i < k ∧ |sv.colElem i| = m))
    n (fun i maxsv => if |sv.colElem i| > maxsv then |sv.colElem i| else maxsv) 0
    ⟨le_refl 0, fun i hi => absurd hi (Nat.not_lt_zero i), Or.inl rfl⟩
    (by
      intro k _ m hm
      by_cases h : |sv.colElem k| > m
      · simp only [h, if_true]
        refine ⟨abs_nonneg _, ?_, Or.inr ⟨k, Nat.lt_succ_self k, rfl⟩⟩
        intro i hi
        by_cases hik : i = k
        · subst hik; exact le_refl _
        · exact le_of_lt (lt_of_le_of_lt (hm.2.1 i (by omega)) h)
      · simp only [h, if_false]
        refine ⟨hm.1, ?_, ?_⟩
        · intro i hi
          by_cases hik : i = k
          · subst hik; exact not_lt.mp h
          · exact hm.2.1 i (by omega)
        · rcases hm.2.2 with h0 | ⟨i, hi, e⟩
          · exact Or.inl h0
          · exact Or.inr ⟨i, by omega, e⟩)
  change 0 ≤ pinvMaxsv sv n ∧ (∀ i, i < n → |sv.colElem i| ≤ pinvMaxsv sv n) ∧
    (pinvMaxsv sv n = 0 ∨ ∃ i, i < n ∧ |sv.colElem i| = pinvMaxsv sv n) at inv
  refine ⟨inv.1, inv.2.1, ?_, ?_⟩
  · intro hn
    rcases inv.2.2 with h0 | h1
    · refine ⟨0, hn, ?_⟩
      have := inv.2.1 0 hn
      rw [h0] at this ⊢
      exact le_antisymm this (abs_nonneg _)
    · exact h1
  · intro hn
    subst hn
    rfl

/-- The second loop of `pseudoInverse` counts the singular values above the cut-off. -/
theorem pinvRank_spec (sv : vpMatrix) (n : Nat) (m th : ℚ) :
    pinvRank sv n m th =
      ((Finset.range n).filter (fun i => |sv.colElem i| > m * th)).card := by
  have inv := forLoop_inv
    (fun k (rank : Nat) =>
      rank = ((Finset.range k).filter (fun i => |sv.colElem i| > m * th)).card)
    n (fun i rank => if |sv.colElem i| > m * th then rank + 1 else rank) 0
    (by simp)
    (by
      intro k _ rank hr
      simp only at hr ⊢
      rw [Finset.range_succ, Finset.filter_insert]
      by_cases h : |sv.colElem k| > m * th
      · simp only [h, if_true]
        rw [Finset.card_insert_of_not_mem (by simp), hr]
      · simp only [h, if_false]
        exact hr)
  exact inv

theorem pinvRank_le (sv : vpMatrix) (n : Nat) (m th : ℚ) : pinvRank sv n m th ≤ n := by
  rw [pinvRank_spec]
  calc ((Finset.range n).filter (fun i => |sv.colElem i| > m * th)).card
      ≤ (Finset.range n).card := Finset.card_filter_le _ _
    _ = n := Finset.card_range n

/-- The statement `M[i][j] = 0; for k: if p k then M[i][j] += term k` stores the sum of
the selected terms in the cell `(i, j)`. -/
theorem writesCell_accum {r c i j : Nat} (hi : i < r) (hj : j < c) (n : Nat)
    (p : Nat → Prop) [DecidablePred p] (term : Nat → ℚ) :
    WritesCell r c i j (∑ k in (Finset.range n).filter p, term k)
      (fun M => forLoop n (fun k M4 =>
        if p k then M4.setElem i j (M4.elem i j + term k) else M4) (M.setElem i j 0)) := by
  have key : ∀ M, Shaped M r c →
      Shaped (forLoop n (fun k M4 =>
        if p k then M4.setElem i j (M4.elem i j + term k) else M4) (M.setElem i j 0)) r c ∧
      (forLoop n (fun k M4 =>
        if p k then M4.setElem i j (M4.elem i j + term k) else M4) (M.setElem i j 0)).elem i j
        = ∑ k in (Finset.range n).filter p, term k ∧
      ∀ a b, a < r → b < c → ¬ (a = i ∧ b = j) →
        (forLoop n (fun k M4 =>
          if p k then M4.setElem i j (M4.elem i j + term k) else M4) (M.setElem i j 0)).elem a b
          = M.elem a b := by
    intro M hM
    exact forLoop_inv
      (fun k P => Shaped P r c ∧
        P.elem i j = ∑ l in (Finset.range k).filter p, term l ∧
        ∀ a b, a < r → b < c → ¬ (a = i ∧ b = j) → P.elem a b = M.elem a b)
      n (fun k M4 => if p k then M4.setElem i j (M4.elem i j + term k) else M4)
      (M.setElem i j 0)
      ⟨hM.setElem_shaped i j 0, by simpa using hM.elem_setElem_same hi hj 0,
        fun a b ha hb hne => hM.elem_setElem_ne hi hj ha hb hne 0⟩
      (by
        intro k _ P hP
        simp only
        rw [Finset.range_succ, Finset.filter_insert]
        by_cases h : p k
        · simp only [h, if_true]
          refine ⟨hP.1.setElem_shaped i j _, ?_, ?_⟩
          · rw [hP.1.elem_setElem_same hi hj, Finset.sum_insert (by simp), hP.2.1]
            ring
          · intro a b ha hb hne
            rw [hP.1.elem_setElem_ne hi hj ha hb hne]
            exact hP.2.2 a b ha hb hne
        · simp only [h, if_false]
          exact hP)
  exact { shaped := fun M hM => (key M hM).1, same := fun M hM => (key M hM).2.1,
          other := fun M hM => (key M hM).2.2 }

/-- The triple loop of `pseudoInverse`: the cell `(i, j)` of `a1` receives the sum of
`v[i][k] * a[j][k] / sv[k]` over the indices `k` whose singular value passes the test. -/
theorem pinvA1_spec (a1 a sv v : vpMatrix) (nrows ncols : Nat) (m th : ℚ)
    (h : Shaped a1 ncols nrows) :
    Shaped (pinvA1 a1 a sv v nrows ncols m th) ncols nrows ∧
    ∀ i j, i < ncols → j < nrows → (pinvA1 a1 a sv v nrows ncols m th).elem i j =
      ∑ k in (Finset.range ncols).filter (fun k => |sv.colElem k| > m * th),
        v.elem i k * a.elem j k / sv.colElem k :=
  fill_spec ncols nrows
    (fun i j => ∑ k in (Finset.range ncols).filter (fun k => |sv.colElem k| > m * th),
      v.elem i k * a.elem j k / sv.colElem k)
    (fun i j M3 => forLoop ncols (fun k M4 =>
      if |sv.colElem k| > m * th then
        M4.setElem i j (M4.elem i j + v.elem i k * a.elem j k / sv.colElem k)
      else M4) (M3.setElem i j 0))
    (fun i j hi hj => writesCell_accum hi hj ncols (fun k => |sv.colElem k| > m * th)
      (fun k => v.elem i k * a.elem j k / sv.colElem k))
    a1 h

/-- The extraction loops of `pseudoInverse` copy the cells `(i, j)`, `i < n`,
`j < rank`, of the source. -/
theorem pinvImage_spec (dst src : vpMatrix) (n rank : Nat) (h : Shaped dst n rank) :
    Shaped (pinvImage dst src n rank) n rank ∧
    ∀ i j, i < n → j < rank → (pinvImage dst src n rank).elem i j = src.elem i j :=
  fill_spec n rank (fun i j => src.elem i j) (fun i j M3 => M3.setElem i j (src.elem i j))
    (fun _ _ hi hj => writesCell_setElem hi hj _) dst h

/-! ## The values handed back by `pseudoInverse` -/

theorem pinv_rank_eq (u : Uninit) (prim : SvdPrimitive) (A Ap sv : vpMatrix) (th : ℚ)
    (imA imAt : vpMatrix) :
    (pseudoInverse u prim A Ap sv th imA imAt).rank =
      pinvRank (pinvSvd u prim A sv).2.1 (pinvCols A)
        (pinvMaxsv (pinvSvd u prim A sv).2.1 (pinvCols A)) th := by
  unfold pseudoInverse
  simp only []
  split_ifs <;> rfl

theorem pinv_sv_eq (u : Uninit) (prim : SvdPrimitive) (A Ap sv : vpMatrix) (th : ℚ)
    (imA imAt : vpMatrix) :
    (pseudoInverse u prim A Ap sv th imA imAt).sv = (pinvSvd u prim A sv).2.1 := by
  unfold pseudoInverse
  simp only []
  split_ifs <;> rfl

/-- The rank as a count of the indices that pass the guard. -/
theorem pinv_rank_card (u : Uninit) (prim : SvdPrimitive) (A Ap sv : vpMatrix) (th : ℚ)
    (imA imAt : vpMatrix) :
    (pseudoInverse u prim A Ap sv th imA imAt).rank =
      ((Finset.range (pinvCols A)).filter (pinvPasses u prim A sv th)).card := by
  rw [pinv_rank_eq, pinvRank_spec]
  rfl

theorem pinv_rank_le (u : Uninit) (prim : SvdPrimitive) (A Ap sv : vpMatrix) (th : ℚ)
    (imA imAt : vpMatrix) :
    (pseudoInverse u prim A Ap sv th imA imAt).rank ≤ pinvCols A := by
  rw [pinv_rank_eq]
  exact pinvRank_le _ _ _ _

/-- The value that the triple loop leaves in the cell `(i, j)` of `a1`. -/
theorem pinv_a1_cells (u : Uninit) (prim : SvdPrimitive) (A sv : vpMatrix) (th : ℚ) :
    Shaped (pinvA1 (mk2 u (pinvCols A) (pinvRows A)) (pinvSvd u prim A sv).1
      (pinvSvd u prim A sv).2.1 (pinvSvd u prim A sv).2.2 (pinvRows A) (pinvCols A)
      (pinvMaxsv (pinvSvd u prim A sv).2.1 (pinvCols A)) th) (pinvCols A) (pinvRows A) ∧
    ∀ i j, i < pinvCols A → j < pinvRows A →
      (pinvA1 (mk2 u (pinvCols A) (pinvRows A)) (pinvSvd u prim A sv).1
        (pinvSvd u prim A sv).2.1 (pinvSvd u prim A sv).2.2 (pinvRows A) (pinvCols A)
        (pinvMaxsv (pinvSvd u prim A sv).2.1 (pinvCols A)) th).elem i j =
      ∑ k in (Finset.range (pinvCols A)).filter (pinvPasses u prim A sv th),
        (pinvSvd u prim A sv).2.2.elem i k * (pinvSvd u prim A sv).1.elem j k /
          (pinvSvd u prim A sv).2.1.colElem k :=
  pinvA1_spec _ _ _ _ _ _ _ _ (mk2_shaped u _ _)

/-- The pseudo-inverse handed back: shape `cols × rows`, and its cells are those of `a1`
when the matrix has at least as many rows as columns, of the transpose of `a1`
otherwise. -/
theorem pinv_Ap_spec (u : Uninit) (prim : SvdPrimitive) (A Ap sv : vpMatrix) (th : ℚ)
    (imA imAt : vpMatrix) (hAp : WF Ap) :
    Shaped (pseudoInverse u prim A Ap sv th imA imAt).Ap A.colNum A.rowNum ∧
    (A.rowNum ≥ A.colNum → ∀ i j, i < A.colNum → j < A.rowNum →
      (pseudoInverse u prim A Ap sv th imA imAt).Ap.elem i j =
        ∑ k in (Finset.range (pinvCols A)).filter (pinvPasses u prim A sv th),
          (pinvSvd u prim A sv).2.2.elem i k * (pinvSvd u prim A sv).1.elem j k /
            (pinvSvd u prim A sv).2.1.colElem k) ∧
    (¬ A.rowNum ≥ A.colNum → ∀ i j, i < A.colNum → j < A.rowNum →
      (pseudoInverse u prim A Ap sv th imA imAt).Ap.elem i j =
        ∑ k in (Finset.range (pinvCols A)).filter (pinvPasses u prim A sv th),
          (pinvSvd u prim A sv).2.2.elem j k * (pinvSvd u prim A sv).1.elem i k /
            (pinvSvd u prim A sv).2.1.colElem k) := by
  have ha1 := pinv_a1_cells u prim A sv th
  have hAp2 : WF (resize u Ap A.colNum A.rowNum true) :=
    (resize_shaped u Ap _ _ true hAp).wf
  by_cases h : A.rowNum ≥ A.colNum
  · have hr : pinvRows A = A.rowNum := by simp [pinvRows, getRows, getCols, h]
    have hc : pinvCols A = A.colNum := by simp [pinvCols, getRows, getCols, h]
    have e : (pseudoInverse u prim A Ap sv th imA imAt).Ap =
        operatorAssign u (resize u Ap A.colNum A.rowNum true)
          (pinvA1 (mk2 u (pinvCols A) (pinvRows A)) (pinvSvd u prim A sv).1
            (pinvSvd u prim A sv).2.1 (pinvSvd u prim A sv).2.2 (pinvRows A) (pinvCols A)
            (pinvMaxsv (pinvSvd u prim A sv).2.1 (pinvCols A)) th) := by
      unfold pseudoInverse
      simp only [getRows, getCols, h, if_true]
    have hB : Shaped (pinvA1 (mk2 u (pinvCols A) (pinvRows A)) (pinvSvd u prim A sv).1
            (pinvSvd u prim A sv).2.1 (pinvSvd u prim A sv).2.2 (pinvRows A) (pinvCols A)
            (pinvMaxsv (pinvSvd u prim A sv).2.1 (pinvCols A)) th) A.colNum A.rowNum := by
      rw [← hc, ← hr]; exact ha1.1
    have key := operatorAssign_spec u _ _ _ _ hAp2 hB
    rw [← e] at key
    refine ⟨key.1, ?_, fun h2 => absurd h h2⟩
    intro _ i j hi hj
    rw [key.2.2 i j hi hj]
    exact ha1.2 i j (by rw [hc]; exact hi) (by rw [hr]; exact hj)
  · have hr : pinvRows A = A.colNum := by simp [pinvRows, getRows, getCols, h]
    have hc : pinvCols A = A.rowNum := by simp [pinvCols, getRows, getCols, h]
    have e : (pseudoInverse u prim A Ap sv th imA imAt).Ap =
        operatorAssign u (resize u Ap A.colNum A.rowNum true)
          (t u (pinvA1 (mk2 u (pinvCols A) (pinvRows A)) (pinvSvd u prim A sv).1
            (pinvSvd u prim A sv).2.1 (pinvSvd u prim A sv).2.2 (pinvRows A) (pinvCols A)
            (pinvMaxsv (pinvSvd u prim A sv).2.1 (pinvCols A)) th)) := by
      unfold pseudoInverse
      simp only [getRows, getCols, h, if_false]
    have ht := t_spec u (pinvA1 (mk2 u (pinvCols A) (pinvRows A)) (pinvSvd u prim A sv).1
            (pinvSvd u prim A sv).2.1 (pinvSvd u prim A sv).2.2 (pinvRows A) (pinvCols A)
            (pinvMaxsv (pinvSvd u prim A sv).2.1 (pinvCols A)) th)
    rw [ha1.1.rows, ha1.1.cols] at ht
    have hB : Shaped (t u (pinvA1 (mk2 u (pinvCols A) (pinvRows A)) (pinvSvd u prim A sv).1
            (pinvSvd u prim A sv).2.1 (pinvSvd u prim A sv).2.2 (pinvRows A) (pinvCols A)
            (pinvMaxsv (pinvSvd u prim A sv).2.1 (pinvCols A)) th)) A.colNum A.rowNum := by
      rw [← hc, ← hr]; exact ht.1
    have key := operatorAssign_spec u _ _ _ _ hAp2 hB
    rw [← e] at key
    refine ⟨key.1, fun h2 => absurd h2 h, ?_⟩
    intro _ i j hi hj
    rw [key.2.2 i j hi hj, ht.2 j i (by rw [hc]; exact hj) (by rw [hr]; exact hi)]
    exact ha1.2 j i (by rw [hc]; exact hj) (by rw [hr]; exact hi)

/-- The two image bases handed back: their shapes and the cells they were copied from. -/
theorem pinv_images_spec (u : Uninit) (prim : SvdPrimitive) (A Ap sv : vpMatrix) (th : ℚ)
    (imA imAt : vpMatrix) (hA : WF imA) (hAt : WF imAt) :
    Shaped (pseudoInverse u prim A Ap sv th imA imAt).imAt A.colNum
      (pseudoInverse u prim A Ap sv th imA imAt).rank ∧
    Shaped (pseudoInverse u prim A Ap sv th imA imAt).imA A.rowNum
      (pseudoInverse u prim A Ap sv th imA imAt).rank ∧
    (A.rowNum ≥ A.colNum →
      (∀ i j, i < A.colNum → j < (pseudoInverse u prim A Ap sv th imA imAt).rank →
        (pseudoInverse u prim A Ap sv th imA imAt).imAt.elem i j =
          (pinvSvd u prim A sv).2.2.elem i j) ∧
      (∀ i j, i < A.rowNum → j < (pseudoInverse u prim A Ap sv th imA imAt).rank →
        (pseudoInverse u prim A Ap sv th imA imAt).imA.elem i j =
          (pinvSvd u prim A sv).1.elem i j)) ∧
    (¬ A.rowNum ≥ A.colNum →
      (∀ i j, i < A.colNum → j < (pseudoInverse u prim A Ap sv th imA imAt).rank →
        (pseudoInverse u prim A Ap sv th imA imAt).imAt.elem i j =
          (pinvSvd u prim A sv).1.elem i j) ∧
      (∀ i j, i < A.rowNum → j < (pseudoInverse u prim A Ap sv th imA imAt).rank →
        (pseudoInverse u prim A Ap sv th imA imAt).imA.elem i j =
          (pinvSvd u prim A sv).2.2.elem i j)) := by
  rw [pinv_rank_eq]
  by_cases h : A.rowNum ≥ A.colNum
  · have e1 : (pseudoInverse u prim A Ap sv th imA imAt).imAt =
        pinvImage (resize u imAt A.colNum (pinvRank (pinvSvd u prim A sv).2.1 (pinvCols A)
          (pinvMaxsv (pinvSvd u prim A sv).2.1 (pinvCols A)) th) true)
          (pinvSvd u prim A sv).2.2 A.colNum (pinvRank (pinvSvd u prim A sv).2.1 (pinvCols A)
          (pinvMaxsv (pinvSvd u prim A sv).2.1 (pinvCols A)) th) := by
      unfold pseudoInverse
      simp only [getRows, getCols, h, if_true]
    have e2 : (pseudoInverse u prim A Ap sv th imA imAt).imA =
        pinvImage (resize u imA A.rowNum (pinvRank (pinvSvd u prim A sv).2.1 (pinvCols A)
          (pinvMaxsv (pinvSvd u prim A sv).2.1 (pinvCols A)) th) true)
          (pinvSvd u prim A sv).1 A.rowNum (pinvRank (pinvSvd u prim A sv).2.1 (pinvCols A)
          (pinvMaxsv (pinvSvd u prim A sv).2.1 (pinvCols A)) th) := by
      unfold pseudoInverse
      simp only [getRows, getCols, h, if_true]
    have k1 := pinvImage_spec _ (pinvSvd u prim A sv).2.2 _ _
      (resize_shaped u imAt A.colNum (pinvRank (pinvSvd u prim A sv).2.1 (pinvCols A)
          (pinvMaxsv (pinvSvd u prim A sv).2.1 (pinvCols A)) th) true hAt)
    have k2 := pinvImage_spec _ (pinvSvd u prim A sv).1 _ _
      (resize_shaped u imA A.rowNum (pinvRank (pinvSvd u prim A sv).2.1 (pinvCols A)
          (pinvMaxsv (pinvSvd u prim A sv).2.1 (pinvCols A)) th) true hA)
    rw [← e1] at k1
    rw [← e2] at k2
    exact ⟨k1.1, k2.1, fun _ => ⟨k1.2, k2.2⟩, fun h2 => absurd h h2⟩
  · have e1 : (pseudoInverse u prim A Ap sv th imA imAt).imAt =
        pinvImage (resize u imAt A.colNum (pinvRank (pinvSvd u prim A sv).2.1 (pinvCols A)
          (pinvMaxsv (pinvSvd u prim A sv).2.1 (pinvCols A)) th) true)
          (pinvSvd u prim A sv).1 A.colNum (pinvRank (pinvSvd u prim A sv).2.1 (pinvCols A)
          (pinvMaxsv (pinvSvd u prim A sv).2.1 (pinvCols A)) th) := by
      unfold pseudoInverse
      simp only [getRows, getCols, h, if_false]
    have e2 : (pseudoInverse u prim A Ap sv th imA imAt).imA =
        pinvImage (resize u imA A.rowNum (pinvRank (pinvSvd u prim A sv).2.1 (pinvCols A)
          (pinvMaxsv (pinvSvd u prim A sv).2.1 (pinvCols A)) th) true)
          (pinvSvd u prim A sv).2.2 A.rowNum (pinvRank (pinvSvd u prim A sv).2.1 (pinvCols A)
          (pinvMaxsv (pinvSvd u prim A sv).2.1 (pinvCols A)) th) := by
      unfold pseudoInverse
      simp only [getRows, getCols, h, if_false]
    have k1 := pinvImage_spec _ (pinvSvd u prim A sv).1 _ _
      (resize_shaped u imAt A.colNum (pinvRank (pinvSvd u prim A sv).2.1 (pinvCols A)
          (pinvMaxsv (pinvSvd u prim A sv).2.1 (pinvCols A)) th) true hAt)
    have k2 := pinvImage_spec _ (pinvSvd u prim A sv).2.2 _ _
      (resize_shaped u imA A.rowNum (pinvRank (pinvSvd u prim A sv).2.1 (pinvCols A)
          (pinvMaxsv (pinvSvd u prim A sv).2.1 (pinvCols A)) th) true hA)
    rw [← e1] at k1
    rw [← e2] at k2
    exact ⟨k1.1, k2.1, fun h2 => absurd h2 h, fun _ => ⟨k1.2, k2.2⟩⟩

/-! ## Claims on the rank, the pseudo-inverse and the image bases -/

/-- C2. The integer returned by `pseudoInverse` is the number of indices
`i < min(rows, cols)` with `|sv[i]| > maxSV * threshold`, where `sv` holds the singular
values written by the SVD primitive and `maxSV` is the largest `|sv[i]|`; hence the rank
is at most `min(rows, cols)`. -/
theorem pseudoInverse_rank_is_count (u : Uninit) (prim : SvdPrimitive)
    (A Ap sv : vpMatrix) (th : ℚ) (imA imAt : vpMatrix) (hA : WF A) (hsv : WF sv) :
    ∃ maxSV : ℚ,
      (∀ i, i < min A.rowNum A.colNum →
        (pseudoInverse u prim A Ap sv th imA imAt).sv.colElem? i =
          some ((prim (pinvRows A) (pinvCols A) (pinvWork u A).data).w i) ∧
        |(pseudoInverse u prim A Ap sv th imA imAt).sv.colElem i| ≤ maxSV) ∧
      (0 < min A.rowNum A.colNum → ∃ i, i < min A.rowNum A.colNum ∧
        |(pseudoInverse u prim A Ap sv th imA imAt).sv.colElem i| = maxSV) ∧
      (pseudoInverse u prim A Ap sv th imA imAt).rank =
        ((Finset.range (min A.rowNum A.colNum)).filter (fun i =>
          |(pseudoInverse u prim A Ap sv th imA imAt).sv.colElem i| > maxSV * th)).card ∧
      (pseudoInverse u prim A Ap sv th imA imAt).rank ≤ min A.rowNum A.colNum := by
  have hs := pinvSvd_spec u prim A sv hA hsv
  have hm := pinvMaxsv_spec (pinvSvd u prim A sv).2.1 (pinvCols A)
  refine ⟨pinvMaxsv (pinvSvd u prim A sv).2.1 (pinvCols A), ?_, ?_, ?_, ?_⟩
  · intro i hi
    rw [pinv_sv_eq]
    rw [← pinvCols_eq_min] at hi
    exact ⟨hs.2.2.2.1 i hi, hm.2.1 i hi⟩
  · intro hn
    rw [pinv_sv_eq, ← pinvCols_eq_min] at *
    exact hm.2.2.1 hn
  · rw [pinv_sv_eq, ← pinvCols_eq_min, pinv_rank_eq, pinvRank_spec]
  · rw [← pinvCols_eq_min]
    exact pinv_rank_le u prim A Ap sv th imA imAt

/-- C3. With `work` a copy of `A` (rows ≥ cols) or of its transpose (rows < cols), and
`(U, sv, V) = pinvSvd` the contents of `work`, `sv` and `v` after the SVD call on `work`,
`pseudoInverse` returns `Ap = a1` (rows ≥ cols) or `Ap = a1ᵗ` (rows < cols), where
`a1[i][j]` is the sum of `V[i][k] * U[j][k] / sv[k]` over exactly those `k < ncols`
with `|sv[k]| > maxSV * threshold`. -/
theorem pseudoInverse_Ap_is_thresholded_sum (u : Uninit) (prim : SvdPrimitive)
    (A Ap sv : vpMatrix) (th : ℚ) (imA imAt : vpMatrix)
    (hA : WF A) (hAp : WF Ap) (hsv : WF sv) :
    (A.rowNum ≥ A.colNum → ∀ i j, i < A.rowNum → j < A.colNum →
      ∃ x, A.elem? i j = some x ∧ (pinvWork u A).elem? i j = some x) ∧
    (¬ A.rowNum ≥ A.colNum → ∀ i j, i < A.colNum → j < A.rowNum →
      ∃ x, A.elem? j i = some x ∧ (pinvWork u A).elem? i j = some x) ∧
    (∀ i j, i < pinvRows A → j < pinvCols A → (pinvSvd u prim A sv).1.elem? i j =
      some ((prim (pinvRows A) (pinvCols A) (pinvWork u A).data).u i j)) ∧
    (∀ k, k < pinvCols A → (pinvSvd u prim A sv).2.1.colElem? k =
      some ((prim (pinvRows A) (pinvCols A) (pinvWork u A).data).w k)) ∧
    (∀ i j, i < pinvCols A → j < pinvCols A → (pinvSvd u prim A sv).2.2.elem? i j =
      some ((prim (pinvRows A) (pinvCols A) (pinvWork u A).data).v i j)) ∧
    (∀ k, pinvPasses u prim A sv th k ↔
      |(pinvSvd u prim A sv).2.1.colElem k| >
        pinvMaxsv (pinvSvd u prim A sv).2.1 (pinvCols A) * th) ∧
    (A.rowNum ≥ A.colNum → ∀ i j, i < A.colNum → j < A.rowNum →
      (pseudoInverse u prim A Ap sv th imA imAt).Ap.elem? i j = some
        (∑ k in (Finset.range (pinvCols A)).filter (pinvPasses u prim A sv th),
          (pinvSvd u prim A sv).2.2.elem i k * (pinvSvd u prim A sv).1.elem j k /
            (pinvSvd u prim A sv).2.1.colElem k)) ∧
    (¬ A.rowNum ≥ A.colNum → ∀ i j, i < A.colNum → j < A.rowNum →
      (pseudoInverse u prim A Ap sv th imA imAt).Ap.elem? i j = some
        (∑ k in (Finset.range (pinvCols A)).filter (pinvPasses u prim A sv th),
          (pinvSvd u prim A sv).2.2.elem j k * (pinvSvd u prim A sv).1.elem i k /
            (pinvSvd u prim A sv).2.1.colElem k)) := by
  have hw := pinvWork_spec u A hA
  have hs := pinvSvd_spec u prim A sv hA hsv
  have hp := pinv_Ap_spec u prim A Ap sv th imA imAt hAp
  refine ⟨?_, ?_, ?_, hs.2.2.2.1, ?_, fun k => Iff.rfl, ?_, ?_⟩
  · intro h i j hi hj
    have hr : pinvRows A = A.rowNum := by simp [pinvRows, getRows, getCols, h]
    have hc : pinvCols A = A.colNum := by simp [pinvCols, getRows, getCols, h]
    refine ⟨A.elem i j, hA.elem?_eq_some hi hj, ?_⟩
    rw [hw.1.elem?_eq_some (by rw [hr]; exact hi) (by rw [hc]; exact hj), hw.2.1 h i j hi hj]
  · intro h i j hi hj
    have hr : pinvRows A = A.colNum := by simp [pinvRows, getRows, getCols, h]
    have hc : pinvCols A = A.rowNum := by simp [pinvCols, getRows, getCols, h]
    refine ⟨A.elem j i, hA.elem?_eq_some hj hi, ?_⟩
    rw [hw.1.elem?_eq_some (by rw [hr]; exact hi) (by rw [hc]; exact hj), hw.2.2 h i j hi hj]
  · intro i j hi hj
    rw [hs.1.elem?_eq_some hi hj, hs.2.1 i j hi hj]
  · intro i j hi hj
    rw [hs.2.2.2.2.1.elem?_eq_some hi hj, hs.2.2.2.2.2 i j hi hj]
  · intro h i j hi hj
    rw [hp.1.elem?_eq_some hi hj, hp.2.1 h i j hi hj]
  · intro h i j hi hj
    rw [hp.1.elem?_eq_some hi hj, hp.2.2 h i j hi hj]

/-- C8. `pseudoInverse` returns `Ap` of shape `cols × rows`, `imA` of shape
`rows × rank`, `imAt` of shape `cols × rank` and a singular-value vector of
`min(rows, cols)` entries, where `rank` is the returned integer. -/
theorem pseudoInverse_output_shapes (u : Uninit) (prim : SvdPrimitive)
    (A Ap sv : vpMatrix) (th : ℚ) (imA imAt : vpMatrix)
    (hA : WF A) (hAp : WF Ap) (hsv : WF sv) (himA : WF imA) (himAt : WF imAt) :
    Sized (pseudoInverse u prim A Ap sv th imA imAt).Ap A.colNum A.rowNum ∧
    Sized (pseudoInverse u prim A Ap sv th imA imAt).imA A.rowNum
      (pseudoInverse u prim A Ap sv th imA imAt).rank ∧
    Sized (pseudoInverse u prim A Ap sv th imA imAt).imAt A.colNum
      (pseudoInverse u prim A Ap sv th imA imAt).rank ∧
    Sized (pseudoInverse u prim A Ap sv th imA imAt).sv (min A.rowNum A.colNum) 1 ∧
    (pseudoInverse u prim A Ap sv th imA imAt).sv.data.length = min A.rowNum A.colNum := by
  have hs := pinvSvd_spec u prim A sv hA hsv
  have hp := pinv_Ap_spec u prim A Ap sv th imA imAt hAp
  have hi := pinv_images_spec u prim A Ap sv th imA imAt himA himAt
  rw [pinv_sv_eq, ← pinvCols_eq_min]
  refine ⟨hp.1.toSized, hi.2.1.toSized, hi.1.toSized, hs.2.2.1.toSized, ?_⟩
  rw [hs.2.2.1.dlen, Nat.mul_one]

/-- C10. With `U` and `V` the contents of `work` and `v` after the SVD call: when
rows ≥ cols, `imAt[i][j] = V[i][j]` (`i < cols`, `j < rank`) and `imA[i][j] = U[i][j]`
(`i < rows`, `j < rank`); when rows < cols the roles are swapped. Each of these reads
is inside `V` (`ncols × ncols`) or `U` (`nrows × ncols`). -/
theorem pseudoInverse_images_are_leading_columns (u : Uninit) (prim : SvdPrimitive)
    (A Ap sv : vpMatrix) (th : ℚ) (imA imAt : vpMatrix)
    (hA : WF A) (hsv : WF sv) (himA : WF imA) (himAt : WF imAt) :
    ((pinvSvd u prim A sv).1.rowNum = max A.rowNum A.colNum ∧
      (pinvSvd u prim A sv).1.colNum = min A.rowNum A.colNum ∧
      (pinvSvd u prim A sv).2.2.rowNum = min A.rowNum A.colNum ∧
      (pinvSvd u prim A sv).2.2.colNum = min A.rowNum A.colNum) ∧
    (A.rowNum ≥ A.colNum →
      (∀ i j, i < A.colNum → j < (pseudoInverse u prim A Ap sv th imA imAt).rank →
        i < (pinvSvd u prim A sv).2.2.rowNum ∧ j < (pinvSvd u prim A sv).2.2.colNum ∧
        ∃ x, (pinvSvd u prim A sv).2.2.elem? i j = some x ∧
          (pseudoInverse u prim A Ap sv th imA imAt).imAt.elem? i j = some x) ∧
      (∀ i j, i < A.rowNum → j < (pseudoInverse u prim A Ap sv th imA imAt).rank →
        i < (pinvSvd u prim A sv).1.rowNum ∧ j < (pinvSvd u prim A sv).1.colNum ∧
        ∃ x, (pinvSvd u prim A sv).1.elem? i j = some x ∧
          (pseudoInverse u prim A Ap sv th imA imAt).imA.elem? i j = some x)) ∧
    (¬ A.rowNum ≥ A.colNum →
      (∀ i j, i < A.colNum → j < (pseudoInverse u prim A Ap sv th imA imAt).rank →
        i < (pinvSvd u prim A sv).1.rowNum ∧ j < (pinvSvd u prim A sv).1.colNum ∧
        ∃ x, (pinvSvd u prim A sv).1.elem? i j = some x ∧
          (pseudoInverse u prim A Ap sv th imA imAt).imAt.elem? i j = some x) ∧
      (∀ i j, i < A.rowNum → j < (pseudoInverse u prim A Ap sv th imA imAt).rank →
        i < (pinvSvd u prim A sv).2.2.rowNum ∧ j < (pinvSvd u prim A sv).2.2.colNum ∧
        ∃ x, (pinvSvd u prim A sv).2.2.elem? i j = some x ∧
          (pseudoInverse u prim A Ap sv th imA imAt).imA.elem? i j = some x)) := by
  have hs := pinvSvd_spec u prim A sv hA hsv
  have hi := pinv_images_spec u prim A Ap sv th imA imAt himA himAt
  have hrk := pinv_rank_le u prim A Ap sv th imA imAt
  have hU := hs.1
  have hV := hs.2.2.2.2.1
  refine ⟨⟨?_, ?_, ?_, ?_⟩, ?_, ?_⟩
  · rw [hU.rows, pinvRows_eq_max]
  · rw [hU.cols, pinvCols_eq_min]
  · rw [hV.rows, pinvCols_eq_min]
  · rw [hV.cols, pinvCols_eq_min]
  · intro h
    have hr : pinvRows A = A.rowNum := by simp [pinvRows, getRows, getCols, h]
    have hc : pinvCols A = A.colNum := by simp [pinvCols, getRows, getCols, h]
    constructor
    · intro i j hi1 hj1
      have hi2 : i < pinvCols A := by rw [hc]; exact hi1
      have hj2 : j < pinvCols A := lt_of_lt_of_le hj1 hrk
      refine ⟨by rw [hV.rows]; exact hi2, by rw [hV.cols]; exact hj2,
        (pinvSvd u prim A sv).2.2.elem i j, hV.elem?_eq_some hi2 hj2, ?_⟩
      rw [hi.1.elem?_eq_some hi1 hj1, (hi.2.2.1 h).1 i j hi1 hj1]
    · intro i j hi1 hj1
      have hi2 : i < pinvRows A := by rw [hr]; exact hi1
      have hj2 : j < pinvCols A := lt_of_lt_of_le hj1 hrk
      refine ⟨by rw [hU.rows]; exact hi2, by rw [hU.cols]; exact hj2,
        (pinvSvd u prim A sv).1.elem i j, hU.elem?_eq_some hi2 hj2, ?_⟩
      rw [hi.2.1.elem?_eq_some hi1 hj1, (hi.2.2.1 h).2 i j hi1 hj1]
  · intro h
    have hr : pinvRows A = A.colNum := by simp [pinvRows, getRows, getCols, h]
    have hc : pinvCols A = A.rowNum := by simp [pinvCols, getRows, getCols, h]
    constructor
    · intro i j hi1 hj1
      have hi2 : i < pinvRows A := by rw [hr]; exact hi1
      have hj2 : j < pinvCols A := lt_of_lt_of_le hj1 hrk
      refine ⟨by rw [hU.rows]; exact hi2, by rw [hU.cols]; exact hj2,
        (pinvSvd u prim A sv).1.elem i j, hU.elem?_eq_some hi2 hj2, ?_⟩
      rw [hi.1.elem?_eq_some hi1 hj1, (hi.2.2.2 h).1 i j hi1 hj1]
    · intro i j hi1 hj1
      have hi2 : i < pinvCols A := by rw [hc]; exact hi1
      have hj2 : j < pinvCols A := lt_of_lt_of_le hj1 hrk
      refine ⟨by rw [hV.rows]; exact hi2, by rw [hV.cols]; exact hj2,
        (pinvSvd u prim A sv).2.2.elem i j, hV.elem?_eq_some hi2 hj2, ?_⟩
      rw [hi.2.1.elem?_eq_some hi1 hj1, (hi.2.2.2 h).2 i j hi1 hj1]

/-! ## The Moore-Penrose identities -/

theorem forLoop_sum (n : Nat) (f : Nat → ℚ) :
    forLoop n (fun k s => s + f k) 0 = ∑ k in Finset.range n, f k := by
  induction n with
  | zero => simp [forLoop_zero]
  | succ n ih => rw [forLoop_succ, ih, Finset.sum_range_succ]

/-- The product of an `r × n` and an `n × c` matrix succeeds and its cell `(i, j)` is the
dot product of row `i` and column `j`. -/
theorem operatorMul_spec (u : Uninit) (A B : vpMatrix) (r n c : Nat)
    (hA : Shaped A r n) (hB : Shaped B n c) :
    ∃ P, operatorMul u A B = Except.ok P ∧ Shaped P r c ∧
      ∀ i j, i < r → j < c →
        P.elem i j = ∑ k in Finset.range n, A.elem i k * B.elem k j := by
  have e1 := hA.rows
  have e2 := hA.cols
  have e3 := hB.rows
  have e4 := hB.cols
  have hR : Shaped (resize u init A.rowNum B.colNum true) r c := by
    rw [← e1, ← e4]; exact resize_shaped u init _ _ true init_wf
  have key := fill_spec r c
    (fun i j => ∑ k in Finset.range n, A.elem i k * B.elem k j)
    (fun i j p3 => p3.setElem i j
      (forLoop n (fun k s => s + A.elem i k * B.elem k j) 0))
    (fun i j hi hj => by
      simp only [forLoop_sum]
      exact writesCell_setElem hi hj _) _ hR
  refine ⟨_, ?_, key.1, key.2⟩
  have hne2 : ¬ (A.colNum ≠ n) := by rw [e2]; simp
  simp only [operatorMul, e1, e3, e4, hne2, if_false]

theorem tall32_wf : WF tall32 :=
  { rows := rfl, cols := rfl, dsz := rfl, dlen := rfl, trsz := rfl, tlen := rfl,
    ptrs := by
      intro _ i hi
      have hi3 : i < 3 := hi
      interval_cases i <;> rfl }

theorem wide23_wf : WF wide23 :=
  { rows := rfl, cols := rfl, dsz := rfl, dlen := rfl, trsz := rfl, tlen := rfl,
    ptrs := by
      intro _ i hi
      have hi2 : i < 2 := hi
      interval_cases i <;> rfl }

theorem diag01_wf : WF diag01 :=
  { rows := rfl, cols := rfl, dsz := rfl, dlen := rfl, trsz := rfl, tlen := rfl,
    ptrs := by
      intro _ i hi
      have hi2 : i < 2 := hi
      interval_cases i <;> rfl }

/-- Witness for C2: the `2 × 3` example. -/
theorem pseudoInverse_rank_is_count_witness :
    WF wide23 ∧ WF init ∧
    (pseudoInverse sevens (svdEye (fun k => (k : ℚ) + 1)) wide23 init init (1 / 1000000)
      init init).rank ≤ min wide23.rowNum wide23.colNum :=
  ⟨wide23_wf, init_wf,
    (pseudoInverse_rank_is_count sevens (svdEye (fun k => (k : ℚ) + 1)) wide23 init init
      (1 / 1000000) init init wide23_wf init_wf).elim (fun _ h => h.2.2.2)⟩

/-- Witness for C3: the cell `(0, 0)` of the pseudo-inverse of the `3 × 2` example. -/
theorem pseudoInverse_Ap_is_thresholded_sum_witness :
    WF tall32 ∧ WF init ∧
    (pseudoInverse sevens (svdEye (fun k => (k : ℚ) + 1)) tall32 init init (1 / 1000000)
      init init).Ap.elem? 0 0 = some
        (∑ k in (Finset.range (pinvCols tall32)).filter
            (pinvPasses sevens (svdEye (fun k => (k : ℚ) + 1)) tall32 init (1 / 1000000)),
          (pinvSvd sevens (svdEye (fun k => (k : ℚ) + 1)) tall32 init).2.2.elem 0 k *
            (pinvSvd sevens (svdEye (fun k => (k : ℚ) + 1)) tall32 init).1.elem 0 k /
            (pinvSvd sevens (svdEye (fun k => (k : ℚ) + 1)) tall32 init).2.1.colElem k) :=
  ⟨tall32_wf, init_wf,
    (pseudoInverse_Ap_is_thresholded_sum sevens (svdEye (fun k => (k : ℚ) + 1)) tall32
      init init (1 / 1000000) init init tall32_wf init_wf init_wf).2.2.2.2.2.2.1
      (by decide) 0 0 (by decide) (by decide)⟩

/-- Witness for C8: the shape of the pseudo-inverse of the `2 × 3` example. -/
theorem pseudoInverse_output_shapes_witness :
    WF wide23 ∧ WF init ∧
    Sized (pseudoInverse sevens (svdEye (fun k => (k : ℚ) + 1)) wide23 init init
      (1 / 1000000) init init).Ap wide23.colNum wide23.rowNum :=
  ⟨wide23_wf, init_wf,
    (pseudoInverse_output_shapes sevens (svdEye (fun k => (k : ℚ) + 1)) wide23 init init
      (1 / 1000000) init init wide23_wf init_wf init_wf init_wf init_wf).1⟩

/-- C9. On `[[0,0],[0,1]]` with the correct decomposition `U = V = identity`,
`sv = (0, 1)` (singular values not sorted), `pseudoInverse` returns rank `1`; the only
index that passes the threshold test is `k = 1`, and `Ap` is summed over it, but the
single column of `imAt` and of `imA` is column `0` of `V` and of `U` (the leading one),
whose singular value `0` fails the test, and not the passing column `1`. -/
theorem pseudoInverse_images_miss_partition :
    WF diag01 ∧
    (∀ i j, i < 2 → j < 2 → diag01.elem i j = ∑ k in Finset.range 2,
      (pinvSvd sevens (svdEye (fun k => (k : ℚ))) diag01 init).1.elem i k *
        (pinvSvd sevens (svdEye (fun k => (k : ℚ))) diag01 init).2.1.colElem k *
        (pinvSvd sevens (svdEye (fun k => (k : ℚ))) diag01 init).2.2.elem j k) ∧
    (pseudoInverse sevens (svdEye (fun k => (k : ℚ))) diag01 init init (1 / 1000000)
      init init).rank = 1 ∧
    ¬ pinvPasses sevens (svdEye (fun k => (k : ℚ))) diag01 init (1 / 1000000) 0 ∧
    pinvPasses sevens (svdEye (fun k => (k : ℚ))) diag01 init (1 / 1000000) 1 ∧
    (pseudoInverse sevens (svdEye (fun k => (k : ℚ))) diag01 init init (1 / 1000000)
      init init).Ap.data = [0, 0, 0, 1] ∧
    (pseudoInverse sevens (svdEye (fun k => (k : ℚ))) diag01 init init (1 / 1000000)
      init init).imAt.data = [1, 0] ∧
    (pseudoInverse sevens (svdEye (fun k => (k : ℚ))) diag01 init init (1 / 1000000)
      init init).imA.data = [1, 0] ∧
    (pseudoInverse sevens (svdEye (fun k => (k : ℚ))) diag01 init init (1 / 1000000)
      init init).imAt.elem? 1 0 = some 0 ∧
    (pinvSvd sevens (svdEye (fun k => (k : ℚ))) diag01 init).2.2.elem? 1 1 = some 1 ∧
    (pseudoInverse sevens (svdEye (fun k => (k : ℚ))) diag01 init init (1 / 1000000)
      init init).imA.elem? 1 0 = some 0 ∧
    (pinvSvd sevens (svdEye (fun k => (k : ℚ))) diag01 init).1.elem? 1 1 = some 1 := by
  refine ⟨diag01_wf, ?_, by decide!, by decide!, by decide!, by decide!, by decide!,
    by decide!, by decide!, by decide!, by decide!, by decide!⟩
  intro i j hi hj
  interval_cases i <;> interval_cases j <;> decide!

/-- Witness for C10: the cell `(0, 0)` of `imAt` for the `3 × 2` example. -/
theorem pseudoInverse_images_are_leading_columns_witness :
    WF tall32 ∧ WF init ∧
    (0 < (pinvSvd sevens (svdEye (fun k => (k : ℚ) + 1)) tall32 init).2.2.rowNum ∧
      0 < (pinvSvd sevens (svdEye (fun k => (k : ℚ) + 1)) tall32 init).2.2.colNum ∧
      ∃ x, (pinvSvd sevens (svdEye (fun k => (k : ℚ) + 1)) tall32 init).2.2.elem? 0 0
          = some x ∧
        (pseudoInverse sevens (svdEye (fun k => (k : ℚ) + 1)) tall32 init init
          (1 / 1000000) init init).imAt.elem? 0 0 = some x) :=
  ⟨tall32_wf, init_wf,
    ((pseudoInverse_images_are_leading_columns sevens (svdEye (fun k => (k : ℚ) + 1)) tall32
      init init (1 / 1000000) init init tall32_wf init_wf init_wf init_wf).2.1
      (by decide)).1 0 0 (by decide) (by decide!)⟩

/-! ## Sum and difference -/

/-- The loop `d[i] = f i` over a buffer of `n` cells. -/
theorem listFill_spec {α : Type} (n : Nat) (f : Nat → α) (d : List α) (h : d.length = n) :
    (forLoop n (fun i d2 => d2.set i (f i)) d).length = n ∧
    ∀ i, i < n → (forLoop n (fun i d2 => d2.set i (f i)) d)[i]? = some (f i) := by
  have inv := forLoop_inv
    (fun k (P : List α) => P.length = n ∧ ∀ l, l < k → l < n → P[l]? = some (f l))
    n (fun i d2 => d2.set i (f i)) d
    ⟨h, fun l hl => absurd hl (Nat.not_lt_zero l)⟩
    (by
      intro k hk P hP
      refine ⟨by simpa using hP.1, ?_⟩
      intro l hl hln
      by_cases e : l = k
      · subst e
        simp [List.getElem?_set, hP.1, hln]
      · have := hP.2 l (by omega) hln
        simp [List.getElem?_set, Ne.symm e, this])
  exact ⟨inv.1, fun i hi => inv.2 i hi hi⟩

/-- A matrix of the right sizes whose buffer is replaced by one of the same length. -/
theorem Shaped.with_data {M : vpMatrix} {r c : Nat} (h : Shaped M r c) (d : List ℚ)
    (hd : d.length = r * c) : Shaped { M with data := d } r c :=
  { rows := h.rows, cols := h.cols, dsz := h.dsz, dlen := hd, trsz := h.trsz,
    tlen := h.tlen, ptrs := h.ptrs }

theorem Shaped.elem_eq_data {M : vpMatrix} {r c i j : Nat} (h : Shaped M r c)
    (hi : i < r) (hj : j < c) : M.elem i j = (M.data[i * c + j]?).getD 0 := by
  rw [vpMatrix.elem, h.elem?_eq hi hj]

/-- The sum of two `r × c` matrices succeeds and is computed cell by cell. -/
theorem operatorAdd_spec (u : Uninit) (A B : vpMatrix) (r c : Nat)
    (hA : Shaped A r c) (hB : Shaped B r c) :
    ∃ C, operatorAdd u A B = Except.ok C ∧ Shaped C r c ∧
      ∀ i j, i < r → j < c → C.elem i j = B.elem i j + A.elem i j := by
  have hv : Shaped (resize u init A.rowNum A.colNum true) r c := by
    have h := resize_shaped u init A.rowNum A.colNum true init_wf
    have e1 := hA.rows
    have e2 := hA.cols
    rw [← e1, ← e2]; exact h
  have hcond : ¬ (A.colNum ≠ B.getCols ∨ A.rowNum ≠ B.getRows) := by
    simp [getCols, getRows, hA.rows, hA.cols, hB.rows, hB.cols]
  have hfill := listFill_spec A.dsize
    (fun i => (B.data[i]?).getD 0 + (A.data[i]?).getD 0)
    (resize u init A.rowNum A.colNum true).data (by rw [hv.dlen, hA.dsz])
  have hS := hv.with_data _ (hfill.1.trans hA.dsz)
  refine ⟨_, ?_, hS, ?_⟩
  · simp only [operatorAdd, hcond, if_false]
  · intro i j hi hj
    have hidx : i * c + j < A.dsize := by rw [hA.dsz]; exact index_lt hi hj
    rw [hS.elem_eq_data hi hj, hA.elem_eq_data hi hj, hB.elem_eq_data hi hj]
    simp only []
    rw [hfill.2 _ hidx]
    rfl

/-- The difference of two `r × c` matrices succeeds and is computed cell by cell. -/
theorem operatorSub_spec (u : Uninit) (A B : vpMatrix) (r c : Nat)
    (hA : Shaped A r c) (hB : Shaped B r c) :
    ∃ C, operatorSub u A B = Except.ok C ∧ Shaped C r c ∧
      ∀ i j, i < r → j < c → C.elem i j = A.elem i j - B.elem i j := by
  have hv : Shaped (resize u init A.rowNum A.colNum true) r c := by
    have h := resize_shaped u init A.rowNum A.colNum true init_wf
    have e1 := hA.rows
    have e2 := hA.cols
    rw [← e1, ← e2]; exact h
  have hcond : ¬ (A.colNum ≠ B.getCols ∨ A.rowNum ≠ B.getRows) := by
    simp [getCols, getRows, hA.rows, hA.cols, hB.rows, hB.cols]
  have hfill := listFill_spec A.dsize
    (fun i => (A.data[i]?).getD 0 - (B.data[i]?).getD 0)
    (resize u init A.rowNum A.colNum true).data (by rw [hv.dlen, hA.dsz])
  have hS := hv.with_data _ (hfill.1.trans hA.dsz)
  refine ⟨_, ?_, hS, ?_⟩
  · simp only [operatorSub, hcond, if_false]
  · intro i j hi hj
    have hidx : i * c + j < A.dsize := by rw [hA.dsz]; exact index_lt hi hj
    rw [hS.elem_eq_data hi hj, hA.elem_eq_data hi hj, hB.elem_eq_data hi hj]
    simp only []
    rw [hfill.2 _ hidx]
    rfl

theorem operatorAdd_error_iff (u : Uninit) (A B : vpMatrix) :
    operatorAdd u A B = Except.error vpMatrixException.incorrectMatrixSizeError ↔
      ¬ (A.rowNum = B.rowNum ∧ A.colNum = B.colNum) := by
  unfold operatorAdd
  simp only [getCols, getRows]
  by_cases h : A.colNum ≠ B.colNum ∨ A.rowNum ≠ B.rowNum
  · simp only [h, if_true, true_iff]
    intro h2
    rcases h with h | h
    · exact h h2.2
    · exact h h2.1
  · simp only [h, if_false]
    constructor
    · intro h2; cases h2
    · intro h2
      exact absurd ⟨not_not.mp (fun e => h (Or.inr e)), not_not.mp (fun e => h (Or.inl e))⟩ h2

theorem operatorSub_error_iff (u : Uninit) (A B : vpMatrix) :
    operatorSub u A B = Except.error vpMatrixException.incorrectMatrixSizeError ↔
      ¬ (A.rowNum = B.rowNum ∧ A.colNum = B.colNum) := by
  unfold operatorSub
  simp only [getCols, getRows]
  by_cases h : A.colNum ≠ B.colNum ∨ A.rowNum ≠ B.rowNum
  · simp only [h, if_true, true_iff]
    intro h2
    rcases h with h | h
    · exact h h2.2
    · exact h h2.1
  · simp only [h, if_false]
    constructor
    · intro h2; cases h2
    · intro h2
      exact absurd ⟨not_not.mp (fun e => h (Or.inr e)), not_not.mp (fun e => h (Or.inl e))⟩ h2

theorem m23_wf : WF m23 :=
  { rows := rfl, cols := rfl, dsz := rfl, dlen := rfl, trsz := rfl, tlen := rfl,
    ptrs := by
      intro _ i hi
      have hi2 : i < 2 := hi
      interval_cases i <;> rfl }

theorem m22_wf : WF m22 :=
  { rows := rfl, cols := rfl, dsz := rfl, dlen := rfl, trsz := rfl, tlen := rfl,
    ptrs := by
      intro _ i hi
      have hi2 : i < 2 := hi
      interval_cases i <;> rfl }

theorem col3_wf : WF col3 :=
  { rows := rfl, cols := rfl, dsz := rfl, dlen := rfl, trsz := rfl, tlen := rfl,
    ptrs := by
      intro _ i hi
      have hi3 : i < 3 := hi
      interval_cases i <;> rfl }

/-- C16. `A + B` and `A - B` raise the dimension-mismatch error exactly when the shapes
of `A` and `B` differ; otherwise each returns a matrix of the shape of `A` whose cell
`(i, j)` is `A[i][j] + B[i][j]`, respectively `A[i][j] - B[i][j]`. The operands are
values of the model and are not returned: the methods are `const`. -/
theorem operatorAdd_operatorSub_contract (u : Uninit) (A B : vpMatrix)
    (hA : WF A) (hB : WF B) :
    (operatorAdd u A B = Except.error vpMatrixException.incorrectMatrixSizeError ↔
      ¬ (A.rowNum = B.rowNum ∧ A.colNum = B.colNum)) ∧
    (operatorSub u A B = Except.error vpMatrixException.incorrectMatrixSizeError ↔
      ¬ (A.rowNum = B.rowNum ∧ A.colNum = B.colNum)) ∧
    (A.rowNum = B.rowNum ∧ A.colNum = B.colNum →
      (∃ C, operatorAdd u A B = Except.ok C ∧ C.rowNum = A.rowNum ∧ C.colNum = A.colNum ∧
        ∀ i j, i < A.rowNum → j < A.colNum → ∃ a b, A.elem? i j = some a ∧
          B.elem? i j = some b ∧ C.elem? i j = some (a + b)) ∧
      (∃ C, operatorSub u A B = Except.ok C ∧ C.rowNum = A.rowNum ∧ C.colNum = A.colNum ∧
        ∀ i j, i < A.rowNum → j < A.colNum → ∃ a b, A.elem? i j = some a ∧
          B.elem? i j = some b ∧ C.elem? i j = some (a - b))) := by
  refine ⟨operatorAdd_error_iff u A B, operatorSub_error_iff u A B, ?_⟩
  intro h
  have hB2 : Shaped B A.rowNum A.colNum := by rw [h.1, h.2]; exact hB
  obtain ⟨C, e, s, c⟩ := operatorAdd_spec u A B A.rowNum A.colNum hA hB2
  obtain ⟨D, e2, s2, c2⟩ := operatorSub_spec u A B A.rowNum A.colNum hA hB2
  refine ⟨⟨C, e, s.rows, s.cols, ?_⟩, ⟨D, e2, s2.rows, s2.cols, ?_⟩⟩
  · intro i j hi hj
    refine ⟨A.elem i j, B.elem i j, hA.elem?_eq_some hi hj, hB2.elem?_eq_some hi hj, ?_⟩
    rw [s.elem?_eq_some hi hj, c i j hi hj, add_comm]
  · intro i j hi hj
    refine ⟨A.elem i j, B.elem i j, hA.elem?_eq_some hi hj, hB2.elem?_eq_some hi hj, ?_⟩
    rw [s2.elem?_eq_some hi hj, c2 i j hi hj]

/-- Witness for C16: `[[1,2],[3,4]]` plus itself. -/
theorem operatorAdd_operatorSub_contract_witness :
    WF m22 ∧ ∃ C, operatorAdd sevens m22 m22 = Except.ok C ∧ C.rowNum = m22.rowNum ∧
      C.colNum = m22.colNum ∧
      ∀ i j, i < m22.rowNum → j < m22.colNum → ∃ a b, m22.elem? i j = some a ∧
        m22.elem? i j = some b ∧ C.elem? i j = some (a + b) :=
  ⟨m22_wf,
    ((operatorAdd_operatorSub_contract sevens m22 m22 m22_wf m22_wf).2.2 ⟨rfl, rfl⟩).1⟩

/-! ## Transpose and identity -/

/-- Two matrices of the same shape with the same cells have the same buffer. -/
theorem Shaped.data_ext {X Y : vpMatrix} {r c : Nat} (hX : Shaped X r c) (hY : Shaped Y r c)
    (h : ∀ i j, i < r → j < c → X.elem i j = Y.elem i j) : X.data = Y.data := by
  apply List.ext_getElem?
  intro n
  by_cases hn : n < r * c
  · have hc : 0 < c := by
      rcases Nat.eq_zero_or_pos c with h0 | h0
      · subst h0; simp at hn
      · exact h0
    have hi : n / c < r := (Nat.div_lt_iff_lt_mul hc).mpr hn
    have hj : n % c < c := Nat.mod_lt n hc
    have hidx : n / c * c + n % c = n := by
      rw [Nat.mul_comm]; exact Nat.div_add_mod n c
    have e1 := hX.elem?_eq hi hj
    have e2 := hY.elem?_eq hi hj
    rw [hidx] at e1 e2
    rw [← e1, ← e2, hX.elem?_eq_some hi hj, hY.elem?_eq_some hi hj, h _ _ hi hj]
  · have h1 : X.data.length ≤ n := by rw [hX.dlen]; omega
    have h2 : Y.data.length ≤ n := by rw [hY.dlen]; omega
    rw [List.getElem?_eq_none h1, List.getElem?_eq_none h2]

/-- C19. The transpose `A.t()` has shape `cols × rows` with `t()[j][i] = A[i][j]`, and
`A.t().t()` has the shape of `A`, the same cell at every position and the same buffer,
for every shape (empty and non-square included). -/
theorem t_involution (u : Uninit) (A : vpMatrix) (hA : WF A) :
    (t u A).rowNum = A.colNum ∧ (t u A).colNum = A.rowNum ∧
    (∀ i j, i < A.rowNum → j < A.colNum →
      ∃ x, A.elem? i j = some x ∧ (t u A).elem? j i = some x) ∧
    (t u (t u A)).rowNum = A.rowNum ∧ (t u (t u A)).colNum = A.colNum ∧
    (∀ i j, i < A.rowNum → j < A.colNum →
      ∃ x, A.elem? i j = some x ∧ (t u (t u A)).elem? i j = some x) ∧
    (t u (t u A)).data = A.data := by
  have h1 := t_spec u A
  have h2 := t_spec u (t u A)
  rw [h1.1.rows, h1.1.cols] at h2
  have hcell : ∀ i j, i < A.rowNum → j < A.colNum →
      (t u (t u A)).elem i j = A.elem i j := by
    intro i j hi hj
    rw [h2.2 j i hj hi, h1.2 i j hi hj]
  refine ⟨h1.1.rows, h1.1.cols, ?_, h2.1.rows, h2.1.cols, ?_, h2.1.data_ext hA hcell⟩
  · intro i j hi hj
    refine ⟨A.elem i j, hA.elem?_eq_some hi hj, ?_⟩
    rw [h1.1.elem?_eq_some hj hi, h1.2 i j hi hj]
  · intro i j hi hj
    refine ⟨A.elem i j, hA.elem?_eq_some hi hj, ?_⟩
    rw [h2.1.elem?_eq_some hi hj, hcell i j hi hj]

/-- Witness for C19: the `2 × 3` example. -/
theorem t_involution_witness :
    WF m23 ∧ (t sevens (t sevens m23)).data = m23.data :=
  ⟨m23_wf, (t_involution sevens m23 m23_wf).2.2.2.2.2.2⟩

/-- The loops of `setIdentity` and `eye` leave `1` on the diagonal and `0` elsewhere. -/
theorem identityLoops_spec (M : vpMatrix) (r c : Nat) (h : Shaped M r c) :
    Shaped (identityLoops M) r c ∧
    ∀ i j, i < r → j < c → (identityLoops M).elem i j = if i = j then 1 else 0 := by
  have e1 := h.rows
  have e2 := h.cols
  subst e1
  subst e2
  exact fill_spec M.rowNum M.colNum (fun i j => if i = j then 1 else 0)
    (fun i j M3 => if i = j then M3.setElem i j 1 else M3.setElem i j 0)
    (fun i j hi hj => writesCell_ite hi hj (i = j) 1 0) M h

theorem eye_spec (u : Uninit) (X : vpMatrix) (n : Nat) (hX : WF X) :
    Shaped (eye u X n) n n ∧
    ∀ i j, i < n → j < n → (eye u X n).elem i j = if i = j then 1 else 0 :=
  identityLoops_spec _ n n (resize_shaped u X n n true hX)

theorem setIdentity_spec (Y : vpMatrix) (n : Nat) (hY : Shaped Y n n) :
    setIdentity Y = Except.ok (identityLoops Y) := by
  have hne : ¬ (Y.rowNum ≠ Y.colNum) := by rw [hY.rows, hY.cols]; simp
  unfold setIdentity
  rw [if_neg hne]

/-- Multiplying by a matrix with the cells of the identity, on either side, gives back
the cells of the matrix. -/
theorem mul_identity_cells (u : Uninit) (A I : vpMatrix) (n : Nat)
    (hA : Shaped A n n) (hI : Shaped I n n)
    (hcells : ∀ i j, i < n → j < n → I.elem i j = if i = j then 1 else 0) :
    ∃ P Q, operatorMul u A I = Except.ok P ∧ operatorMul u I A = Except.ok Q ∧
      P.rowNum = n ∧ P.colNum = n ∧ Q.rowNum = n ∧ Q.colNum = n ∧
      ∀ i j, i < n → j < n → ∃ x, A.elem? i j = some x ∧ P.elem? i j = some x ∧
        Q.elem? i j = some x := by
  obtain ⟨P, e1, s1, c1⟩ := operatorMul_spec u A I n n n hA hI
  obtain ⟨Q, e2, s2, c2⟩ := operatorMul_spec u I A n n n hI hA
  refine ⟨P, Q, e1, e2, s1.rows, s1.cols, s2.rows, s2.cols, ?_⟩
  intro i j hi hj
  refine ⟨A.elem i j, hA.elem?_eq_some hi hj, ?_, ?_⟩
  · rw [s1.elem?_eq_some hi hj, c1 i j hi hj]
    congr 1
    rw [Finset.sum_eq_single j]
    · rw [hcells j j hj hj, if_pos rfl, mul_one]
    · intro k hk hkj
      rw [hcells k j (Finset.mem_range.mp hk) hj, if_neg hkj, mul_zero]
    · intro hnot
      exact absurd (Finset.mem_range.mpr hj) hnot
  · rw [s2.elem?_eq_some hi hj, c2 i j hi hj]
    congr 1
    rw [Finset.sum_eq_single i]
    · rw [hcells i i hi hi, if_pos rfl, one_mul]
    · intro k hk hki
      rw [hcells i k hi (Finset.mem_range.mp hk), if_neg (Ne.symm hki), zero_mul]
    · intro hnot
      exact absurd (Finset.mem_range.mpr hi) hnot

/-- C20. For a square `n × n` matrix `A` and `I` the identity made by `eye(n)` (called on
any matrix `X`) or by `setIdentity` on any `n × n` matrix `Y`, the products `A * I` and
`I * A` succeed and have the shape and exactly the cells of `A`. -/
theorem identity_is_neutral (u : Uninit) (A X Y : vpMatrix) (n : Nat)
    (hA : WF A) (hn : A.rowNum = n ∧ A.colNum = n) (hX : WF X) (hY : WF Y)
    (hYn : Y.rowNum = n ∧ Y.colNum = n) :
    (∃ P Q, operatorMul u A (eye u X n) = Except.ok P ∧
      operatorMul u (eye u X n) A = Except.ok Q ∧
      P.rowNum = n ∧ P.colNum = n ∧ Q.rowNum = n ∧ Q.colNum = n ∧
      ∀ i j, i < n → j < n → ∃ x, A.elem? i j = some x ∧ P.elem? i j = some x ∧
        Q.elem? i j = some x) ∧
    (∃ I P Q, setIdentity Y = Except.ok I ∧ operatorMul u A I = Except.ok P ∧
      operatorMul u I A = Except.ok Q ∧
      P.rowNum = n ∧ P.colNum = n ∧ Q.rowNum = n ∧ Q.colNum = n ∧
      ∀ i j, i < n → j < n → ∃ x, A.elem? i j = some x ∧ P.elem? i j = some x ∧
        Q.elem? i j = some x) := by
  have hA2 : Shaped A n n := by
    have h := hA
    unfold WF at h
    rw [hn.1, hn.2] at h
    exact h
  have hY2 : Shaped Y n n := by
    have h := hY
    unfold WF at h
    rw [hYn.1, hYn.2] at h
    exact h
  have hE := eye_spec u X n hX
  have hI := identityLoops_spec Y n n hY2
  exact ⟨mul_identity_cells u A _ n hA2 hE.1 hE.2,
    ⟨identityLoops Y, (mul_identity_cells u A _ n hA2 hI.1 hI.2).elim
      (fun P hP => hP.elim (fun Q hQ => ⟨P, Q, setIdentity_spec Y n hY2, hQ⟩))⟩⟩

/-- Witness for C20: the `3 × 3` example and the identity of size `3`. -/
theorem identity_is_neutral_witness :
    WF m33 ∧ WF init ∧
    ∃ P Q, operatorMul sevens m33 (eye sevens init 3) = Except.ok P ∧
      operatorMul sevens (eye sevens init 3) m33 = Except.ok Q ∧
      P.rowNum = 3 ∧ P.colNum = 3 ∧ Q.rowNum = 3 ∧ Q.colNum = 3 ∧
      ∀ i j, i < 3 → j < 3 → ∃ x, m33.elem? i j = some x ∧ P.elem? i j = some x ∧
        Q.elem? i j = some x :=
  ⟨m33_wf, init_wf,
    (identity_is_neutral sevens m33 init m33 3 m33_wf ⟨rfl, rfl⟩ init_wf m33_wf
      ⟨rfl, rfl⟩).1⟩

/-! ## Orientation, zero and identity inputs of `pseudoInverse` -/

/-- C11. `pseudoInverse` invokes the SVD on its local matrix `a = pinvWork`, which has
the shape, the cells and the buffer of `A` when rows ≥ cols and of the transpose of `A`
when rows < cols; the matrix handed to the primitive therefore always has at least as
many rows as columns, and what the call leaves in `a`, `sv` and `v` is the output of the
primitive on that matrix. `A` is a value of the model that the call does not return:
the method is `const` and the SVD overwrites the local copy only. -/
theorem pseudoInverse_svd_orientation (u : Uninit) (prim : SvdPrimitive) (A sv : vpMatrix)
    (hA : WF A) (hsv : WF sv) :
    (pinvWork u A).rowNum ≥ (pinvWork u A).colNum ∧
    (A.rowNum ≥ A.colNum →
      (pinvWork u A).rowNum = A.rowNum ∧ (pinvWork u A).colNum = A.colNum ∧
      (pinvWork u A).data = A.data ∧
      ∀ i j, i < A.rowNum → j < A.colNum →
        ∃ x, A.elem? i j = some x ∧ (pinvWork u A).elem? i j = some x) ∧
    (A.rowNum < A.colNum →
      (pinvWork u A).rowNum = A.colNum ∧ (pinvWork u A).colNum = A.rowNum ∧
      (pinvWork u A).data = (t u A).data ∧
      ∀ i j, i < A.colNum → j < A.rowNum →
        ∃ x, A.elem? j i = some x ∧ (pinvWork u A).elem? i j = some x) ∧
    pinvSvd u prim A sv = svd u prim (pinvWork u A) (colResize u sv (pinvCols A))
      (mk2 u (pinvCols A) (pinvCols A)) ∧
    (∀ i j, i < (pinvWork u A).rowNum → j < (pinvWork u A).colNum →
      (pinvSvd u prim A sv).1.elem? i j = some
        ((prim (pinvWork u A).rowNum (pinvWork u A).colNum (pinvWork u A).data).u i j)) ∧
    (∀ k, k < (pinvWork u A).colNum → (pinvSvd u prim A sv).2.1.colElem? k = some
        ((prim (pinvWork u A).rowNum (pinvWork u A).colNum (pinvWork u A).data).w k)) ∧
    (∀ i j, i < (pinvWork u A).colNum → j < (pinvWork u A).colNum →
      (pinvSvd u prim A sv).2.2.elem? i j = some
        ((prim (pinvWork u A).rowNum (pinvWork u A).colNum (pinvWork u A).data).v i j)) := by
  have hw := pinvWork_spec u A hA
  have hs := pinvSvd_spec u prim A sv hA hsv
  have er := hw.1.rows
  have ec := hw.1.cols
  refine ⟨?_, ?_, ?_, rfl, ?_, ?_, ?_⟩
  · rw [er, ec, pinvRows_eq_max, pinvCols_eq_min]
    exact le_trans (Nat.min_le_left _ _) (Nat.le_max_left _ _)
  · intro h
    have hr : pinvRows A = A.rowNum := by simp [pinvRows, getRows, getCols, h]
    have hc : pinvCols A = A.colNum := by simp [pinvCols, getRows, getCols, h]
    have hS : Shaped (pinvWork u A) A.rowNum A.colNum := by rw [← hr, ← hc]; exact hw.1
    refine ⟨hS.rows, hS.cols, hS.data_ext hA (hw.2.1 h), ?_⟩
    intro i j hi hj
    refine ⟨A.elem i j, hA.elem?_eq_some hi hj, ?_⟩
    rw [hS.elem?_eq_some hi hj, hw.2.1 h i j hi hj]
  · intro h
    have h2 : ¬ A.rowNum ≥ A.colNum := by omega
    have hr : pinvRows A = A.colNum := by simp [pinvRows, getRows, getCols, h2]
    have hc : pinvCols A = A.rowNum := by simp [pinvCols, getRows, getCols, h2]
    have hS : Shaped (pinvWork u A) A.colNum A.rowNum := by rw [← hr, ← hc]; exact hw.1
    have ht := t_spec u A
    refine ⟨hS.rows, hS.cols, hS.data_ext ht.1 ?_, ?_⟩
    · intro i j hi hj
      rw [hw.2.2 h2 i j hi hj, ht.2 j i hj hi]
    · intro i j hi hj
      refine ⟨A.elem j i, hA.elem?_eq_some hj hi, ?_⟩
      rw [hS.elem?_eq_some hi hj, hw.2.2 h2 i j hi hj]
  · intro i j hi hj
    rw [er] at hi ⊢
    rw [ec] at hj ⊢
    rw [hs.1.elem?_eq_some hi hj, hs.2.1 i j hi hj]
  · intro k hk
    rw [er]
    rw [ec] at hk ⊢
    exact hs.2.2.2.1 k hk
  · intro i j hi hj
    rw [er]
    rw [ec] at hi hj ⊢
    rw [hs.2.2.2.2.1.elem?_eq_some hi hj, hs.2.2.2.2.2 i j hi hj]

/-- Witness for C11: the `2 × 3` example is handed over as a `3 × 2` matrix. -/
theorem pseudoInverse_svd_orientation_witness :
    WF wide23 ∧ WF init ∧ (pinvWork sevens wide23).rowNum ≥ (pinvWork sevens wide23).colNum ∧
    (pinvWork sevens wide23).data = (t sevens wide23).data :=
  ⟨wide23_wf, init_wf,
    (pseudoInverse_svd_orientation sevens (svdEye (fun k => (k : ℚ) + 1)) wide23 init
      wide23_wf init_wf).1,
    ((pseudoInverse_svd_orientation sevens (svdEye (fun k => (k : ℚ) + 1)) wide23 init
      wide23_wf init_wf).2.2.1 (by decide)).2.2.1⟩

/-- When every singular value left by the SVD call is `0`, no index passes the guard. -/
theorem pinvPasses_of_zero (u : Uninit) (prim : SvdPrimitive) (A sv : vpMatrix) (th : ℚ)
    (hz : ∀ k, k < pinvCols A → (pinvSvd u prim A sv).2.1.colElem k = 0) :
    (Finset.range (pinvCols A)).filter (pinvPasses u prim A sv th) = ∅ := by
  have hm := pinvMaxsv_spec (pinvSvd u prim A sv).2.1 (pinvCols A)
  have hmax : pinvMaxsv (pinvSvd u prim A sv).2.1 (pinvCols A) = 0 := by
    rcases Nat.eq_zero_or_pos (pinvCols A) with h0 | h0
    · exact hm.2.2.2 h0
    · obtain ⟨i, hi, e⟩ := hm.2.2.1 h0
      rw [← e, hz i hi, abs_zero]
  apply Finset.filter_false_of_mem
  intro k hk
  have hk2 := Finset.mem_range.mp hk
  unfold pinvPasses
  rw [hz k hk2, hmax, abs_zero, zero_mul]
  exact lt_irrefl 0

/-- C12. When the singular values returned by the SVD primitive are all zero (as for
every zero matrix, with any threshold, in particular `1e-6`), `pseudoInverse` returns
rank `0` and an `Ap` of shape `cols × rows` whose cells are all zero. -/
theorem pseudoInverse_zero_singular_values (u : Uninit) (prim : SvdPrimitive)
    (A Ap sv : vpMatrix) (th : ℚ) (imA imAt : vpMatrix) (hAp : WF Ap)
    (hz : ∀ k, k < pinvCols A → (pinvSvd u prim A sv).2.1.colElem k = 0) :
    (pseudoInverse u prim A Ap sv th imA imAt).rank = 0 ∧
    (pseudoInverse u prim A Ap sv th imA imAt).Ap.rowNum = A.colNum ∧
    (pseudoInverse u prim A Ap sv th imA imAt).Ap.colNum = A.rowNum ∧
    ∀ i j, i < A.colNum → j < A.rowNum →
      (pseudoInverse u prim A Ap sv th imA imAt).Ap.elem? i j = some 0 := by
  have hf := pinvPasses_of_zero u prim A sv th hz
  have hp := pinv_Ap_spec u prim A Ap sv th imA imAt hAp
  refine ⟨?_, hp.1.rows, hp.1.cols, ?_⟩
  · rw [pinv_rank_card, hf, Finset.card_empty]
  · intro i j hi hj
    rw [hp.1.elem?_eq_some hi hj]
    by_cases h : A.rowNum ≥ A.colNum
    · rw [hp.2.1 h i j hi hj, hf, Finset.sum_empty]
    · rw [hp.2.2 h i j hi hj, hf, Finset.sum_empty]

/-- Witness for C12: the `3 × 3` zero matrix with the threshold `1e-6` and an SVD that
answers singular values `0`. -/
theorem pseudoInverse_zero_singular_values_witness :
    WF init ∧
    (pseudoInverse sevens (svdEye (fun _ => 0)) (mk2 sevens 3 3) init init (1 / 1000000)
      init init).rank = 0 ∧
    ∀ i j, i < (mk2 sevens 3 3).colNum → j < (mk2 sevens 3 3).rowNum →
      (pseudoInverse sevens (svdEye (fun _ => 0)) (mk2 sevens 3 3) init init (1 / 1000000)
        init init).Ap.elem? i j = some 0 :=
  ⟨init_wf,
    (pseudoInverse_zero_singular_values sevens (svdEye (fun _ => 0)) (mk2 sevens 3 3) init
      init (1 / 1000000) init init init_wf (by
        intro k hk
        have hk3 : k < 3 := hk
        interval_cases k <;> decide!)).1,
    (pseudoInverse_zero_singular_values sevens (svdEye (fun _ => 0)) (mk2 sevens 3 3) init
      init (1 / 1000000) init init init_wf (by
        intro k hk
        have hk3 : k < 3 := hk
        interval_cases k <;> decide!)).2.2.2⟩

/-- C13. For an `n × n` matrix `A` with the cells of the identity and the threshold
`1e-6`: when the SVD primitive returned a correct decomposition of `A`
(`A = U diag(sv) Vᵗ`) with all singular values `1`, `pseudoInverse` returns rank `n`
and an `n × n` matrix `Ap` with the cells of the identity. -/
theorem pseudoInverse_identity (u : Uninit) (prim : SvdPrimitive)
    (A Ap sv imA imAt : vpMatrix) (n : Nat) (hA : WF A) (hAp : WF Ap)
    (hn : A.rowNum = n ∧ A.colNum = n)
    (hI : ∀ i j, i < n → j < n → A.elem i j = if i = j then 1 else 0)
    (hdec : ∀ i j, i < n → j < n →
      (pinvWork u A).elem i j = ∑ k in Finset.range n,
        (pinvSvd u prim A sv).1.elem i k * (pinvSvd u prim A sv).2.1.colElem k *
          (pinvSvd u prim A sv).2.2.elem j k)
    (hone : ∀ k, k < n → (pinvSvd u prim A sv).2.1.colElem k = 1) :
    (pseudoInverse u prim A Ap sv (1 / 1000000) imA imAt).rank = n ∧
    (pseudoInverse u prim A Ap sv (1 / 1000000) imA imAt).Ap.rowNum = n ∧
    (pseudoInverse u prim A Ap sv (1 / 1000000) imA imAt).Ap.colNum = n ∧
    ∀ i j, i < n → j < n →
      (pseudoInverse u prim A Ap sv (1 / 1000000) imA imAt).Ap.elem? i j =
        some (if i = j then 1 else 0) := by
  have htall : A.rowNum ≥ A.colNum := by rw [hn.1, hn.2]
  have hc : pinvCols A = n := by simp [pinvCols, getRows, getCols, hn.1, hn.2]
  have hw := pinvWork_spec u A hA
  have hp := pinv_Ap_spec u prim A Ap sv (1 / 1000000) imA imAt hAp
  have hm := pinvMaxsv_spec (pinvSvd u prim A sv).2.1 (pinvCols A)
  have hall : (Finset.range (pinvCols A)).filter
      (pinvPasses u prim A sv (1 / 1000000)) = Finset.range (pinvCols A) := by
    apply Finset.filter_true_of_mem
    intro k hk
    have hk2 : k < n := by rw [← hc]; exact Finset.mem_range.mp hk
    have hpos : 0 < pinvCols A := by rw [hc]; omega
    obtain ⟨i, hi, e⟩ := hm.2.2.1 hpos
    rw [hc] at hi
    unfold pinvPasses
    rw [← e, hone i hi, hone k hk2]
    norm_num
  refine ⟨?_, ?_, ?_, ?_⟩
  · rw [pinv_rank_card, hall, Finset.card_range, hc]
  · rw [hp.1.rows, hn.2]
  · rw [hp.1.cols, hn.1]
  · intro i j hi hj
    have hi2 : i < A.colNum := by rw [hn.2]; exact hi
    have hj2 : j < A.rowNum := by rw [hn.1]; exact hj
    rw [hp.1.elem?_eq_some hi2 hj2, hp.2.1 htall i j hi2 hj2, hall, hc]
    congr 1
    have e := hdec j i hj hi
    rw [hw.2.1 htall j i hj2 hi2, hI j i hj hi] at e
    have e2 : (if i = j then (1 : ℚ) else 0) = if j = i then 1 else 0 := by
      by_cases h : i = j
      · subst h; simp
      · simp [h, Ne.symm h]
    rw [e2, e]
    apply Finset.sum_congr rfl
    intro k hk
    rw [hone k (Finset.mem_range.mp hk)]
    ring

/-- Witness for C13: the identity of size `3` made by `eye`, with `U = V = identity`. -/
theorem pseudoInverse_identity_witness :
    WF (eye sevens init 3) ∧ WF init ∧
    (pseudoInverse sevens (svdEye (fun _ => 1)) (eye sevens init 3) init init (1 / 1000000)
      init init).rank = 3 ∧
    ∀ i j, i < 3 → j < 3 →
      (pseudoInverse sevens (svdEye (fun _ => 1)) (eye sevens init 3) init init
        (1 / 1000000) init init).Ap.elem? i j = some (if i = j then 1 else 0) :=
  ⟨(eye_spec sevens init 3 init_wf).1.wf, init_wf,
    (pseudoInverse_identity sevens (svdEye (fun _ => 1)) (eye sevens init 3) init init init
      init 3 (eye_spec sevens init 3 init_wf).1.wf init_wf ⟨by decide, by decide⟩
      (by intro i j hi hj; interval_cases i <;> interval_cases j <;> decide!)
      (by intro i j hi hj; interval_cases i <;> interval_cases j <;> decide!)
      (by intro k hk; interval_cases k <;> decide!)).1,
    (pseudoInverse_identity sevens (svdEye (fun _ => 1)) (eye sevens init 3) init init init
      init 3 (eye_spec sevens init 3 init_wf).1.wf init_wf ⟨by decide, by decide⟩
      (by intro i j hi hj; interval_cases i <;> interval_cases j <;> decide!)
      (by intro i j hi hj; interval_cases i <;> interval_cases j <;> decide!)
      (by intro k hk; interval_cases k <;> decide!)).2.2.2⟩

/-! ## The product `AtA` -/

theorem Shaped.colElem?_eq_some {w : vpMatrix} {n i : Nat} (h : Shaped w n 1) (hi : i < n) :
    w.colElem? i = some (w.colElem i) := by
  have hlt : i < w.data.length := by rw [h.dlen, Nat.mul_one]; exact hi
  rw [vpMatrix.colElem, vpMatrix.colElem?, List.getElem?_eq_getElem hlt]
  rfl

theorem Shaped.colSet_shaped {w : vpMatrix} {n : Nat} (h : Shaped w n 1) (i : Nat) (x : ℚ) :
    Shaped (w.colSet i x) n 1 :=
  h.with_data _ (by simpa using h.dlen)

theorem Shaped.colElem_colSet_same {w : vpMatrix} {n i : Nat} (h : Shaped w n 1)
    (hi : i < n) (x : ℚ) : (w.colSet i x).colElem i = x := by
  have hlt : i < w.data.length := by rw [h.dlen, Nat.mul_one]; exact hi
  simp [vpMatrix.colElem, vpMatrix.colElem?, vpMatrix.colSet, List.getElem?_set, hlt]

theorem colElem_colSet_ne (w : vpMatrix) {i k : Nat} (hne : k ≠ i) (x : ℚ) :
    (w.colSet i x).colElem k = w.colElem k := by
  simp [vpMatrix.colElem, vpMatrix.colElem?, vpMatrix.colSet, List.getElem?_set, Ne.symm hne]

/-- The assignment of a scalar sets every entry of a column vector. -/
theorem operatorAssignScalar_spec (w : vpMatrix) (n : Nat) (x : ℚ) (h : Shaped w n 1) :
    Shaped (operatorAssignScalar w x) n 1 ∧
    ∀ i, i < n → (operatorAssignScalar w x).colElem i = x := by
  have hlen : w.data.length = w.dsize := by rw [h.dlen, h.dsz]
  have hfill := listFill_spec w.dsize (fun _ => x) w.data hlen
  refine ⟨h.with_data _ (hfill.1.trans h.dsz), ?_⟩
  intro i hi
  have hi2 : i < w.dsize := by rw [h.dsz, Nat.mul_one]; exact hi
  simp only [vpMatrix.colElem, vpMatrix.colElem?, operatorAssignScalar]
  rw [hfill.2 i hi2]
  rfl

/-- The product of an `r × c` matrix and a vector of `c` entries succeeds and its entry
`i` is the dot product of row `i` and the vector. -/
theorem operatorMulVec_spec (u : Uninit) (M b : vpMatrix) (r c : Nat)
    (hM : Shaped M r c) (hb : Shaped b c 1) :
    ∃ p, operatorMulVec u M b = Except.ok p ∧ Shaped p r 1 ∧
      ∀ i, i < r → p.colElem i = ∑ j in Finset.range c, M.elem i j * b.colElem j := by
  have e1 := hM.rows
  have e2 := hM.cols
  have e3 := hb.rows
  have h0 : Shaped (colResize u init M.rowNum) r 1 := by
    rw [← e1]; exact resize_shaped u init _ _ true init_wf
  have hz := operatorAssignScalar_spec _ r 0 h0
  have outer := forLoop_inv
    (fun j (v : vpMatrix) => Shaped v r 1 ∧
      ∀ i, i < r → v.colElem i = ∑ l in Finset.range j, M.elem i l * b.colElem l)
    c (fun j c2 => forLoop r (fun i c3 =>
        c3.colSet i (c3.colElem i + M.elem i j * b.colElem j)) c2)
    (operatorAssignScalar (colResize u init M.rowNum) 0)
    ⟨hz.1, fun i hi => by rw [hz.2 i hi]; simp⟩
    (by
      intro j _ v hv
      have inner := forLoop_inv
        (fun i (v2 : vpMatrix) => Shaped v2 r 1 ∧
          (∀ k, k < i → k < r →
            v2.colElem k = ∑ l in Finset.range (j + 1), M.elem k l * b.colElem l) ∧
          ∀ k, i ≤ k → k < r →
            v2.colElem k = ∑ l in Finset.range j, M.elem k l * b.colElem l)
        r (fun i c3 => c3.colSet i (c3.colElem i + M.elem i j * b.colElem j)) v
        ⟨hv.1, fun k hk => absurd hk (Nat.not_lt_zero k), fun k _ hk => hv.2 k hk⟩
        (by
          intro i hi v2 hv2
          refine ⟨hv2.1.colSet_shaped i _, ?_, ?_⟩
          · intro k hk hkr
            by_cases e : k = i
            · subst e
              rw [hv2.1.colElem_colSet_same hkr, hv2.2.2 k (le_refl k) hkr,
                Finset.sum_range_succ]
            · rw [colElem_colSet_ne v2 e]
              exact hv2.2.1 k (by omega) hkr
          · intro k hk hkr
            rw [colElem_colSet_ne v2 (by omega)]
            exact hv2.2.2 k (by omega) hkr)
      exact ⟨inner.1, fun i hi => inner.2.1 i hi hi⟩)
  have hcond : ¬ (c ≠ b.getRows) := by simp [getRows, e3]
  refine ⟨_, ?_, outer.1, outer.2⟩
  simp only [operatorMulVec, e1, e2]
  rw [if_neg hcond]

/-- C14. For a column vector `b` with as many rows as `A`, `solveBySVD(b, x)` and
`SVDsolve(b)` succeed and produce the vector `p = pseudoInverse(1e-6) * b` of the code:
it has `A.cols` entries, entry `i` being the sum over `j` of `Ap[i][j] * b[j]`, where
`Ap` is the pseudo-inverse computed with the fixed threshold `1e-6`. `A` and `b` are
values of the model that the calls do not return: the methods are `const` and take `b`
by `const` reference. -/
theorem solveBySVD_is_pseudoInverse_times_b (u : Uninit) (prim : SvdPrimitive)
    (A b x : vpMatrix) (hb : WF b) (hbs : b.rowNum = A.rowNum ∧ b.colNum = 1) (hx : WF x) :
    pseudoInverse1 u prim A (1 / 1000000) =
      (pseudoInverse u prim A init init (1 / 1000000) init init).Ap ∧
    (∀ i j, i < A.colNum → j < A.rowNum →
      (pseudoInverse1 u prim A (1 / 1000000)).elem? i j =
        some ((pseudoInverse1 u prim A (1 / 1000000)).elem i j)) ∧
    (∀ j, j < A.rowNum → b.colElem? j = some (b.colElem j)) ∧
    ∃ p, operatorMulVec u (pseudoInverse1 u prim A (1 / 1000000)) b = Except.ok p ∧
      p.rowNum = A.colNum ∧ p.colNum = 1 ∧ p.data.length = A.colNum ∧
      (∀ i, i < A.colNum → p.colElem? i = some (∑ j in Finset.range A.rowNum,
        (pseudoInverse1 u prim A (1 / 1000000)).elem i j * b.colElem j)) ∧
      ∃ x1 x2, solveBySVD u prim A b x = Except.ok x1 ∧
        SVDsolve u prim A b = Except.ok x2 ∧
        x1.rowNum = A.colNum ∧ x1.colNum = 1 ∧ x1.data = p.data ∧
        x2.rowNum = A.colNum ∧ x2.colNum = 1 ∧ x2.data = p.data := by
  have hAp : Shaped (pseudoInverse1 u prim A (1 / 1000000)) A.colNum A.rowNum :=
    (pinv_Ap_spec u prim A init init (1 / 1000000) init init init_wf).1
  have hb2 : Shaped b A.rowNum 1 := by
    have h := hb
    unfold WF at h
    rw [hbs.1, hbs.2] at h
    exact h
  obtain ⟨p, e, s, c⟩ := operatorMulVec_spec u _ b A.colNum A.rowNum hAp hb2
  have hX : WF (colResize u init A.colNum) := (resize_shaped u init _ _ true init_wf).wf
  have a1 := operatorAssign_spec u x p A.colNum 1 hx s
  have a2 := operatorAssign_spec u (colResize u init A.colNum) p A.colNum 1 hX s
  refine ⟨rfl, fun i j hi hj => hAp.elem?_eq_some hi hj,
    fun j hj => hb2.colElem?_eq_some hj, p, e, s.rows, s.cols, ?_, ?_,
    operatorAssign u x p, operatorAssign u (colResize u init A.colNum) p, ?_, ?_,
    a1.1.rows, a1.1.cols, a1.2.1, a2.1.rows, a2.1.cols, a2.2.1⟩
  · rw [s.dlen, Nat.mul_one]
  · intro i hi
    rw [s.colElem?_eq_some hi, c i hi]
  · simp only [solveBySVD, e]
  · simp only [SVDsolve, solveBySVD, e]

/-- Witness for C14: the `3 × 2` example and the right-hand side `(1, 2, 3)`. -/
theorem solveBySVD_is_pseudoInverse_times_b_witness :
    WF col3 ∧ WF init ∧
    ∃ x1, solveBySVD sevens (svdEye (fun k => (k : ℚ) + 1)) tall32 col3 init
        = Except.ok x1 ∧ x1.rowNum = tall32.colNum ∧ x1.colNum = 1 := by
  obtain ⟨p, _, _, _, _, _, x1, x2, h1, _, h3, h4, _⟩ :=
    (solveBySVD_is_pseudoInverse_times_b sevens (svdEye (fun k => (k : ℚ) + 1)) tall32 col3
      init col3_wf ⟨rfl, rfl⟩ init_wf).2.2.2
  exact ⟨col3_wf, init_wf, x1, h1, h3, h4⟩

/-! ## Norms -/

/-- A sum over the `r * c` cells of a row-major buffer is the sum over rows and columns. -/
theorem sum_range_mul (r c : Nat) (g : Nat → ℚ) :
    ∑ idx in Finset.range (r * c), g idx =
      ∑ i in Finset.range r, ∑ j in Finset.range c, g (i * c + j) := by
  induction r with
  | zero => simp
  | succ r ih =>
    rw [Nat.succ_mul, Finset.sum_range_add, ih, Finset.sum_range_succ]

theorem sumSquare_eq_sum (A : vpMatrix) :
    sumSquare A = ∑ idx in Finset.range A.dsize,
      (A.data[idx]?).getD 0 * (A.data[idx]?).getD 0 :=
  forLoop_sum A.dsize (fun idx => (A.data[idx]?).getD 0 * (A.data[idx]?).getD 0)

theorem euclidianNorm_eq_sumSquare (A : vpMatrix) : euclidianNorm A = sumSquare A := rfl

/-- C21. `sumSquare()` and `euclidianNorm()` both return the sum of the squares of all
the cells (no square root is taken); they are equal to each other, `0` for a matrix
without cells, and `25` for `[[3,4]]`. -/
theorem sumSquare_and_euclidianNorm (A : vpMatrix) (hA : WF A) :
    (∀ i j, i < A.rowNum → j < A.colNum → A.elem? i j = some (A.elem i j)) ∧
    sumSquare A = ∑ i in Finset.range A.rowNum, ∑ j in Finset.range A.colNum,
      A.elem i j * A.elem i j ∧
    euclidianNorm A = ∑ i in Finset.range A.rowNum, ∑ j in Finset.range A.colNum,
      A.elem i j * A.elem i j ∧
    euclidianNorm A = sumSquare A ∧
    (A.rowNum = 0 ∨ A.colNum = 0 → sumSquare A = 0 ∧ euclidianNorm A = 0) ∧
    sumSquare row34 = 25 ∧ euclidianNorm row34 = 25 := by
  have hsum : sumSquare A = ∑ i in Finset.range A.rowNum, ∑ j in Finset.range A.colNum,
      A.elem i j * A.elem i j := by
    rw [sumSquare_eq_sum, hA.dsz, sum_range_mul]
    apply Finset.sum_congr rfl
    intro i hi
    apply Finset.sum_congr rfl
    intro j hj
    rw [hA.elem_eq_data (Finset.mem_range.mp hi) (Finset.mem_range.mp hj)]
  refine ⟨fun i j hi hj => hA.elem?_eq_some hi hj, hsum, ?_, rfl, ?_, by decide!, by decide!⟩
  · rw [euclidianNorm_eq_sumSquare, hsum]
  · intro h
    have h0 : sumSquare A = 0 := by
      rw [hsum]
      rcases h with h | h
      · rw [h]; simp
      · rw [h]; simp
    exact ⟨h0, by rw [euclidianNorm_eq_sumSquare, h0]⟩

theorem row34_wf : WF row34 :=
  { rows := rfl, cols := rfl, dsz := rfl, dlen := rfl, trsz := rfl, tlen := rfl,
    ptrs := by
      intro _ i hi
      have hi1 : i < 1 := hi
      interval_cases i
      rfl }

/-- Witness for C21: the matrix `[[3,4]]`. -/
theorem sumSquare_and_euclidianNorm_witness :
    WF row34 ∧ euclidianNorm row34 = sumSquare row34 :=
  ⟨row34_wf, (sumSquare_and_euclidianNorm row34 row34_wf).2.2.2.1⟩

/-! ## Stacking and juxtaposing -/

/-- A double loop whose iteration `(a, b)` writes only the cell `(pi a b, pj a b)` leaves
every cell that no iteration writes as it was. -/
theorem fill_frame (r c n m : Nat) (pi pj : Nat → Nat → Nat) (F : Nat → Nat → ℚ)
    (body : Nat → Nat → vpMatrix → vpMatrix)
    (hb : ∀ a b, a < n → b < m → WritesCell r c (pi a b) (pj a b) (F a b) (body a b))
    (M : vpMatrix) (hM : Shaped M r c) (k l : Nat) (hk : k < r) (hl : l < c)
    (hout : ∀ a b, a < n → b < m → ¬ (pi a b = k ∧ pj a b = l)) :
    (forLoop n (fun a M2 => forLoop m (fun b M3 => body a b M3) M2) M).elem k l
      = M.elem k l := by
  have outer := forLoop_inv
    (fun _ N => Shaped N r c ∧ N.elem k l = M.elem k l)
    n (fun a M2 => forLoop m (fun b M3 => body a b M3) M2) M ⟨hM, rfl⟩
    (by
      intro a ha N hN
      exact forLoop_inv
        (fun _ P => Shaped P r c ∧ P.elem k l = M.elem k l)
        m (fun b M3 => body a b M3) N hN
        (by
          intro b hb2 P hP
          have w := hb a b ha hb2
          refine ⟨w.shaped P hP.1, ?_⟩
          rw [w.other P hP.1 k l hk hl (fun e => hout a b ha hb2 ⟨e.1.symm, e.2.symm⟩)]
          exact hP.2))
  exact outer.2

/-- What `stackMatrices(A, B, C)` returns when it does not raise. -/
theorem stackMatrices3_ok (u : Uninit) (A B C : vpMatrix) (hC : WF C)
    (h : ¬ (A.rowNum ≠ 0 ∧ A.colNum ≠ B.colNum)) :
    ∃ D, stackMatrices3 u A B C = Except.ok D ∧
      Shaped D (A.rowNum + B.rowNum) B.colNum ∧
      (∀ i j, i < A.rowNum → j < A.colNum → D.elem i j = A.elem i j) ∧
      (∀ i j, i < B.rowNum → j < B.colNum → D.elem (A.rowNum + i) j = B.elem i j) := by
  have hcols : ∀ a, a < A.rowNum → A.colNum = B.colNum := by
    intro a ha
    by_contra e
    exact h ⟨by omega, e⟩
  have h1 : Shaped (resize u C (A.rowNum + B.rowNum) B.colNum true)
      (A.rowNum + B.rowNum) B.colNum := resize_shaped u C _ _ true hC
  have hpos1 : ∀ a b, a < A.rowNum → b < A.colNum →
      a < A.rowNum + B.rowNum ∧ b < B.colNum := by
    intro a b ha hb
    rw [← hcols a ha]
    exact ⟨by omega, hb⟩
  have l1 := fill_gen (A.rowNum + B.rowNum) B.colNum A.rowNum A.colNum
    (fun a _ => a) (fun _ b => b) (fun a b => A.elem a b)
    (fun a b M3 => M3.setElem a b (A.elem a b)) hpos1
    (fun a b a2 b2 _ _ _ _ e1 e2 => ⟨e1, e2⟩)
    (fun a b ha hb => writesCell_setElem (hpos1 a b ha hb).1 (hpos1 a b ha hb).2 _)
    _ h1
  have hpos2 : ∀ a b, a < B.rowNum → b < B.colNum →
      a + A.rowNum < A.rowNum + B.rowNum ∧ b < B.colNum := by
    intro a b ha hb
    exact ⟨by omega, hb⟩
  have l2 := fill_gen (A.rowNum + B.rowNum) B.colNum B.rowNum B.colNum
    (fun a _ => a + A.rowNum) (fun _ b => b) (fun a b => B.elem a b)
    (fun a b M3 => M3.setElem (a + A.rowNum) b (B.elem a b)) hpos2
    (fun a b a2 b2 _ _ _ _ e1 e2 => ⟨by simp only [] at e1; omega, e2⟩)
    (fun a b ha hb => writesCell_setElem (hpos2 a b ha hb).1 (hpos2 a b ha hb).2 _)
    _ l1.1
  have f2 := fill_frame (A.rowNum + B.rowNum) B.colNum B.rowNum B.colNum
    (fun a _ => a + A.rowNum) (fun _ b => b) (fun a b => B.elem a b)
    (fun a b M3 => M3.setElem (a + A.rowNum) b (B.elem a b))
    (fun a b ha hb => writesCell_setElem (hpos2 a b ha hb).1 (hpos2 a b ha hb).2 _)
    _ l1.1
  refine ⟨_, ?_, l2.1, ?_, ?_⟩
  · simp only [stackMatrices3, getRows, getCols]
    rw [if_neg h]
  · intro i j hi hj
    have hp := hpos1 i j hi hj
    rw [f2 i j hp.1 hp.2 (fun a b _ _ e => by simp only [] at e; omega)]
    exact l1.2 i j hi hj
  · intro i j hi hj
    have := l2.2 i j hi hj
    simp only [] at this
    rw [Nat.add_comm A.rowNum i]
    exact this

theorem stackMatrices3_error_iff (u : Uninit) (A B C : vpMatrix) :
    stackMatrices3 u A B C = Except.error vpMatrixException.incorrectMatrixSizeError ↔
      (A.rowNum ≠ 0 ∧ A.colNum ≠ B.colNum) := by
  by_cases h : A.rowNum ≠ 0 ∧ A.colNum ≠ B.colNum
  · simp only [stackMatrices3, getRows, getCols]
    rw [if_pos h]
    exact ⟨fun _ => h, fun _ => rfl⟩
  · simp only [stackMatrices3, getRows, getCols]
    rw [if_neg h]
    exact ⟨fun h2 => (by cases h2), fun h2 => absurd h2 h⟩

/-- What `juxtaposeMatrices(A, B, C)` returns when it does not raise. -/
theorem juxtaposeMatrices3_ok (u : Uninit) (A B C : vpMatrix) (hC : WF C)
    (h : ¬ (A.colNum ≠ 0 ∧ A.rowNum ≠ B.rowNum)) :
    ∃ D, juxtaposeMatrices3 u A B C = Except.ok D ∧
      Shaped D B.rowNum (A.colNum + B.colNum) ∧
      (∀ i j, i < B.rowNum → j < A.colNum → D.elem i j = A.elem i j) ∧
      (∀ i j, i < B.rowNum → j < B.colNum → D.elem i (A.colNum + j) = B.elem i j) := by
  have h1 : Shaped (resize u C B.rowNum (A.colNum + B.colNum) true)
      B.rowNum (A.colNum + B.colNum) := resize_shaped u C _ _ true hC
  have hpos1 : ∀ a b, a < B.rowNum → b < A.colNum →
      a < B.rowNum ∧ b < A.colNum + B.colNum := by
    intro a b ha hb
    exact ⟨ha, by omega⟩
  have l1 := fill_gen B.rowNum (A.colNum + B.colNum) B.rowNum A.colNum
    (fun a _ => a) (fun _ b => b) (fun a b => A.elem a b)
    (fun a b M3 => M3.setElem a b (A.elem a b)) hpos1
    (fun a b a2 b2 _ _ _ _ e1 e2 => ⟨e1, e2⟩)
    (fun a b ha hb => writesCell_setElem (hpos1 a b ha hb).1 (hpos1 a b ha hb).2 _)
    _ h1
  have hpos2 : ∀ a b, a < B.rowNum → b < B.colNum →
      a < B.rowNum ∧ A.colNum + b < A.colNum + B.colNum := by
    intro a b ha hb
    exact ⟨ha, by omega⟩
  have l2 := fill_gen B.rowNum (A.colNum + B.colNum) B.rowNum B.colNum
    (fun a _ => a) (fun _ b => A.colNum + b) (fun a b => B.elem a b)
    (fun a b M3 => M3.setElem a (A.colNum + b) (B.elem a b)) hpos2
    (fun a b a2 b2 _ _ _ _ e1 e2 => ⟨e1, by simp only [] at e2; omega⟩)
    (fun a b ha hb => writesCell_setElem (hpos2 a b ha hb).1 (hpos2 a b ha hb).2 _)
    _ l1.1
  have f2 := fill_frame B.rowNum (A.colNum + B.colNum) B.rowNum B.colNum
    (fun a _ => a) (fun _ b => A.colNum + b) (fun a b => B.elem a b)
    (fun a b M3 => M3.setElem a (A.colNum + b) (B.elem a b))
    (fun a b ha hb => writesCell_setElem (hpos2 a b ha hb).1 (hpos2 a b ha hb).2 _)
    _ l1.1
  refine ⟨_, ?_, l2.1, ?_, l2.2⟩
  · have e1 := h1.rows
    have e2 := l1.1.rows
    dsimp only at e2
    simp only [juxtaposeMatrices3, getRows, getCols]
    rw [if_neg h, e1, e2]
  · intro i j hi hj
    have hp := hpos1 i j hi hj
    rw [f2 i j hp.1 hp.2 (fun a b _ _ e => by simp only [] at e; omega)]
    exact l1.2 i j hi hj

theorem juxtaposeMatrices3_error_iff (u : Uninit) (A B C : vpMatrix) :
    juxtaposeMatrices3 u A B C = Except.error vpMatrixException.incorrectMatrixSizeError ↔
      (A.colNum ≠ 0 ∧ A.rowNum ≠ B.rowNum) := by
  by_cases h : A.colNum ≠ 0 ∧ A.rowNum ≠ B.rowNum
  · simp only [juxtaposeMatrices3, getRows, getCols]
    rw [if_pos h]
    exact ⟨fun _ => h, fun _ => rfl⟩
  · simp only [juxtaposeMatrices3, getRows, getCols]
    rw [if_neg h]
    exact ⟨fun h2 => (by cases h2), fun h2 => absurd h2 h⟩

/-- C22, as amended. `stackMatrices(A, B, C)` (and `stackMatrices(A, B)`, which is the
same with a fresh `C`) raises the dimension-mismatch error exactly when `A` has at
least one row and `A.cols ≠ B.cols`; otherwise it returns the
`(A.rows + B.rows) × B.cols` matrix with `C[i][j] = A[i][j]` for `i < A.rows` and
`C[A.rows + i][j] = B[i][j]` for `i < B.rows`. -/
theorem stackMatrices_contract (u : Uninit) (A B C : vpMatrix)
    (hA : WF A) (hB : WF B) (hC : WF C) :
    stackMatrices u A B = stackMatrices3 u A B init ∧
    (stackMatrices3 u A B C = Except.error vpMatrixException.incorrectMatrixSizeError ↔
      (A.rowNum ≠ 0 ∧ A.colNum ≠ B.colNum)) ∧
    (¬ (A.rowNum ≠ 0 ∧ A.colNum ≠ B.colNum) →
      ∃ D, stackMatrices3 u A B C = Except.ok D ∧
        D.rowNum = A.rowNum + B.rowNum ∧ D.colNum = B.colNum ∧
        (∀ i j, i < A.rowNum → j < A.colNum →
          ∃ x, A.elem? i j = some x ∧ D.elem? i j = some x) ∧
        (∀ i j, i < B.rowNum → j < B.colNum →
          ∃ x, B.elem? i j = some x ∧ D.elem? (A.rowNum + i) j = some x)) := by
  refine ⟨rfl, stackMatrices3_error_iff u A B C, ?_⟩
  intro h
  obtain ⟨D, e, s, c1, c2⟩ := stackMatrices3_ok u A B C hC h
  refine ⟨D, e, s.rows, s.cols, ?_, ?_⟩
  · intro i j hi hj
    have hcols : A.colNum = B.colNum := by
      by_contra e2
      exact h ⟨by omega, e2⟩
    refine ⟨A.elem i j, hA.elem?_eq_some hi hj, ?_⟩
    rw [s.elem?_eq_some (by omega) (by omega), c1 i j hi hj]
  · intro i j hi hj
    refine ⟨B.elem i j, hB.elem?_eq_some hi hj, ?_⟩
    rw [s.elem?_eq_some (by omega) hj, c2 i j hi hj]

/-- Witness for C22: `[[1,2,3],[4,5,6]]` on top of the `3 × 3` example. -/
theorem stackMatrices_contract_witness :
    WF m23 ∧ WF m33 ∧ WF init ∧
    ∃ D, stackMatrices3 sevens m23 m33 init = Except.ok D ∧
      D.rowNum = m23.rowNum + m33.rowNum ∧ D.colNum = m33.colNum ∧
      (∀ i j, i < m23.rowNum → j < m23.colNum →
        ∃ x, m23.elem? i j = some x ∧ D.elem? i j = some x) ∧
      (∀ i j, i < m33.rowNum → j < m33.colNum →
        ∃ x, m33.elem? i j = some x ∧ D.elem? (m23.rowNum + i) j = some x) :=
  ⟨m23_wf, m33_wf, init_wf,
    (stackMatrices_contract sevens m23 m33 init m23_wf m33_wf init_wf).2.2 (by decide)⟩

/-- Counterexample for C22 as stated: the fresh `0 × 0` matrix has `0 ≠ 3` columns, yet
stacking `[[1,2,3],[4,5,6]]` under it does not raise and gives back that matrix. -/
theorem stackMatrices_empty_upper_no_error :
    init.colNum ≠ m23.colNum ∧
    stackMatrices sevens init m23 ≠
      Except.error vpMatrixException.incorrectMatrixSizeError ∧
    ∃ D, stackMatrices sevens init m23 = Except.ok D ∧ D.rowNum = 2 ∧ D.colNum = 3 ∧
      D.data = [1, 2, 3, 4, 5, 6] := by
  refine ⟨by decide, ?_, ?_⟩
  · intro h
    have := (stackMatrices3_error_iff sevens init m23 init).mp h
    exact this.1 rfl
  · exact ⟨_, rfl, rfl, rfl, by decide!⟩

/-- C23, as amended. `juxtaposeMatrices(A, B, C)` (and `juxtaposeMatrices(A, B)`, which
is the same with a fresh `C`) raises the dimension-mismatch error exactly when `A` has
at least one column and `A.rows ≠ B.rows`; otherwise it returns the
`B.rows × (A.cols + B.cols)` matrix with `C[i][j] = A[i][j]` for `j < A.cols` and
`C[i][A.cols + j] = B[i][j]` for `j < B.cols`. -/
theorem juxtaposeMatrices_contract (u : Uninit) (A B C : vpMatrix)
    (hA : WF A) (hB : WF B) (hC : WF C) :
    juxtaposeMatrices u A B = juxtaposeMatrices3 u A B init ∧
    (juxtaposeMatrices3 u A B C = Except.error vpMatrixException.incorrectMatrixSizeError ↔
      (A.colNum ≠ 0 ∧ A.rowNum ≠ B.rowNum)) ∧
    (¬ (A.colNum ≠ 0 ∧ A.rowNum ≠ B.rowNum) →
      ∃ D, juxtaposeMatrices3 u A B C = Except.ok D ∧
        D.rowNum = B.rowNum ∧ D.colNum = A.colNum + B.colNum ∧
        (∀ i j, i < B.rowNum → j < A.colNum →
          ∃ x, A.elem? i j = some x ∧ D.elem? i j = some x) ∧
        (∀ i j, i < B.rowNum → j < B.colNum →
          ∃ x, B.elem? i j = some x ∧ D.elem? i (A.colNum + j) = some x)) := by
  refine ⟨rfl, juxtaposeMatrices3_error_iff u A B C, ?_⟩
  intro h
  obtain ⟨D, e, s, c1, c2⟩ := juxtaposeMatrices3_ok u A B C hC h
  refine ⟨D, e, s.rows, s.cols, ?_, ?_⟩
  · intro i j hi hj
    have hrows : A.rowNum = B.rowNum := by
      by_contra e2
      exact h ⟨by omega, e2⟩
    refine ⟨A.elem i j, hA.elem?_eq_some (by omega) hj, ?_⟩
    rw [s.elem?_eq_some hi (by omega), c1 i j hi hj]
  · intro i j hi hj
    refine ⟨B.elem i j, hB.elem?_eq_some hi hj, ?_⟩
    rw [s.elem?_eq_some hi (by omega), c2 i j hi hj]

/-- Witness for C23: `[[1,2],[3,4]]` to the left of `[[1,2,3],[4,5,6]]`. -/
theorem juxtaposeMatrices_contract_witness :
    WF m22 ∧ WF m23 ∧ WF init ∧
    ∃ D, juxtaposeMatrices3 sevens m22 m23 init = Except.ok D ∧
      D.rowNum = m23.rowNum ∧ D.colNum = m22.colNum + m23.colNum ∧
      (∀ i j, i < m23.rowNum → j < m22.colNum →
        ∃ x, m22.elem? i j = some x ∧ D.elem? i j = some x) ∧
      (∀ i j, i < m23.rowNum → j < m23.colNum →
        ∃ x, m23.elem? i j = some x ∧ D.elem? i (m22.colNum + j) = some x) :=
  ⟨m22_wf, m23_wf, init_wf,
    (juxtaposeMatrices_contract sevens m22 m23 init m22_wf m23_wf init_wf).2.2 (by decide)⟩

/-- Counterexample for C23 as stated: the fresh `0 × 0` matrix has `0 ≠ 2` rows, yet
juxtaposing `[[1,2,3],[4,5,6]]` to its right does not raise and gives back that
matrix. -/
theorem juxtaposeMatrices_empty_left_no_error :
    init.rowNum ≠ m23.rowNum ∧
    juxtaposeMatrices sevens init m23 ≠
      Except.error vpMatrixException.incorrectMatrixSizeError ∧
    ∃ D, juxtaposeMatrices sevens init m23 = Except.ok D ∧ D.rowNum = 2 ∧ D.colNum = 3 ∧
      D.data = [1, 2, 3, 4, 5, 6] := by
  refine ⟨by decide, ?_, ?_⟩
  · intro h
    have := (juxtaposeMatrices3_error_iff sevens init m23 init).mp h
    exact this.1 rfl
  · exact ⟨_, rfl, rfl, rfl, by decide!⟩

/-! ## Submatrix, `setIdentity`, determinant and printing -/

/-- A sum below `2^31` of non-negative terms is not changed by the wrap-around. -/
theorem wrapInt_of_lt (x : Int) (h0 : 0 ≤ x) (h : x < 2147483648) : wrapInt x = x := by
  unfold wrapInt
  omega

/-- The loops of `init(m, r, c, nrows, ncols)` copy the region of `m` that starts at
`(r, c)`, when the sums `r + nrows` and `c + ncols` fit in an `int`. -/
theorem initSub_spec (u : Uninit) (X m : vpMatrix) (r c nrows ncols : Nat) (hX : WF X)
    (hr : r + nrows < 2147483648) (hc : c + ncols < 2147483648) :
    Shaped (initSub u X m r c nrows ncols) nrows ncols ∧
    ∀ i j, i < nrows → j < ncols →
      (initSub u X m r c nrows ncols).elem i j = m.elem (r + i) (c + j) := by
  have e1 : (wrapInt ((r : Int) + (nrows : Int)) - (r : Int)).toNat = nrows := by
    rw [wrapInt_of_lt _ (by omega) (by omega)]; omega
  have e2 : (wrapInt ((c : Int) + (ncols : Int)) - (c : Int)).toNat = ncols := by
    rw [wrapInt_of_lt _ (by omega) (by omega)]; omega
  unfold initSub
  simp only [e1, e2]
  exact fill_spec nrows ncols (fun i j => m.elem (r + i) (c + j))
    (fun i j M3 => M3.setElem i j (m.elem (r + i) (c + j)))
    (fun _ _ hi hj => writesCell_setElem hi hj _) _ (resize_shaped u X nrows ncols true hX)

/-- When the sums `r + nrows` and `c + ncols` fit in an `int`, the submatrix constructor
raises `subMatrixError` exactly when the region `[r, r + nrows) × [c, c + ncols)` is not
inside `m` (`r < 0`, `c < 0`, `r + nrows > m.rows` or `c + ncols > m.cols`); otherwise it
yields an `nrows × ncols` matrix `S` with `S[i][j] = m[r + i][c + j]`. `m` is a value of
the model that the constructor does not return: it is taken by `const` reference. -/
theorem subMatrix_in_range (u : Uninit) (m : vpMatrix) (r c : Int) (nrows ncols : Nat)
    (hm : WF m) (hr : r + (nrows : Int) < 2147483648) (hc : c + (ncols : Int) < 2147483648) :
    (subMatrix u m r c nrows ncols = Except.error vpMatrixException.subMatrixError ↔
      (r < 0 ∨ c < 0 ∨ r + (nrows : Int) > (m.rowNum : Int) ∨
        c + (ncols : Int) > (m.colNum : Int))) ∧
    (¬ (r < 0 ∨ c < 0 ∨ r + (nrows : Int) > (m.rowNum : Int) ∨
        c + (ncols : Int) > (m.colNum : Int)) →
      ∃ S, subMatrix u m r c nrows ncols = Except.ok S ∧
        S.rowNum = nrows ∧ S.colNum = ncols ∧
        ∀ i j, i < nrows → j < ncols →
          ∃ x, m.elem? (r.toNat + i) (c.toNat + j) = some x ∧ S.elem? i j = some x) := by
  by_cases h1 : r < 0 ∨ c < 0
  · have e : subMatrix u m r c nrows ncols =
        Except.error vpMatrixException.subMatrixError := by
      unfold subMatrix; rw [if_pos h1]
    refine ⟨⟨fun _ => by rcases h1 with h | h; exact Or.inl h; exact Or.inr (Or.inl h),
      fun _ => e⟩, fun h => absurd (by
        rcases h1 with h2 | h2
        · exact Or.inl h2
        · exact Or.inr (Or.inl h2)) h⟩
  · have hr0 : 0 ≤ r := by
      by_contra h; exact h1 (Or.inl (by omega))
    have hc0 : 0 ≤ c := by
      by_contra h; exact h1 (Or.inr (by omega))
    have w1 : wrapInt (r + (nrows : Int)) = r + (nrows : Int) :=
      wrapInt_of_lt _ (by omega) hr
    have w2 : wrapInt (c + (ncols : Int)) = c + (ncols : Int) :=
      wrapInt_of_lt _ (by omega) hc
    by_cases h2 : r + (nrows : Int) > (m.rowNum : Int) ∨ c + (ncols : Int) > (m.colNum : Int)
    · have e : subMatrix u m r c nrows ncols =
          Except.error vpMatrixException.subMatrixError := by
        unfold subMatrix; rw [if_neg h1, w1, w2, if_pos h2]
      refine ⟨⟨fun _ => Or.inr (Or.inr h2), fun _ => e⟩,
        fun h => absurd (Or.inr (Or.inr h2)) h⟩
    · have e : subMatrix u m r c nrows ncols =
          Except.ok (initSub u init m r.toNat c.toNat nrows ncols) := by
        unfold subMatrix; rw [if_neg h1, w1, w2, if_neg h2]
      have hs := initSub_spec u init m r.toNat c.toNat nrows ncols init_wf
        (by omega) (by omega)
      refine ⟨⟨fun h => ?_, fun h => ?_⟩, fun _ => ⟨_, e, hs.1.rows, hs.1.cols, ?_⟩⟩
      · rw [e] at h; cases h
      · rcases h with h | h | h
        · exact absurd (Or.inl h) h1
        · exact absurd (Or.inr h) h1
        · exact absurd h h2
      · intro i j hi hj
        have hi2 : r.toNat + i < m.rowNum := by
          have : ¬ (r + (nrows : Int) > (m.rowNum : Int)) := fun h => h2 (Or.inl h)
          omega
        have hj2 : c.toNat + j < m.colNum := by
          have : ¬ (c + (ncols : Int) > (m.colNum : Int)) := fun h => h2 (Or.inr h)
          omega
        refine ⟨m.elem (r.toNat + i) (c.toNat + j), hm.elem?_eq_some hi2 hj2, ?_⟩
        rw [hs.1.elem?_eq_some hi hj, hs.2 i j hi hj]

/-- The lower right `2 × 2` block of the `3 × 3` example. -/
theorem subMatrix_in_range_example :
    WF m33 ∧ ∃ S, subMatrix sevens m33 1 1 2 2 = Except.ok S ∧
      S.rowNum = 2 ∧ S.colNum = 2 ∧
      ∀ i j, i < 2 → j < 2 →
        ∃ x, m33.elem? ((1 : Int).toNat + i) ((1 : Int).toNat + j) = some x ∧
          S.elem? i j = some x :=
  ⟨m33_wf, (subMatrix_in_range sevens m33 1 1 2 2 m33_wf (by decide) (by decide)).2
    (by decide)⟩

/-- C24. The bound test of the submatrix constructor is defeated by the wrap-around of
`r + nrows`: on the `1 × 1` matrix `[[5]]`, the request `r = 2147483647`, `c = 0`,
`nrows = ncols = 1` lies outside the matrix (`r + nrows > m.rows`, and `m` has no row
`2147483647`), yet no `subMatrixError` is raised: the sum wraps to `-2147483648`, the
test passes, the copy loop runs zero times and the constructor returns the `1 × 1` zero
matrix. -/
theorem subMatrix_bound_test_wraps :
    (2147483647 : Int) + ((1 : Nat) : Int) > (m11.rowNum : Int) ∧
    m11.elem? 2147483647 0 = none ∧
    wrapInt ((2147483647 : Int) + ((1 : Nat) : Int)) = -2147483648 ∧
    subMatrix sevens m11 2147483647 0 1 1 ≠ Except.error vpMatrixException.subMatrixError ∧
    ∃ S, subMatrix sevens m11 2147483647 0 1 1 = Except.ok S ∧
      S.rowNum = 1 ∧ S.colNum = 1 ∧ S.elem? 0 0 = some 0 := by
  have e : subMatrix sevens m11 2147483647 0 1 1 =
      Except.ok (initSub sevens init m11 2147483647 0 1 1) := by
    unfold subMatrix
    rw [if_neg (by decide), if_neg (by decide)]
    rfl
  refine ⟨by decide, by decide, by decide, ?_, ⟨_, e, ?_, ?_, ?_⟩⟩
  · rw [e]
    intro h
    cases h
  · decide!
  · decide!
  · decide!

/-- C25. `setIdentity()` raises an error exactly when the matrix is not square, and then
leaves the matrix as it was; on an `n × n` matrix it keeps the shape and sets `1` on the
diagonal and `0` elsewhere. -/
theorem setIdentity_contract (A : vpMatrix) (hA : WF A) :
    (setIdentity A = Except.error vpMatrixException.matrixError ↔ A.rowNum ≠ A.colNum) ∧
    ((setIdentityRun A).2 = some vpMatrixException.matrixError ↔ A.rowNum ≠ A.colNum) ∧
    (A.rowNum ≠ A.colNum → (setIdentityRun A).1 = A) ∧
    (A.rowNum = A.colNum →
      setIdentity A = Except.ok (setIdentityRun A).1 ∧ (setIdentityRun A).2 = none ∧
      (setIdentityRun A).1.rowNum = A.rowNum ∧ (setIdentityRun A).1.colNum = A.colNum ∧
      ∀ i j, i < A.rowNum → j < A.colNum →
        (setIdentityRun A).1.elem? i j = some (if i = j then 1 else 0)) := by
  by_cases h : A.rowNum ≠ A.colNum
  · have e1 : setIdentity A = Except.error vpMatrixException.matrixError := by
      unfold setIdentity; rw [if_pos h]
    have e2 : setIdentityRun A = (A, some vpMatrixException.matrixError) := by
      unfold setIdentityRun; rw [if_pos h]
    refine ⟨⟨fun _ => h, fun _ => e1⟩, ⟨fun _ => h, fun _ => by rw [e2]⟩,
      fun _ => by rw [e2], fun h2 => absurd h2 h⟩
  · have e1 : setIdentity A = Except.ok (identityLoops A) := by
      unfold setIdentity; rw [if_neg h]
    have e2 : setIdentityRun A = (identityLoops A, none) := by
      unfold setIdentityRun; rw [if_neg h]
    have hs := identityLoops_spec A A.rowNum A.colNum hA
    refine ⟨⟨fun h2 => ?_, fun h2 => absurd h2 h⟩, ⟨fun h2 => ?_, fun h2 => absurd h2 h⟩,
      fun h2 => absurd h2 h, fun _ => ?_⟩
    · rw [e1] at h2; cases h2
    · rw [e2] at h2; cases h2
    · rw [e2]
      refine ⟨e1, rfl, hs.1.rows, hs.1.cols, ?_⟩
      intro i j hi hj
      rw [hs.1.elem?_eq_some hi hj, hs.2 i j hi hj]

/-- Witness for C25: the `3 × 3` example becomes the identity. -/
theorem setIdentity_contract_witness :
    WF m33 ∧ ∀ i j, i < m33.rowNum → j < m33.colNum →
      (setIdentityRun m33).1.elem? i j = some (if i = j then 1 else 0) :=
  ⟨m33_wf, ((setIdentity_contract m33 m33_wf).2.2.2 rfl).2.2.2.2⟩

/-- C26. `det33` multiplies each of the six products by `0.5`: on a `3 × 3` matrix it
returns half the determinant, so on the identity it returns `1/2` and not `1`. For any
other shape it raises the incorrect-size error. -/
theorem det33_returns_half_determinant :
    (∀ M : vpMatrix, M.rowNum = 3 → M.colNum = 3 →
      det33 M = Except.ok ((1 / 2) *
        (M.elem 0 0 * M.elem 1 1 * M.elem 2 2 + M.elem 2 0 * M.elem 0 1 * M.elem 1 2 +
          M.elem 0 2 * M.elem 2 1 * M.elem 1 0 - M.elem 0 2 * M.elem 1 1 * M.elem 2 0 -
          M.elem 0 0 * M.elem 2 1 * M.elem 1 2 - M.elem 2 2 * M.elem 1 0 * M.elem 0 1))) ∧
    (∀ M : vpMatrix, M.colNum ≠ 3 ∨ M.rowNum ≠ 3 →
      det33 M = Except.error vpMatrixException.incorrectMatrixSizeError) ∧
    WF (eye sevens init 3) ∧
    (∀ i j, i < 3 → j < 3 → (eye sevens init 3).elem? i j = some (if i = j then 1 else 0)) ∧
    det33 (eye sevens init 3) = Except.ok (1 / 2) ∧
    det33 (eye sevens init 3) ≠ Except.ok 1 := by
  have hgen : ∀ M : vpMatrix, M.rowNum = 3 → M.colNum = 3 →
      det33 M = Except.ok ((1 / 2) *
        (M.elem 0 0 * M.elem 1 1 * M.elem 2 2 + M.elem 2 0 * M.elem 0 1 * M.elem 1 2 +
          M.elem 0 2 * M.elem 2 1 * M.elem 1 0 - M.elem 0 2 * M.elem 1 1 * M.elem 2 0 -
          M.elem 0 0 * M.elem 2 1 * M.elem 1 2 - M.elem 2 2 * M.elem 1 0 * M.elem 0 1)) := by
    intro M hr hc
    have hcond : ¬ (M.getCols ≠ 3 ∨ M.getRows ≠ 3) := by simp [getCols, getRows, hr, hc]
    unfold det33
    rw [if_neg hcond]
    exact congrArg Except.ok (by ring)
  have hE := eye_spec sevens init 3 init_wf
  have hval : det33 (eye sevens init 3) = Except.ok (1 / 2) := by
    rw [hgen _ hE.1.rows hE.1.cols]
    congr 1
    rw [hE.2 0 0 (by decide) (by decide), hE.2 1 1 (by decide) (by decide),
      hE.2 2 2 (by decide) (by decide), hE.2 2 0 (by decide) (by decide),
      hE.2 0 1 (by decide) (by decide), hE.2 1 2 (by decide) (by decide),
      hE.2 0 2 (by decide) (by decide), hE.2 2 1 (by decide) (by decide),
      hE.2 1 0 (by decide) (by decide)]
    norm_num
  refine ⟨hgen, ?_, hE.1.wf, ?_, hval, ?_⟩
  · intro M h
    unfold det33
    rw [if_pos (by simpa [getCols, getRows] using h)]
  · intro i j hi hj
    rw [hE.1.elem?_eq_some hi hj, hE.2 i j hi hj]
  · rw [hval]
    intro h
    have h2 : (1 / 2 : ℚ) = 1 := by injection h
    norm_num at h2

/-- C27. `cppPrint` sets `matrixName` and never reads it: the text it produces is the
same for every name and always uses `A`. For the matrix `[[5]]` and the name `B` it
prints `vpMatrix A (1, 1); ` and `A[0][0] = 5; `. -/
theorem cppPrint_ignores_matrixName :
    (∀ (fmt : ℚ → String) (octetText : ℚ → Nat → Nat → String) (M : vpMatrix)
        (name : String) (octet : Bool),
      cppPrint fmt octetText M (some name) octet = cppPrint fmt octetText M none octet) ∧
    cppPrint plainFmt noOctets m11 (some "B") false =
      "vpMatrix A (1, 1); \nA[0][0] = 5; \n\n" ∧
    cppPrint plainFmt noOctets m11 (some "B") false ≠
      "vpMatrix B (1, 1); \nB[0][0] = 5; \n\n" := by
  refine ⟨fun _ _ _ _ _ => rfl, by decide!, by decide!⟩

/-- C28. For a threshold `th ≥ 0`, an index that passes the guard
`|sv[k]| > maxsv * th` of `pseudoInverse` has `sv[k] ≠ 0`, so the division in the
accumulation of `a1`, which is made under this guard only, never divides by zero. For
a negative threshold the guard does not give this: on `[[0,0],[0,1]]` with `sv = (0, 1)`
and `th = -1` the index `0` passes although `sv[0] = 0`. -/
theorem pseudoInverse_divisor_nonzero (u : Uninit) (prim : SvdPrimitive) (A sv : vpMatrix)
    (th : ℚ) (k : Nat) (hth : 0 ≤ th) (hp : pinvPasses u prim A sv th k) :
    (pinvSvd u prim A sv).2.1.colElem k ≠ 0 ∧
    (pinvPasses sevens (svdEye (fun k => (k : ℚ))) diag01 init (-1) 0 ∧
      (pinvSvd sevens (svdEye (fun k => (k : ℚ))) diag01 init).2.1.colElem 0 = 0) := by
  refine ⟨?_, by decide!, by decide!⟩
  intro h0
  have hm := (pinvMaxsv_spec (pinvSvd u prim A sv).2.1 (pinvCols A)).1
  unfold pinvPasses at hp
  rw [h0, abs_zero] at hp
  have : 0 ≤ pinvMaxsv (pinvSvd u prim A sv).2.1 (pinvCols A) * th := mul_nonneg hm hth
  exact absurd hp (not_lt.mpr this)

/-- Witness for C28: the index `1` of the `[[0,0],[0,1]]` example with `th = 1e-6`. -/
theorem pseudoInverse_divisor_nonzero_witness :
    (0 : ℚ) ≤ 1 / 1000000 ∧
    pinvPasses sevens (svdEye (fun k => (k : ℚ))) diag01 init (1 / 1000000) 1 ∧
    (pinvSvd sevens (svdEye (fun k => (k : ℚ))) diag01 init).2.1.colElem 1 ≠ 0 :=
  ⟨by norm_num, by decide!,
    (pseudoInverse_divisor_nonzero sevens (svdEye (fun k => (k : ℚ))) diag01 init
      (1 / 1000000) 1 (by norm_num) (by decide!)).1⟩

/-! ## `pseudoInverse` of a matrix and of its transpose -/

theorem forLoop_congr {σ : Type} (n : Nat) (f g : Nat → σ → σ) (s : σ)
    (h : ∀ i, i < n → ∀ t, f i t = g i t) : forLoop n f s = forLoop n g s := by
  induction n with
  | zero => rw [forLoop_zero, forLoop_zero]
  | succ n ih =>
    rw [forLoop_succ, forLoop_succ, ih (fun i hi t => h i (by omega) t),
      h n (Nat.lt_succ_self n)]

theorem pinvMaxsv_congr (sv1 sv2 : vpMatrix) (n : Nat)
    (h : ∀ i, i < n → sv1.colElem i = sv2.colElem i) :
    pinvMaxsv sv1 n = pinvMaxsv sv2 n := by
  unfold pinvMaxsv
  apply forLoop_congr
  intro i hi t
  simp only [h i hi]

/-- Two column vectors of `n` entries with the same entries have the same buffer. -/
theorem col_data_ext {X Y : vpMatrix} {n : Nat} (hX : Shaped X n 1) (hY : Shaped Y n 1)
    (h : ∀ k, k < n → X.colElem? k = Y.colElem? k) : X.data = Y.data := by
  apply List.ext_getElem?
  intro k
  by_cases hk : k < n
  · exact h k hk
  · have h1 : X.data.length ≤ k := by rw [hX.dlen]; omega
    have h2 : Y.data.length ≤ k := by rw [hY.dlen]; omega
    rw [List.getElem?_eq_none h1, List.getElem?_eq_none h2]

/-- For a matrix `A` with fewer rows than columns, the SVD calls of `pseudoInverse` on
`A` and on a transpose of `A` hand the same matrix to the primitive and leave the same
cells in `a`, `sv` and `v`. -/
theorem pinvSvd_transpose (u1 u2 u3 : Uninit) (prim : SvdPrimitive) (A sv1 sv2 : vpMatrix)
    (hA : WF A) (hw : A.rowNum < A.colNum) (hsv1 : WF sv1) (hsv2 : WF sv2) :
    pinvRows (t u3 A) = A.colNum ∧ pinvCols (t u3 A) = A.rowNum ∧
    pinvRows A = A.colNum ∧ pinvCols A = A.rowNum ∧
    (pinvWork u1 A).data = (pinvWork u2 (t u3 A)).data ∧
    (∀ i j, i < A.colNum → j < A.rowNum →
      (pinvSvd u1 prim A sv1).1.elem i j = (pinvSvd u2 prim (t u3 A) sv2).1.elem i j) ∧
    (∀ k, k < A.rowNum →
      (pinvSvd u1 prim A sv1).2.1.colElem? k =
        (pinvSvd u2 prim (t u3 A) sv2).2.1.colElem? k) ∧
    (∀ i j, i < A.rowNum → j < A.rowNum →
      (pinvSvd u1 prim A sv1).2.2.elem i j =
        (pinvSvd u2 prim (t u3 A) sv2).2.2.elem i j) := by
  have ht := t_spec u3 A
  have htwf : WF (t u3 A) := ht.1.wf
  have hnt : ¬ A.rowNum ≥ A.colNum := by omega
  have htall : (t u3 A).rowNum ≥ (t u3 A).colNum := by rw [ht.1.rows, ht.1.cols]; omega
  have r1 : pinvRows A = A.colNum := by simp [pinvRows, getRows, getCols, hnt]
  have c1 : pinvCols A = A.rowNum := by simp [pinvCols, getRows, getCols, hnt]
  have r2 : pinvRows (t u3 A) = A.colNum := by
    unfold pinvRows getRows getCols
    rw [if_pos htall, ht.1.rows]
  have c2 : pinvCols (t u3 A) = A.rowNum := by
    unfold pinvCols getRows getCols
    rw [if_pos htall, ht.1.cols]
  have w1 := pinvWork_spec u1 A hA
  have w2 := pinvWork_spec u2 (t u3 A) htwf
  have s1 := pinvSvd_spec u1 prim A sv1 hA hsv1
  have s2 := pinvSvd_spec u2 prim (t u3 A) sv2 htwf hsv2
  rw [r1, c1] at w1 s1
  rw [r2, c2] at w2 s2
  have hdata : (pinvWork u1 A).data = (pinvWork u2 (t u3 A)).data := by
    apply w1.1.data_ext w2.1
    intro i j hi hj
    rw [w1.2.2 hnt i j hi hj, w2.2.1 htall i j (by rw [ht.1.rows]; exact hi)
      (by rw [ht.1.cols]; exact hj), ht.2 j i hj hi]
  rw [← hdata] at s2
  refine ⟨r2, c2, r1, c1, hdata, ?_, ?_, ?_⟩
  · intro i j hi hj
    rw [s1.2.1 i j hi hj, s2.2.1 i j hi hj]
  · intro k hk
    rw [s1.2.2.2.1 k hk, s2.2.2.2.1 k hk]
  · intro i j hi hj
    rw [s1.2.2.2.2.2 i j hi hj, s2.2.2.2.2.2 i j hi hj]

/-- The guard of `pseudoInverse` selects the same indices for a matrix with fewer rows
than columns and for its transpose. -/
theorem pinvPasses_transpose (u1 u2 u3 : Uninit) (prim : SvdPrimitive)
    (A sv1 sv2 : vpMatrix) (th : ℚ)
    (hA : WF A) (hw : A.rowNum < A.colNum) (hsv1 : WF sv1) (hsv2 : WF sv2) :
    (∀ k, k < A.rowNum → (pinvSvd u1 prim A sv1).2.1.colElem k =
      (pinvSvd u2 prim (t u3 A) sv2).2.1.colElem k) ∧
    (Finset.range (pinvCols A)).filter (pinvPasses u1 prim A sv1 th) =
      (Finset.range (pinvCols (t u3 A))).filter (pinvPasses u2 prim (t u3 A) sv2 th) := by
  have key := pinvSvd_transpose u1 u2 u3 prim A sv1 sv2 hA hw hsv1 hsv2
  have hcol : ∀ k, k < A.rowNum → (pinvSvd u1 prim A sv1).2.1.colElem k =
      (pinvSvd u2 prim (t u3 A) sv2).2.1.colElem k := by
    intro k hk
    unfold vpMatrix.colElem
    rw [key.2.2.2.2.2.2.1 k hk]
  have hmax : pinvMaxsv (pinvSvd u1 prim A sv1).2.1 (pinvCols A) =
      pinvMaxsv (pinvSvd u2 prim (t u3 A) sv2).2.1 (pinvCols (t u3 A)) := by
    rw [key.2.1, key.2.2.2.1]
    exact pinvMaxsv_congr _ _ _ hcol
  refine ⟨hcol, ?_⟩
  rw [key.2.1, key.2.2.2.1]
  apply Finset.filter_congr
  intro k hk
  have hk2 := Finset.mem_range.mp hk
  unfold pinvPasses
  rw [hcol k hk2, hmax]

/-- C29. For a matrix `A` with fewer rows than columns and a transpose `At = A.t()`,
with the SVD primitive a function of its input: `pseudoInverse` on `A` and on `At`
return the same rank and the same singular values, the `Ap` of `A` is the transpose of
the `Ap` of `At`, `imA` of `A` equals `imAt` of `At`, and `imAt` of `A` equals `imA`
of `At` (same shapes, same cells, same buffers). -/
theorem pseudoInverse_of_transpose (u1 u2 u3 u4 : Uninit) (prim : SvdPrimitive)
    (A Ap1 sv1 imA1 imAt1 Ap2 sv2 imA2 imAt2 : vpMatrix) (th : ℚ)
    (r1 r2 : PseudoInverseResult)
    (hA : WF A) (hw : A.rowNum < A.colNum)
    (hAp1 : WF Ap1) (hsv1 : WF sv1) (himA1 : WF imA1) (himAt1 : WF imAt1)
    (hAp2 : WF Ap2) (hsv2 : WF sv2) (himA2 : WF imA2) (himAt2 : WF imAt2)
    (h1 : r1 = pseudoInverse u1 prim A Ap1 sv1 th imA1 imAt1)
    (h2 : r2 = pseudoInverse u2 prim (t u3 A) Ap2 sv2 th imA2 imAt2) :
    r1.rank = r2.rank ∧
    r1.sv.data = r2.sv.data ∧ r1.sv.data.length = A.rowNum ∧
    (r1.Ap.rowNum = r2.Ap.colNum ∧ r1.Ap.colNum = r2.Ap.rowNum ∧
      (∀ i j, i < A.colNum → j < A.rowNum →
        ∃ x, r1.Ap.elem? i j = some x ∧ r2.Ap.elem? j i = some x) ∧
      r1.Ap.data = (t u4 r2.Ap).data) ∧
    (r1.imA.rowNum = r2.imAt.rowNum ∧ r1.imA.colNum = r2.imAt.colNum ∧
      (∀ i j, i < A.rowNum → j < r1.rank →
        ∃ x, r1.imA.elem? i j = some x ∧ r2.imAt.elem? i j = some x) ∧
      r1.imA.data = r2.imAt.data) ∧
    (r1.imAt.rowNum = r2.imA.rowNum ∧ r1.imAt.colNum = r2.imA.colNum ∧
      (∀ i j, i < A.colNum → j < r1.rank →
        ∃ x, r1.imAt.elem? i j = some x ∧ r2.imA.elem? i j = some x) ∧
      r1.imAt.data = r2.imA.data) := by
  subst h1
  subst h2
  have ht := t_spec u3 A
  have hnt : ¬ A.rowNum ≥ A.colNum := by omega
  have htall : A.colNum ≥ A.rowNum := by omega
  have key := pinvSvd_transpose u1 u2 u3 prim A sv1 sv2 hA hw hsv1 hsv2
  have kp := pinvPasses_transpose u1 u2 u3 prim A sv1 sv2 th hA hw hsv1 hsv2
  have s1 := pinvSvd_spec u1 prim A sv1 hA hsv1
  have s2 := pinvSvd_spec u2 prim (t u3 A) sv2 ht.1.wf hsv2
  rw [key.2.2.1, key.2.2.2.1] at s1
  rw [key.1, key.2.1] at s2
  have p1 := pinv_Ap_spec u1 prim A Ap1 sv1 th imA1 imAt1 hAp1
  have p2 := pinv_Ap_spec u2 prim (t u3 A) Ap2 sv2 th imA2 imAt2 hAp2
  have i1 := pinv_images_spec u1 prim A Ap1 sv1 th imA1 imAt1 himA1 himAt1
  have i2 := pinv_images_spec u2 prim (t u3 A) Ap2 sv2 th imA2 imAt2 himA2 himAt2
  have hrank : (pseudoInverse u1 prim A Ap1 sv1 th imA1 imAt1).rank =
      (pseudoInverse u2 prim (t u3 A) Ap2 sv2 th imA2 imAt2).rank := by
    rw [pinv_rank_card, pinv_rank_card, kp.2]
  have hrk := pinv_rank_le u1 prim A Ap1 sv1 th imA1 imAt1
  rw [key.2.2.2.1] at hrk
  rw [ht.1.rows, ht.1.cols] at p2 i2
  rw [← hrank] at i2
  have hAp : ∀ i j, i < A.colNum → j < A.rowNum →
      (pseudoInverse u1 prim A Ap1 sv1 th imA1 imAt1).Ap.elem i j =
        (pseudoInverse u2 prim (t u3 A) Ap2 sv2 th imA2 imAt2).Ap.elem j i := by
    intro i j hi hj
    rw [p1.2.2 hnt i j hi hj, p2.2.1 htall j i hj hi, kp.2]
    apply Finset.sum_congr rfl
    intro k hk
    have hk2 : k < A.rowNum := by
      have := (Finset.mem_filter.mp hk).1
      rw [key.2.1] at this
      exact Finset.mem_range.mp this
    rw [key.2.2.2.2.2.2.2 j k hj hk2, key.2.2.2.2.2.1 i k hi hk2, kp.1 k hk2]
  have hT := t_spec u4 (pseudoInverse u2 prim (t u3 A) Ap2 sv2 th imA2 imAt2).Ap
  rw [p2.1.rows, p2.1.cols] at hT
  have himA : ∀ i j, i < A.rowNum →
      j < (pseudoInverse u1 prim A Ap1 sv1 th imA1 imAt1).rank →
      (pseudoInverse u1 prim A Ap1 sv1 th imA1 imAt1).imA.elem i j =
        (pseudoInverse u2 prim (t u3 A) Ap2 sv2 th imA2 imAt2).imAt.elem i j := by
    intro i j hi hj
    rw [(i1.2.2.2 hnt).2 i j hi hj, (i2.2.2.1 htall).1 i j hi hj,
      key.2.2.2.2.2.2.2 i j hi (by omega)]
  have himAt : ∀ i j, i < A.colNum →
      j < (pseudoInverse u1 prim A Ap1 sv1 th imA1 imAt1).rank →
      (pseudoInverse u1 prim A Ap1 sv1 th imA1 imAt1).imAt.elem i j =
        (pseudoInverse u2 prim (t u3 A) Ap2 sv2 th imA2 imAt2).imA.elem i j := by
    intro i j hi hj
    rw [(i1.2.2.2 hnt).1 i j hi hj, (i2.2.2.1 htall).2 i j hi hj,
      key.2.2.2.2.2.1 i j hi (by omega)]
  refine ⟨hrank, ?_, ?_, ⟨?_, ?_, ?_, ?_⟩, ⟨?_, ?_, ?_, ?_⟩, ⟨?_, ?_, ?_, ?_⟩⟩
  · rw [pinv_sv_eq, pinv_sv_eq]
    exact col_data_ext s1.2.2.1 s2.2.2.1 key.2.2.2.2.2.2.1
  · rw [pinv_sv_eq, s1.2.2.1.dlen, Nat.mul_one]
  · rw [p1.1.rows, p2.1.cols]
  · rw [p1.1.cols, p2.1.rows]
  · intro i j hi hj
    refine ⟨_, p1.1.elem?_eq_some hi hj, ?_⟩
    rw [p2.1.elem?_eq_some hj hi, hAp i j hi hj]
  · apply p1.1.data_ext hT.1
    intro i j hi hj
    rw [hAp i j hi hj, hT.2 j i hj hi]
  · rw [i1.2.1.rows, i2.1.rows]
  · rw [i1.2.1.cols, i2.1.cols]
  · intro i j hi hj
    refine ⟨_, i1.2.1.elem?_eq_some hi hj, ?_⟩
    rw [i2.1.elem?_eq_some hi hj, himA i j hi hj]
  · exact i1.2.1.data_ext i2.1 himA
  · rw [i1.1.rows, i2.2.1.rows]
  · rw [i1.1.cols, i2.2.1.cols]
  · intro i j hi hj
    refine ⟨_, i1.1.elem?_eq_some hi hj, ?_⟩
    rw [i2.2.1.elem?_eq_some hi hj, himAt i j hi hj]
  · exact i1.1.data_ext i2.2.1 himAt

/-- Witness for C29: the `2 × 3` example and its transpose. -/
theorem pseudoInverse_of_transpose_witness :
    WF wide23 ∧ wide23.rowNum < wide23.colNum ∧ WF init ∧
    (pseudoInverse sevens (svdEye (fun k => (k : ℚ) + 1)) wide23 init init (1 / 1000000)
      init init).rank =
    (pseudoInverse sevens (svdEye (fun k => (k : ℚ) + 1)) (t sevens wide23) init init
      (1 / 1000000) init init).rank :=
  ⟨wide23_wf, by decide, init_wf,
    (pseudoInverse_of_transpose sevens sevens sevens sevens (svdEye (fun k => (k : ℚ) + 1))
      wide23 init init init init init init init init (1 / 1000000) _ _
      wide23_wf (by decide) init_wf init_wf init_wf init_wf init_wf init_wf init_wf init_wf
      rfl rfl).1⟩

/-! ## Rounding to `double` -/

/-- With enough fuel, `bitLength` is the number of binary digits:
`2 ^ (bitLength n - 1) ≤ n < 2 ^ bitLength n`. -/
theorem bitLength_spec (fuel n : Nat) (hn : n ≠ 0) (hf : n ≤ fuel) :
    2 ^ bitLength fuel n ≤ 2 * n ∧ n < 2 ^ bitLength fuel n := by
  induction fuel generalizing n with
  | zero => omega
  | succ f ih =>
    have e : bitLength (f + 1) n = bitLength f (n / 2) + 1 := by
      simp [bitLength, hn]
    rw [e, pow_succ]
    by_cases h2 : n / 2 = 0
    · have h1 : n = 1 := by omega
      subst h1
      have e0 : bitLength f (1 / 2) = 0 := by
        cases f <;> simp [bitLength]
      rw [e0]
      simp
    · have := ih (n / 2) h2 (by omega)
      constructor <;> omega

/-- `pow2` is the power of two. -/
theorem pow2_eq_zpow (e : Int) : pow2 e = (2 : ℚ) ^ e := by
  unfold pow2
  split_ifs with h
  · have : e = ((e.toNat : Nat) : Int) := (Int.toNat_of_nonneg h).symm
    conv_rhs => rw [this]
    rw [zpow_natCast]
    push_cast
    rfl
  · have h2 : 0 ≤ -e := by omega
    have : e = -(((-e).toNat : Nat) : Int) := by rw [Int.toNat_of_nonneg h2]; omega
    conv_rhs => rw [this]
    rw [zpow_neg, zpow_natCast]
    push_cast
    rw [one_div]

theorem pow2_pos (e : Int) : 0 < pow2 e := by
  rw [pow2_eq_zpow]
  positivity

/-- The binary exponent brackets the absolute value. -/
theorem exponent_spec (x : ℚ) (hx : x ≠ 0) :
    pow2 (exponent x) ≤ |x| ∧ |x| < pow2 (exponent x + 1) := by
  have hn : x.num.natAbs ≠ 0 := by
    intro h
    exact hx (Rat.num_eq_zero.mp (Int.natAbs_eq_zero.mp h))
  have hd : x.den ≠ 0 := x.den_nz
  obtain ⟨a1, a2⟩ := bitLength_spec x.num.natAbs x.num.natAbs hn (le_refl _)
  obtain ⟨b1, b2⟩ := bitLength_spec x.den x.den hd (le_refl _)
  have habs : |x| = (x.num.natAbs : ℚ) / (x.den : ℚ) := by
    conv_lhs => rw [← Rat.num_div_den x]
    rw [abs_div, Nat.cast_natAbs, Int.cast_abs]
    congr 1
    exact abs_of_pos (by exact_mod_cast Nat.pos_of_ne_zero hd)
  unfold exponent
  simp only []
  generalize bitLength x.num.natAbs x.num.natAbs = a at a1 a2 ⊢
  generalize bitLength x.den x.den = b at b1 b2 ⊢
  have hN : (0 : ℚ) < (x.num.natAbs : ℚ) := by exact_mod_cast Nat.pos_of_ne_zero hn
  have hD : (0 : ℚ) < (x.den : ℚ) := by exact_mod_cast Nat.pos_of_ne_zero hd
  have A1 : (2 : ℚ) ^ a ≤ 2 * (x.num.natAbs : ℚ) := by exact_mod_cast a1
  have A2 : (x.num.natAbs : ℚ) < (2 : ℚ) ^ a := by exact_mod_cast a2
  have B1 : (2 : ℚ) ^ b ≤ 2 * (x.den : ℚ) := by exact_mod_cast b1
  have B2 : (x.den : ℚ) < (2 : ℚ) ^ b := by exact_mod_cast b2
  have hPA : (0 : ℚ) < (2 : ℚ) ^ a := by positivity
  have hPB : (0 : ℚ) < (2 : ℚ) ^ b := by positivity
  have hk : pow2 ((a : Int) - (b : Int)) = (2 : ℚ) ^ a / (2 : ℚ) ^ b := by
    rw [pow2_eq_zpow, zpow_sub₀ (by norm_num), zpow_natCast, zpow_natCast]
  have hk1 : pow2 ((a : Int) - (b : Int) + 1) = 2 * ((2 : ℚ) ^ a / (2 : ℚ) ^ b) := by
    rw [pow2_eq_zpow, zpow_add_one₀ (by norm_num), ← pow2_eq_zpow, hk]; ring
  have hk2 : pow2 ((a : Int) - (b : Int) - 1) = (2 : ℚ) ^ a / (2 : ℚ) ^ b / 2 := by
    rw [pow2_eq_zpow, zpow_sub_one₀ (by norm_num), ← pow2_eq_zpow, hk]; ring
  split_ifs with h
  · refine ⟨h, ?_⟩
    rw [hk1, habs, ← mul_div_assoc, div_lt_div_iff₀ hD hPB]
    nlinarith
  · refine ⟨?_, ?_⟩
    · rw [hk2, habs, div_div, div_le_div_iff₀ (by positivity) hD]
      nlinarith
    · rw [sub_add_cancel]
      exact lt_of_not_le h

/-- Rounding to an integer moves a number by at most one half. -/
theorem roundHalfEven_error (y : ℚ) : |((roundHalfEven y : Int) : ℚ) - y| ≤ 1 / 2 := by
  have h1 := Int.floor_le y
  have h2 := Int.lt_floor_add_one y
  unfold roundHalfEven
  simp only []
  rw [abs_le]
  split_ifs with c1 c2 c3
  · constructor <;> linarith
  · push_cast
    constructor <;> linarith
  · constructor <;> linarith
  · push_cast
    constructor <;> linarith

/-- Rounding to `double` has a relative error of at most `2 ^ (-53)`. -/
theorem roundDouble_error (x : ℚ) : |roundDouble x - x| ≤ |x| / 9007199254740992 := by
  unfold roundDouble
  split_ifs with h
  · subst h; simp
  · simp only []
    have hp := pow2_pos (exponent x - 52)
    have he := (exponent_spec x h).1
    have hpe : pow2 (exponent x - 52) = pow2 (exponent x) / 4503599627370496 := by
      rw [pow2_eq_zpow, pow2_eq_zpow, zpow_sub₀ (by norm_num)]
      norm_num
    have hr := roundHalfEven_error (x / pow2 (exponent x - 52))
    have e : ((roundHalfEven (x / pow2 (exponent x - 52)) : Int) : ℚ) * pow2 (exponent x - 52)
        - x = (((roundHalfEven (x / pow2 (exponent x - 52)) : Int) : ℚ) -
          x / pow2 (exponent x - 52)) * pow2 (exponent x - 52) := by
      field_simp
    rw [e, abs_mul, abs_of_pos hp]
    calc _ ≤ 1 / 2 * pow2 (exponent x - 52) := by
          exact mul_le_mul_of_nonneg_right hr (le_of_lt hp)
      _ ≤ |x| / 9007199254740992 := by
          rw [hpe]; linarith

/-- A `double` is not changed by the rounding: examples. -/
theorem roundDouble_examples :
    roundDouble 5 = 5 ∧ roundDouble (1 / 10) = 3602879701896397 / 36028797018963968 ∧
    roundDouble (1 + 100000000000000000) = 100000000000000000 ∧
    roundDouble 9007199254740993 = 9007199254740992 ∧
    roundDouble 9007199254740995 = 9007199254740996 ∧
    roundDouble (-(1 / 3)) = -6004799503160661 / 18014398509481984 := by
  refine ⟨by decide!, by decide!, by decide!, by decide!, by decide!, by decide!⟩

/-! ## Sum and difference in rounded arithmetic -/

/-- Exact arithmetic is the rounded arithmetic with `fl = id`. -/
theorem operatorAddFl_id (u : Uninit) (A B : vpMatrix) :
    operatorAddFl id u A B = operatorAdd u A B := rfl

theorem operatorSubFl_id (u : Uninit) (A B : vpMatrix) :
    operatorSubFl id u A B = operatorSub u A B := rfl

/-- The rounded sum of two `r × c` matrices succeeds and is computed cell by cell. -/
theorem operatorAddFl_spec (fl : ℚ → ℚ) (u : Uninit) (A B : vpMatrix) (r c : Nat)
    (hA : Shaped A r c) (hB : Shaped B r c) :
    ∃ C, operatorAddFl fl u A B = Except.ok C ∧ Shaped C r c ∧
      ∀ i j, i < r → j < c → C.elem i j = fl (B.elem i j + A.elem i j) := by
  have hv : Shaped (resize u init A.rowNum A.colNum true) r c := by
    have h := resize_shaped u init A.rowNum A.colNum true init_wf
    have e1 := hA.rows
    have e2 := hA.cols
    rw [← e1, ← e2]; exact h
  have hcond : ¬ (A.colNum ≠ B.getCols ∨ A.rowNum ≠ B.getRows) := by
    simp [getCols, getRows, hA.rows, hA.cols, hB.rows, hB.cols]
  have hfill := listFill_spec A.dsize
    (fun i => fl ((B.data[i]?).getD 0 + (A.data[i]?).getD 0))
    (resize u init A.rowNum A.colNum true).data (by rw [hv.dlen, hA.dsz])
  have hS := hv.with_data _ (hfill.1.trans hA.dsz)
  refine ⟨_, ?_, hS, ?_⟩
  · simp only [operatorAddFl, hcond, if_false]
  · intro i j hi hj
    have hidx : i * c + j < A.dsize := by rw [hA.dsz]; exact index_lt hi hj
    rw [hS.elem_eq_data hi hj, hA.elem_eq_data hi hj, hB.elem_eq_data hi hj]
    simp only []
    rw [hfill.2 _ hidx]
    rfl

/-- The rounded difference of two `r × c` matrices succeeds and is computed cell by
cell. -/
theorem operatorSubFl_spec (fl : ℚ → ℚ) (u : Uninit) (A B : vpMatrix) (r c : Nat)
    (hA : Shaped A r c) (hB : Shaped B r c) :
    ∃ C, operatorSubFl fl u A B = Except.ok C ∧ Shaped C r c ∧
      ∀ i j, i < r → j < c → C.elem i j = fl (A.elem i j - B.elem i j) := by
  have hv : Shaped (resize u init A.rowNum A.colNum true) r c := by
    have h := resize_shaped u init A.rowNum A.colNum true init_wf
    have e1 := hA.rows
    have e2 := hA.cols
    rw [← e1, ← e2]; exact h
  have hcond : ¬ (A.colNum ≠ B.getCols ∨ A.rowNum ≠ B.getRows) := by
    simp [getCols, getRows, hA.rows, hA.cols, hB.rows, hB.cols]
  have hfill := listFill_spec A.dsize
    (fun i => fl ((A.data[i]?).getD 0 - (B.data[i]?).getD 0))
    (resize u init A.rowNum A.colNum true).data (by rw [hv.dlen, hA.dsz])
  have hS := hv.with_data _ (hfill.1.trans hA.dsz)
  refine ⟨_, ?_, hS, ?_⟩
  · simp only [operatorSubFl, hcond, if_false]
  · intro i j hi hj
    have hidx : i * c + j < A.dsize := by rw [hA.dsz]; exact index_lt hi hj
    rw [hS.elem_eq_data hi hj, hA.elem_eq_data hi hj, hB.elem_eq_data hi hj]
    simp only []
    rw [hfill.2 _ hidx]
    rfl

/-- Adding and then subtracting `b` in `double` arithmetic moves `a` by at most `1e-9`
when `a` and `b` are at most `1e6` in absolute value. -/
theorem roundDouble_add_sub (a b : ℚ) (ha : |a| ≤ 1000000) (hb : |b| ≤ 1000000) :
    |roundDouble (roundDouble (b + a) - b) - a| ≤ 1 / 1000000000 := by
  have e1 := roundDouble_error (b + a)
  have e2 := roundDouble_error (roundDouble (b + a) - b)
  have hab : |b + a| ≤ 2000000 := (abs_add b a).trans (by linarith)
  have h1 : |roundDouble (b + a) - (b + a)| ≤ 2000000 / 9007199254740992 :=
    e1.trans (by linarith)
  have h2 : |roundDouble (b + a) - b| ≤ 1000001 := by
    have : roundDouble (b + a) - b = (roundDouble (b + a) - (b + a)) + a := by ring
    rw [this]
    refine (abs_add _ _).trans ?_
    have : (2000000 : ℚ) / 9007199254740992 ≤ 1 := by norm_num
    linarith
  have h3 : |roundDouble (roundDouble (b + a) - b) - (roundDouble (b + a) - b)| ≤
      1000001 / 9007199254740992 := e2.trans (by linarith)
  have : roundDouble (roundDouble (b + a) - b) - a =
      (roundDouble (roundDouble (b + a) - b) - (roundDouble (b + a) - b)) +
        (roundDouble (b + a) - (b + a)) := by ring
  rw [this]
  refine (abs_add _ _).trans ?_
  have : (1000001 : ℚ) / 9007199254740992 + 2000000 / 9007199254740992 ≤ 1 / 1000000000 := by
    norm_num
  linarith

/-- C18, as amended. For matrices `A` and `B` of the same shape, `(A + B) - B` succeeds,
has the shape of `A`, and its cell `(i, j)` is `fl (fl (b + a) - b)` for the cells `a` of `A`
and `b` of `B`, where `fl` rounds each operation. It has exactly the cells of `A` when no
operation rounds (exact arithmetic), and in `double` arithmetic it is within `1e-9` of `A`
when the entries of `A` and `B` are at most `1e6` in absolute value. -/
theorem add_then_sub_is_identity (fl : ℚ → ℚ) (u : Uninit) (A B : vpMatrix)
    (hA : WF A) (hB : WF B) (hs : A.rowNum = B.rowNum ∧ A.colNum = B.colNum) :
    ∃ S D, operatorAddFl fl u A B = Except.ok S ∧ operatorSubFl fl u S B = Except.ok D ∧
      D.rowNum = A.rowNum ∧ D.colNum = A.colNum ∧
      (∀ i j, i < A.rowNum → j < A.colNum →
        ∃ a b, A.elem? i j = some a ∧ B.elem? i j = some b ∧
          D.elem? i j = some (fl (fl (b + a) - b))) ∧
      ((∀ x, fl x = x) → ∀ i j, i < A.rowNum → j < A.colNum →
        ∃ x, A.elem? i j = some x ∧ D.elem? i j = some x) ∧
      (fl = roundDouble →
        (∀ i j, i < A.rowNum → j < A.colNum →
          |A.elem i j| ≤ 1000000 ∧ |B.elem i j| ≤ 1000000) →
        ∀ i j, i < A.rowNum → j < A.colNum →
          ∃ x y, A.elem? i j = some x ∧ D.elem? i j = some y ∧
            |y - x| ≤ 1 / 1000000000) := by
  have hB2 : Shaped B A.rowNum A.colNum := by rw [hs.1, hs.2]; exact hB
  obtain ⟨S, e, s, c⟩ := operatorAddFl_spec fl u A B A.rowNum A.colNum hA hB2
  obtain ⟨D, e2, s2, c2⟩ := operatorSubFl_spec fl u S B A.rowNum A.colNum s hB2
  have hval : ∀ i j, i < A.rowNum → j < A.colNum →
      D.elem i j = fl (fl (B.elem i j + A.elem i j) - B.elem i j) := by
    intro i j hi hj
    rw [c2 i j hi hj, c i j hi hj]
  refine ⟨S, D, e, e2, s2.rows, s2.cols, ?_, ?_, ?_⟩
  · intro i j hi hj
    refine ⟨A.elem i j, B.elem i j, hA.elem?_eq_some hi hj, hB2.elem?_eq_some hi hj, ?_⟩
    rw [s2.elem?_eq_some hi hj, hval i j hi hj]
  · intro hfl i j hi hj
    refine ⟨A.elem i j, hA.elem?_eq_some hi hj, ?_⟩
    rw [s2.elem?_eq_some hi hj, hval i j hi hj, hfl, hfl]
    congr 1
    ring
  · intro hfl hbd i j hi hj
    refine ⟨A.elem i j, D.elem i j, hA.elem?_eq_some hi hj, s2.elem?_eq_some hi hj, ?_⟩
    rw [hval i j hi hj, hfl]
    exact roundDouble_add_sub _ _ (hbd i j hi hj).1 (hbd i j hi hj).2

/-- Witness for C18: `[[1,2],[3,4]]` plus and minus itself, in `double` arithmetic. -/
theorem add_then_sub_is_identity_witness :
    WF m22 ∧ ∃ S D, operatorAddFl roundDouble sevens m22 m22 = Except.ok S ∧
      operatorSubFl roundDouble sevens S m22 = Except.ok D ∧
      ∀ i j, i < m22.rowNum → j < m22.colNum →
        ∃ x y, m22.elem? i j = some x ∧ D.elem? i j = some y ∧
          |y - x| ≤ 1 / 1000000000 := by
  obtain ⟨S, D, h1, h2, _, _, _, _, h7⟩ :=
    add_then_sub_is_identity roundDouble sevens m22 m22 m22_wf m22_wf ⟨rfl, rfl⟩
  refine ⟨m22_wf, S, D, h1, h2, h7 rfl ?_⟩
  intro i j hi hj
  have hi2 : i < 2 := hi
  have hj2 : j < 2 := hj
  interval_cases i <;> interval_cases j <;> decide!

/-- Counterexample for C18 as stated. In `double` arithmetic
`([[1]] + [[1e17]]) - [[1e17]]` is `[[0]]`: both entries are `double` values, the sum
`1 + 1e17` rounds to `1e17`, and the result differs from `[[1]]` by `1`, more than
`1e-9`. -/
theorem add_then_sub_absorbs_small_term :
    roundDouble 1 = 1 ∧ roundDouble 100000000000000000 = 100000000000000000 ∧
    one11.rowNum = e17.rowNum ∧ one11.colNum = e17.colNum ∧
    ∃ S D, operatorAddFl roundDouble sevens one11 e17 = Except.ok S ∧
      operatorSubFl roundDouble sevens S e17 = Except.ok D ∧
      one11.elem? 0 0 = some 1 ∧ S.elem? 0 0 = some 100000000000000000 ∧
      D.elem? 0 0 = some 0 ∧ ¬ (|(0 : ℚ) - 1| ≤ 1 / 1000000000) := by
  refine ⟨by decide!, by decide!, rfl, rfl, _, _, rfl, rfl, by decide!, by decide!,
    by decide!, by decide!⟩

/-! ## The Moore-Penrose identities in rounded arithmetic -/

end Visp
